import Mathlib

/-!
# Command classifier, wrapper configuration and printers of o-color

Shallow embedding of `kubectl/subcommand.go`, `command/config.go`,
`printer/kubectl_describe.go` and `printer/openshift_status.go`. The
definitions come first, file by file; the lemmas and the theorems on the
claims follow. The conventions below are those of the first two files; the
printers have their own at the head of their sections.

* Go strings are modelled by `String`; `strings.HasPrefix` is the prefix test
  on the character lists (all prefixes used by the program are ASCII).
* Go slices of strings are modelled by `List String`; an index expression
  `args[i]` is modelled by `args[i]?`, and `none` stands for the run-time
  failure "index out of range".
* The Go `int` enumerations are modelled by `Int`, the zero value being `0`.
* A function that mutates a `*CLICommandInfo` takes the descriptor and
  returns the updated one.
-/

namespace kubectl

/-- The Go type `FormatOption` (an `int`). -/
abbrev FormatOption := Int

/-- The Go type `CLICommand` (an `int`). -/
abbrev CLICommand := Int

namespace FormatOption

def None : FormatOption := 0
def Wide : FormatOption := 1
def Json : FormatOption := 2
def Yaml : FormatOption := 3

end FormatOption

namespace CLICommand

def Create : CLICommand := 1
def Expose : CLICommand := 2
def Run : CLICommand := 3
def Set : CLICommand := 4
def Explain : CLICommand := 5
def Get : CLICommand := 6
def Edit : CLICommand := 7
def Delete : CLICommand := 8
def Rollout : CLICommand := 9
def Scale : CLICommand := 10
def Autoscale : CLICommand := 11
def Certificate : CLICommand := 12
def ClusterInfo : CLICommand := 13
def Top : CLICommand := 14
def Cordon : CLICommand := 15
def Uncordon : CLICommand := 16
def Drain : CLICommand := 17
def Taint : CLICommand := 18
def Describe : CLICommand := 19
def Logs : CLICommand := 20
def Attach : CLICommand := 21
def Exec : CLICommand := 22
def PortForward : CLICommand := 23
def Proxy : CLICommand := 24
def Cp : CLICommand := 25
def Auth : CLICommand := 26
def Diff : CLICommand := 27
def Apply : CLICommand := 28
def Patch : CLICommand := 29
def Replace : CLICommand := 30
def Wait : CLICommand := 31
def Convert : CLICommand := 32
def Kustomize : CLICommand := 33
def Label : CLICommand := 34
def Annotate : CLICommand := 35
def Completion : CLICommand := 36
def APIResources : CLICommand := 37
def APIVersions : CLICommand := 38
def Config : CLICommand := 39
def Plugin : CLICommand := 40
def Version : CLICommand := 41
def Options : CLICommand := 42
def Ctx : CLICommand := 43
def Ns : CLICommand := 44
def Debug : CLICommand := 45
def Projects : CLICommand := 46
def Status : CLICommand := 47
def NewProject : CLICommand := 48
def NewApp : CLICommand := 49
def Routes : CLICommand := 50
def Policy : CLICommand := 51

end CLICommand

/-- The Go struct `CLICommandInfo`. -/
structure CLICommandInfo where
  Subcommand : CLICommand
  FormatOption : FormatOption
  NoHeader : Bool
  Watch : Bool
  Help : Bool
  Recursive : Bool
  Short : Bool
  IsKrew : Bool
  Args : List String
  deriving DecidableEq, Repr

/-- The composite literal `&CLICommandInfo{Args: args}`: every other field
has its zero value. -/
def CLICommandInfo.withArgs (args : List String) : CLICommandInfo :=
  { Subcommand := 0, FormatOption := 0, NoHeader := false, Watch := false,
    Help := false, Recursive := false, Short := false, IsKrew := false,
    Args := args }

/-- The map `strToCLICommand`, as its list of key/value pairs. -/
def strToCLICommand : List (String × CLICommand) :=
  [ ("create", CLICommand.Create),
    ("expose", CLICommand.Expose),
    ("run", CLICommand.Run),
    ("set", CLICommand.Set),
    ("explain", CLICommand.Explain),
    ("get", CLICommand.Get),
    ("edit", CLICommand.Edit),
    ("delete", CLICommand.Delete),
    ("rollout", CLICommand.Rollout),
    ("scale", CLICommand.Scale),
    ("autoscale", CLICommand.Autoscale),
    ("certificate", CLICommand.Certificate),
    ("cluster-info", CLICommand.ClusterInfo),
    ("top", CLICommand.Top),
    ("cordon", CLICommand.Cordon),
    ("uncordon", CLICommand.Uncordon),
    ("drain", CLICommand.Drain),
    ("taint", CLICommand.Taint),
    ("describe", CLICommand.Describe),
    ("logs", CLICommand.Logs),
    ("attach", CLICommand.Attach),
    ("exec", CLICommand.Exec),
    ("port-forward", CLICommand.PortForward),
    ("proxy", CLICommand.Proxy),
    ("cp", CLICommand.Cp),
    ("auth", CLICommand.Auth),
    ("diff", CLICommand.Diff),
    ("apply", CLICommand.Apply),
    ("patch", CLICommand.Patch),
    ("replace", CLICommand.Replace),
    ("wait", CLICommand.Wait),
    ("convert", CLICommand.Convert),
    ("kustomize", CLICommand.Kustomize),
    ("label", CLICommand.Label),
    ("annotate", CLICommand.Annotate),
    ("completion", CLICommand.Completion),
    ("api-resources", CLICommand.APIResources),
    ("api-versions", CLICommand.APIVersions),
    ("config", CLICommand.Config),
    ("plugin", CLICommand.Plugin),
    ("version", CLICommand.Version),
    ("options", CLICommand.Options),
    ("ctx", CLICommand.Ctx),
    ("ns", CLICommand.Ns),
    ("debug", CLICommand.Debug),
    ("projects", CLICommand.Projects),
    ("status", CLICommand.Status),
    ("new-project", CLICommand.NewProject),
    ("new-app", CLICommand.NewApp),
    ("routes", CLICommand.Routes),
    ("policy", CLICommand.Policy) ]

/-- The map index expression `strToCLICommand[command]` in its two-value
form: the value and `true` for a key, the zero value and `false` otherwise. -/
def InspectCLICommand (command : String) : CLICommand × Bool :=
  match strToCLICommand.lookup command with
  | some sc => (sc, true)
  | none => (0, false)

/-- The Go function `strings.HasPrefix`. -/
def HasPrefix (s pre : String) : Bool :=
  pre.data.isPrefixOf s.data

/-- The inner `switch formatOption` of `CollectCommandlineOptions`
(it occurs twice in the source, with the same text). -/
def setFormatFromNext (formatOption : String) (info : CLICommandInfo) : CLICommandInfo :=
  if formatOption = "json" then { info with FormatOption := FormatOption.Json }
  else if formatOption = "yaml" then { info with FormatOption := FormatOption.Yaml }
  else if formatOption = "wide" then { info with FormatOption := FormatOption.Wide }
  else info

/-- The `default:` branch of both outer switches:
`if len(args)-1 > i { formatOption := args[i+1]; switch formatOption ... }`.
The index expression fails with `none` when `i+1` is out of range. -/
def lookAtNextArg (args : List String) (i : Nat) (info : CLICommandInfo) :
    Option CLICommandInfo :=
  if (args.length : Int) - 1 > (i : Int) then
    match args[i + 1]? with
    | some formatOption => some (setFormatFromNext formatOption info)
    | none => none
  else some info

/-- The body of the loop of `CollectCommandlineOptions` for the index `i`. -/
def collectBody (args : List String) (i : Nat) (info : CLICommandInfo) :
    Option CLICommandInfo :=
  match args[i]? with
  | none => none
  | some a =>
    if HasPrefix a "--output" then
      if a = "--output=json" then some { info with FormatOption := FormatOption.Json }
      else if a = "--output=yaml" then some { info with FormatOption := FormatOption.Yaml }
      else if a = "--output=wide" then some { info with FormatOption := FormatOption.Wide }
      else lookAtNextArg args i info
    else if HasPrefix a "-o" then
      if a = "-ojson" ∨ a = "-o=json" then some { info with FormatOption := FormatOption.Json }
      else if a = "-oyaml" ∨ a = "-o=yaml" then some { info with FormatOption := FormatOption.Yaml }
      else if a = "-owide" ∨ a = "-o=wide" then some { info with FormatOption := FormatOption.Wide }
      else lookAtNextArg args i info
    else if HasPrefix a "--short" then
      if a = "--short=true" then some { info with Short := true }
      else if a = "--short=false" then some { info with Short := false }
      else some { info with Short := true }
    else if a = "--no-headers" then some { info with NoHeader := true }
    else if a = "-w" ∨ a = "--watch" then some { info with Watch := true }
    else if a = "--recursive=true" ∨ a = "--recursive" then some { info with Recursive := true }
    else if a = "-h" ∨ a = "--help" then some { info with Help := true }
    else some info

/-- The loop `for i := range args` of `CollectCommandlineOptions`, with `n`
iterations left and `i` the current index. -/
def collectLoop (args : List String) : Nat → Nat → CLICommandInfo → Option CLICommandInfo
  | 0, _, info => some info
  | n + 1, i, info =>
    match collectBody args i info with
    | none => none
    | some info1 => collectLoop args n (i + 1) info1

/-- The Go function `CollectCommandlineOptions`. -/
def CollectCommandlineOptions (args : List String) (info : CLICommandInfo) :
    Option CLICommandInfo :=
  collectLoop args args.length 0 info

/-- The verb loop of `InspectCLICommandInfo` over the remaining arguments:
the first argument that is a key decides. -/
def inspectLoop (ret : CLICommandInfo) : List String → CLICommandInfo × Bool
  | [] => (ret, false)
  | a :: rest =>
    match InspectCLICommand a with
    | (cmd, true) => ({ ret with Subcommand := cmd }, true)
    | (_, false) => inspectLoop ret rest

/-- The Go function `InspectCLICommandInfo`. -/
def InspectCLICommandInfo (args : List String) : Option (CLICommandInfo × Bool) :=
  match CollectCommandlineOptions args (CLICommandInfo.withArgs args) with
  | none => none
  | some ret => some (inspectLoop ret args)

end kubectl

namespace command

/-- The Go struct `KubecolorConfig`. -/
structure KubecolorConfig where
  Plain : Bool
  DarkBackground : Bool
  ForceColor : Bool
  ShowKubecolorVersion : Bool
  KubectlCmd : String
  UseOcCli : Bool
  deriving DecidableEq, Repr

/-- The loop of `findAndRemoveBoolFlagIfExists`: `i` is the current index and
the last argument is the part of `args` from index `i` on. At the first
`arg == key` it returns `append(args[:i], args[i+1:]...)` and `true`. -/
def findAndRemoveLoop (args : List String) (key : String) :
    Nat → List String → List String × Bool
  | _, [] => (args, false)
  | i, arg :: rest =>
    if arg = key then (args.take i ++ args.drop (i + 1), true)
    else findAndRemoveLoop args key (i + 1) rest

/-- The Go function `findAndRemoveBoolFlagIfExists`. -/
def findAndRemoveBoolFlagIfExists (args : List String) (key : String) :
    List String × Bool :=
  findAndRemoveLoop args key 0 args

/-- The Go function `ResolveConfig`; `env` is the value that
`os.Getenv("KUBECTL_COMMAND")` returns. -/
def ResolveConfig (env : String) (args : List String) : List String × KubecolorConfig :=
  let r1 := findAndRemoveBoolFlagIfExists args "--plain"
  let r2 := findAndRemoveBoolFlagIfExists r1.1 "--light-background"
  let r3 := findAndRemoveBoolFlagIfExists r2.1 "--force-colors"
  let r4 := findAndRemoveBoolFlagIfExists r3.1 "--kubecolor-version"
  let r5 := findAndRemoveBoolFlagIfExists r4.1 "--use-oc-cli"
  let darkBackground := !r2.2
  let kubectlCmd := if r5.2 then "oc" else if env ≠ "" then env else "kubectl"
  (r5.1, { Plain := r1.2, DarkBackground := darkBackground, ForceColor := r3.2,
           ShowKubecolorVersion := r4.2, KubectlCmd := kubectlCmd, UseOcCli := r5.2 })

/-- The five flags that `ResolveConfig` looks for, in the order of its calls. -/
def wrapperFlags : List String :=
  ["--plain", "--light-background", "--force-colors", "--kubecolor-version", "--use-oc-cli"]

end command

/-! ## The option scan as a fold with one token of lookahead -/

namespace kubectl

/-- What the `default:` branch does with the token after the current one. -/
def applyNext : Option String → CLICommandInfo → CLICommandInfo
  | none, info => info
  | some formatOption, info => setFormatFromNext formatOption info

/-- The effect of one loop iteration on the token `a` followed by `next`. -/
def stepTok (a : String) (next : Option String) (info : CLICommandInfo) : CLICommandInfo :=
  if HasPrefix a "--output" then
    if a = "--output=json" then { info with FormatOption := FormatOption.Json }
    else if a = "--output=yaml" then { info with FormatOption := FormatOption.Yaml }
    else if a = "--output=wide" then { info with FormatOption := FormatOption.Wide }
    else applyNext next info
  else if HasPrefix a "-o" then
    if a = "-ojson" ∨ a = "-o=json" then { info with FormatOption := FormatOption.Json }
    else if a = "-oyaml" ∨ a = "-o=yaml" then { info with FormatOption := FormatOption.Yaml }
    else if a = "-owide" ∨ a = "-o=wide" then { info with FormatOption := FormatOption.Wide }
    else applyNext next info
  else if HasPrefix a "--short" then
    if a = "--short=true" then { info with Short := true }
    else if a = "--short=false" then { info with Short := false }
    else { info with Short := true }
  else if a = "--no-headers" then { info with NoHeader := true }
  else if a = "-w" ∨ a = "--watch" then { info with Watch := true }
  else if a = "--recursive=true" ∨ a = "--recursive" then { info with Recursive := true }
  else if a = "-h" ∨ a = "--help" then { info with Help := true }
  else info

/-- The token that follows the head of `a :: rest`, when `nxt` follows the list. -/
def nextOf (rest : List String) (nxt : Option String) : Option String :=
  match rest with
  | [] => nxt
  | b :: _ => some b

/-- The scan of a segment of the argument list that is followed by `nxt`. -/
def scan : List String → Option String → CLICommandInfo → CLICommandInfo
  | [], _, info => info
  | a :: rest, nxt, info => scan rest nxt (stepTok a (nextOf rest nxt) info)

/-- The result of `InspectCLICommandInfo` without the field `Args` (set to the
empty list): the classification proper, with the flag `found`. -/
def forgetArgs (r : CLICommandInfo × Bool) : CLICommandInfo × Bool :=
  ({ r.1 with Args := [] }, r.2)

end kubectl

/-! ## The describe printer (`printer/kubectl_describe.go`)

In the printers a Go string is the list of its characters. The loop of a
printer runs over the lines that `scanner.Text()` yields; `bufio.scanLines`
gives these lines for the text of the input stream, with the point at which
the scanner gives up. What `Print` writes to `w` is the text it returns. As
before `none` stands for a run-time failure (index or slice out of range). -/

namespace printer

/-- Modelled from the spec: the package `color` is not among the sources. A
colour is one of the eight ANSI colours that the package names. -/
inductive Color
  | Black | Red | Green | Yellow | Blue | Magenta | Cyan | White
  deriving DecidableEq, Repr

/-- Modelled from the spec: the digits of the SGR code of a colour, `30` to
`37` (the expected outputs of the tests show `33` for Yellow, `36` for Cyan,
`35` for Magenta, `32` for Green, `37` for White and `34` for Blue). -/
def Color.digits : Color → List Char
  | .Black => "30".data
  | .Red => "31".data
  | .Green => "32".data
  | .Yellow => "33".data
  | .Blue => "34".data
  | .Magenta => "35".data
  | .Cyan => "36".data
  | .White => "37".data

/-- The escape character, `\x1b`. -/
def esc : Char := Char.ofNat 27

/-- Modelled from the spec: `color.Apply(val, c)` "wraps text in the
appropriate start/reset escape sequence": `ESC[<code>m`, the text, `ESC[0m`. -/
def Apply (val : List Char) (c : Color) : List Char :=
  esc :: '[' :: (c.digits ++ 'm' :: (val ++ [esc, '[', '0', 'm']))

namespace strings

/-- The Go function `strings.HasPrefix`. -/
def HasPrefix (s pre : List Char) : Bool := pre.isPrefixOf s

/-- The Go function `strings.HasSuffix`. -/
def HasSuffix (s suf : List Char) : Bool := suf.isSuffixOf s

/-- The Go function `strings.Contains`. -/
def Contains : List Char → List Char → Bool
  | [], sub => sub.isEmpty
  | c :: cs, sub => sub.isPrefixOf (c :: cs) || Contains cs sub

/-- The Go function `strings.TrimLeft(s, cutset)`. -/
def TrimLeft (s cutset : List Char) : List Char :=
  s.dropWhile fun c => cutset.contains c

/-- The Go function `strings.TrimRight(s, cutset)`: every trailing character
that is in `cutset` is removed. -/
def TrimRight (s cutset : List Char) : List Char :=
  s.rdropWhile fun c => cutset.contains c

/-- The Go function `strings.TrimSuffix`: one trailing `suf` is removed. -/
def TrimSuffix (s suf : List Char) : List Char :=
  if HasSuffix s suf then s.take (s.length - suf.length) else s

/-- The Go function `unicode.IsSpace`. -/
def IsSpace (c : Char) : Bool :=
  let n := c.toNat
  (9 ≤ n ∧ n ≤ 13) ∨ n = 32 ∨ n = 133 ∨ n = 160 ∨ n = 5760 ∨ (8192 ≤ n ∧ n ≤ 8202) ∨
    n = 8232 ∨ n = 8233 ∨ n = 8239 ∨ n = 8287 ∨ n = 12288

/-- The Go function `strings.TrimSpace`. -/
def TrimSpace (s : List Char) : List Char :=
  (s.dropWhile IsSpace).rdropWhile IsSpace

/-- The Go function `strings.Index(s, sep)` for a separator of one character
(the source calls it with `" "`): the index of its first occurrence, or `-1`. -/
def Index (s : List Char) (sep : Char) : Int :=
  if sep ∈ s then (s.takeWhile fun c => c != sep).length else -1

/-- The Go function `strings.Split(s, sep)` for a separator of one character
(the source calls it with `","`). -/
def Split : List Char → Char → List (List Char)
  | [], _ => [[]]
  | c :: cs, sep =>
    if c = sep then [] :: Split cs sep
    else
      match Split cs sep with
      | [] => [[c]]
      | h :: t => (c :: h) :: t

/-- The Go function `strings.SplitN(s, sep, n)` for a separator of one
character (the source calls it with `" "` and `n = 2`). -/
def SplitN : List Char → Char → Nat → List (List Char)
  | _, _, 0 => []
  | s, _, 1 => [s]
  | s, sep, n + 2 =>
    if sep ∈ s then
      (s.takeWhile fun c => c != sep) :: SplitN ((s.dropWhile fun c => c != sep).tail) sep (n + 1)
    else [s]

end strings

/-- The slice expression `s[:i]`, which fails unless `0 ≤ i ≤ len(s)`. -/
def sliceTo (s : List Char) (i : Int) : Option (List Char) :=
  if 0 ≤ i ∧ i ≤ (s.length : Int) then some (s.take i.toNat) else none

/-- The slice expression `s[i:]`, which fails unless `0 ≤ i ≤ len(s)`. -/
def sliceFrom (s : List Char) (i : Int) : Option (List Char) :=
  if 0 ≤ i ∧ i ≤ (s.length : Int) then some (s.drop i.toNat) else none

/-- The slice expression `xs[1:]`, which fails on an empty slice. -/
def tailSlice {α : Type} : List α → Option (List α)
  | [] => none
  | _ :: rest => some rest

namespace spaces

/-- Modelled from the spec: the regular expression `spaces` is not among the
sources; the spec has the line split "on runs of two-or-more consecutive
space characters", and the comment in `Print` says that one leading space is
not matched. `splitRuns line = (c0, [(w1, c1), ..., (wk, ck)])` when `line` is
`c0`, `w1` spaces, `c1`, ..., `wk` spaces, `ck`, where the runs are the
maximal runs of two or more spaces, from left to right. -/
def splitRuns : List Char → List Char × List (Nat × List Char)
  | [] => ([], [])
  | c :: cs =>
    match splitRuns cs with
    | (col, rest) =>
      if c = ' ' then
        match col, rest with
        | [], [] => ([' '], [])
        | [], (w, col1) :: rest1 => ([], (w + 1, col1) :: rest1)
        | d :: col1, rest => if d = ' ' then ([], (2, col1) :: rest) else (' ' :: d :: col1, rest)
      else (c :: col, rest)

/-- The index pairs `[start, end)` of the runs, the first of which starts at
`pos`. -/
def runIndices : Nat → List (Nat × List Char) → List (Nat × Nat)
  | _, [] => []
  | pos, (w, col) :: rest => (pos, pos + w) :: runIndices (pos + w + col.length) rest

/-- Modelled from the spec: `spaces.FindAllStringIndex(line, -1)`, the index
pairs of all the runs. -/
def FindAllStringIndex (line : List Char) : List (Nat × Nat) :=
  runIndices (splitRuns line).1.length (splitRuns line).2

/-- Modelled from the spec: `spaces.Split(line, -1)`, the texts before,
between and after the runs (one text more than there are runs). -/
def Split (line : List Char) : List (List Char) :=
  (splitRuns line).1 :: (splitRuns line).2.map Prod.snd

end spaces

/-- Modelled from the spec: `findIndent` is not among the sources; the spec
has it "count leading space characters". -/
def findIndent (line : List Char) : Nat :=
  (line.takeWhile fun c => c = ' ').length

/-- Modelled from the spec: `toSpaces` is not among the sources; the spec has
it "re-derive the literal indent string from that count". -/
def toSpaces (n : Nat) : List Char :=
  List.replicate n ' '

/-- The Go struct `DescribePrinter`; the field `TablePrinter` is used only to
call `printLineAsTableFormat`, which is among the collaborators. -/
structure DescribePrinter where
  DarkBackground : Bool
  deriving DecidableEq, Repr

/-- The functions that `Print` calls and that are not among the sources,
taken as parameters: the key colour by indentation, the value colour by type,
the text that the table printer writes for a line (given the background), and
`strings.ToLower`. -/
structure Collaborators where
  getColorByKeyIndent : Nat → Nat → Bool → Color
  getColorByValueType : List Char → Bool → Color
  printLineAsTableFormat : List Char → Bool → List Char
  ToLower : List Char → List Char

def routeDetectionKeywords : List (List Char) :=
  ["Requested Host:".data, "TLS Termination:".data, "Ingress:".data]

/-- The keys of the map `routeSpecificKeys` (every value is `true`, and the
source only tests whether a key is present). -/
def routeSpecificKeys : List (List Char) :=
  ["Name:".data, "Namespace:".data, "Created:".data, "Labels:".data, "Annotations:".data,
   "Requested Host:".data, "Path:".data, "TLS Termination:".data, "Service:".data,
   "Weight:".data, "Endpoints:".data, "Ingress:".data]

def routeKeyColor : Color := Color.Yellow
def routeResourceNameColor : Color := Color.Green
def routeEndpointColor : Color := Color.Cyan
def routeTLSColorEdge : Color := Color.Blue
def routeTLSColorPassthrough : Color := Color.Yellow
def routeTLSColorReencrypt : Color := Color.Yellow
def routeCommaColor : Color := Color.White

def ocRouteKeyColor : Color := routeKeyColor
def ocRouteResourceNameColor : Color := routeResourceNameColor
def ocRouteEndpointColor : Color := routeEndpointColor
def ocRouteTLSColorEdge : Color := routeTLSColorEdge
def ocRouteTLSColorPassthrough : Color := routeTLSColorPassthrough
def ocRouteTLSColorReencrypt : Color := routeTLSColorReencrypt
def ocRouteCommaColor : Color := routeCommaColor

/-- The local `basicIndentWidth` of `Print`. -/
def basicIndentWidth : Nat := 2

/-- Lines 62 to 69 of `Print`: the route flag after the line was inspected. -/
def detectRoute (isRoute : Bool) (line : List Char) : Bool :=
  if !isRoute then routeDetectionKeywords.any fun keyword => strings.Contains line keyword
  else isRoute

/-- Lines 95 to 99: the first column is dropped when it is empty. -/
def dropEmptyFirst (columns : List (List Char)) : List (List Char) :=
  match columns with
  | [] => columns
  | c :: rest => if c = [] then rest else columns

/-- Lines 92 to 99: the columns of a line. -/
def columnsOf (line : List Char) : List (List Char) :=
  dropEmptyFirst (spaces.Split line)

/-- Lines 104 to 118: with more than one leading space the first index pair
is dropped (`spacesIndices[1:]`). -/
def dropIndentIndex (indentCnt : Nat) (spacesIndices : List (Nat × Nat)) :
    Option (List (Nat × Nat)) :=
  if indentCnt > 0 then
    if indentCnt > 1 then tailSlice spacesIndices else some spacesIndices
  else some spacesIndices

/-- Lines 120 to 123: the width of the first remaining run, or `0`. -/
def spacesCntOf (spacesIndices : List (Nat × Nat)) : Nat :=
  match spacesIndices with
  | [] => 0
  | p :: _ => p.2 - p.1

/-- Lines 147 to 159: the key colour in a route. -/
def routeKeyColorOf (dp : DescribePrinter) (deps : Collaborators) (indentCnt : Nat)
    (keyPart : List Char) (effectiveKeyColor : Color) : Color :=
  let trimmedSpaceKeyPart := strings.TrimSpace keyPart
  let keyForMapLookup := keyPart
  if keyForMapLookup ∈ routeSpecificKeys then ocRouteKeyColor
  else if indentCnt > basicIndentWidth then
    if trimmedSpaceKeyPart ++ ":".data ∈ routeSpecificKeys then ocRouteKeyColor
    else deps.getColorByKeyIndent indentCnt (basicIndentWidth + 1) dp.DarkBackground
  else effectiveKeyColor

/-- Lines 164 to 182: the value colour in a route, for a line with a value. -/
def routeValColorOf (deps : Collaborators) (keyPart valuePart : List Char)
    (effectiveValColor : Color) : Color :=
  let trimmedSpaceKeyPart := strings.TrimSpace keyPart
  let k := strings.TrimSuffix trimmedSpaceKeyPart ":".data
  if k = "Name".data ∨ k = "Requested Host".data then ocRouteResourceNameColor
  else if k = "Service".data then ocRouteResourceNameColor
  else if k = "Endpoints".data then ocRouteEndpointColor
  else if k = "TLS Termination".data then
    if strings.HasPrefix (deps.ToLower valuePart) "edge".data then ocRouteTLSColorEdge
    else if strings.HasPrefix (deps.ToLower valuePart) "passthrough".data then
      ocRouteTLSColorPassthrough
    else if strings.HasPrefix (deps.ToLower valuePart) "reencrypt".data then
      ocRouteTLSColorReencrypt
    else effectiveValColor
  else effectiveValColor

/-- Lines 132 to 189: `effectiveKeyColor` and `effectiveValColor`. The index
expression `columns[0]` of line 133 fails on an empty `columns`. -/
def effectiveColors (dp : DescribePrinter) (deps : Collaborators) (isRoute : Bool)
    (indentCnt : Nat) (columns : List (List Char)) : Option (Color × Color) :=
  match columns[0]? with
  | none => none
  | some col0 =>
    let effectiveKeyColor := deps.getColorByKeyIndent indentCnt basicIndentWidth dp.DarkBackground
    let effectiveValColor := deps.getColorByValueType col0 dp.DarkBackground
    let effectiveValColor :=
      if columns.length > 1 then
        match columns[1]? with
        | some col1 => deps.getColorByValueType col1 dp.DarkBackground
        | none => effectiveValColor
      else effectiveValColor
    if isRoute ∧ columns.length > 0 then
      let keyPart := col0
      let effectiveKeyColor := routeKeyColorOf dp deps indentCnt keyPart effectiveKeyColor
      if columns.length > 1 then
        match columns[1]? with
        | some valuePart =>
          some (effectiveKeyColor, routeValColorOf deps keyPart valuePart effectiveValColor)
        | none => none
      else if columns.length = 1 ∧ ¬ strings.HasSuffix keyPart ":".data then
        let effectiveValColor := deps.getColorByValueType keyPart dp.DarkBackground
        some (effectiveValColor, effectiveValColor)
      else some (effectiveKeyColor, effectiveValColor)
    else some (effectiveKeyColor, effectiveValColor)

/-- Lines 213 to 217: the key with its trailing colons cut off, coloured, and
a colon appended when the key ends in one. -/
def coloredKeyOutput (keyToPrint : List Char) (effectiveKeyColor : Color) : List Char :=
  let finalKeyString := strings.TrimRight keyToPrint ":".data
  let out := Apply finalKeyString effectiveKeyColor
  if strings.HasSuffix keyToPrint ":".data then out ++ ":".data else out

/-- Lines 234 to 239: the value of a `Service` line with a weight. -/
def serviceOutput (dp : DescribePrinter) (deps : Collaborators) (valueOutput : List Char) :
    Option (List Char) :=
  let parts := strings.SplitN valueOutput ' ' 2
  match parts[0]? with
  | none => none
  | some p0 =>
    let serviceNameColored := Apply p0 ocRouteResourceNameColor
    if parts.length > 1 then
      match parts[1]? with
      | none => none
      | some p1 =>
        some (serviceNameColored ++
          (" ".data ++ Apply p1 (deps.getColorByValueType p1 dp.DarkBackground)))
    else some (serviceNameColored ++ [])

/-- Lines 245 to 252: the list `coloredEpStrings`; the coloured comma and a
space follow every endpoint but the last. -/
def coloredEpStrings : List (List Char) → List (List Char)
  | [] => []
  | [ep] => [Apply (strings.TrimSpace ep) ocRouteEndpointColor]
  | ep :: rest =>
    Apply (strings.TrimSpace ep) ocRouteEndpointColor ::
      (Apply ",".data ocRouteCommaColor ++ " ".data) :: coloredEpStrings rest

/-- Lines 244 to 253: the value of an `Endpoints` line. -/
def endpointsOutput (valueOutput : List Char) : List Char :=
  (coloredEpStrings (strings.Split valueOutput ',')).flatten

/-- Lines 256 to 280: the value of a `TLS Termination` line. -/
def tlsOutput (dp : DescribePrinter) (deps : Collaborators) (valueOutput : List Char)
    (effectiveValColor : Color) : Option (List Char) :=
  let spaceIdx := strings.Index valueOutput ' '
  let words : Option (List Char × List Char) :=
    if spaceIdx ≠ -1 then
      match sliceTo valueOutput spaceIdx, sliceFrom valueOutput spaceIdx with
      | some firstWord, some remainingText => some (firstWord, remainingText)
      | _, _ => none
    else some (valueOutput, [])
  match words with
  | none => none
  | some (firstWord, remainingText) =>
    let lowerFirstWord := deps.ToLower firstWord
    let coloredFirstWord :=
      if lowerFirstWord = "edge".data then Apply firstWord ocRouteTLSColorEdge
      else if lowerFirstWord = "passthrough".data then Apply firstWord ocRouteTLSColorPassthrough
      else if lowerFirstWord = "reencrypt".data then Apply firstWord ocRouteTLSColorReencrypt
      else Apply firstWord effectiveValColor
    if remainingText ≠ [] then
      some (coloredFirstWord ++
        Apply remainingText (deps.getColorByValueType remainingText dp.DarkBackground))
    else some coloredFirstWord

/-- Lines 228 to 284: the value as a route renders it, when one of the three
cases takes the line over (`some (some _)`); `some none` when the line falls
through to the default printing. -/
def routeValueOutput (dp : DescribePrinter) (deps : Collaborators) (col0 valueOutput : List Char)
    (effectiveValColor : Color) : Option (Option (List Char)) :=
  let trimmedKeyForSwitch := strings.TrimSuffix (strings.TrimSpace col0) ":".data
  if trimmedKeyForSwitch = "Service".data then
    if strings.Contains valueOutput "(".data ∧ strings.Contains valueOutput "%".data then
      (serviceOutput dp deps valueOutput).map some
    else some none
  else if trimmedKeyForSwitch = "Endpoints".data then some (some (endpointsOutput valueOutput))
  else if trimmedKeyForSwitch = "TLS Termination".data then
    (tlsOutput dp deps valueOutput effectiveValColor).map some
  else some none

/-- Lines 76 to 287 of `Print`: what the loop body writes for a non-empty
`line`, `isRoute` being the flag after the line was inspected. (The two `if`
branches of lines 197 to 208 are empty and change nothing.) -/
def printLine (dp : DescribePrinter) (deps : Collaborators) (isRoute : Bool)
    (line : List Char) : Option (List Char) :=
  let spacesIndices := spaces.FindAllStringIndex line
  let columns := columnsOf line
  let indentCnt := findIndent line
  let indent := toSpaces indentCnt
  match dropIndentIndex indentCnt spacesIndices with
  | none => none
  | some spacesIndices =>
    let spacesCnt := spacesCntOf spacesIndices
    if columns.length > 2 then
      some (deps.printLineAsTableFormat line dp.DarkBackground)
    else
      match effectiveColors dp deps isRoute indentCnt columns, columns[0]? with
      | some (effectiveKeyColor, effectiveValColor), some keyToPrint =>
        let coloredKey := coloredKeyOutput keyToPrint effectiveKeyColor
        if columns.length = 1 then some (indent ++ coloredKey ++ "\n".data)
        else
          match columns[1]? with
          | none => none
          | some valueOutput =>
            let special :=
              if isRoute then routeValueOutput dp deps keyToPrint valueOutput effectiveValColor
              else some none
            match special with
            | none => none
            | some (some out) =>
              some (indent ++ coloredKey ++ toSpaces spacesCnt ++ out ++ "\n".data)
            | some none =>
              some (indent ++ coloredKey ++ toSpaces spacesCnt ++
                Apply valueOutput effectiveValColor ++ "\n".data)
      | _, _ => none

/-- The state of the loop of `Print`: the route flag and the text written. -/
structure PrintState where
  isRoute : Bool
  w : List Char
  deriving DecidableEq, Repr

/-- Lines 71 to 288: what the loop body writes for `line`, `isRoute` being
the flag after the line was inspected: a newline alone for the empty line. -/
def writeLine (dp : DescribePrinter) (deps : Collaborators) (isRoute : Bool)
    (line : List Char) : Option (List Char) :=
  if line = [] then some "\n".data else printLine dp deps isRoute line

/-- One iteration of the loop of `Print`, lines 59 to 288. -/
def printStep (dp : DescribePrinter) (deps : Collaborators) (st : PrintState)
    (line : List Char) : Option PrintState :=
  let isRoute := detectRoute st.isRoute line
  match writeLine dp deps isRoute line with
  | none => none
  | some out => some { isRoute := isRoute, w := st.w ++ out }

/-- The loop of `Print` from the state `st` over the remaining lines. -/
def printLoop (dp : DescribePrinter) (deps : Collaborators) :
    PrintState → List (List Char) → Option PrintState
  | st, [] => some st
  | st, line :: rest =>
    match printStep dp deps st line with
    | none => none
    | some st1 => printLoop dp deps st1 rest

/-- The loop of the Go method `DescribePrinter.Print`, lines 58 to 288, over
`lines`, the lines that `scanner.Text()` yields one after the other: the
route flag starts `false`. The method on the text of the input stream, with
the scanner in front of this loop, is `DescribePrinter.Print`. -/
def Print (dp : DescribePrinter) (deps : Collaborators) (lines : List (List Char)) :
    Option PrintState :=
  printLoop dp deps { isRoute := false, w := [] } lines

/-! ### The reader: `bufio.Scanner` with its default buffer

`Print` reads `r` through `bufio.NewScanner(r)`; it neither calls
`scanner.Buffer` nor reads `scanner.Err()`. With the default split function
`ScanLines` a token is a piece of the text up to a newline, or up to the end
of the text. The buffer of the scanner grows up to `MaxScanTokenSize` bytes:
when it is full and holds no newline, `Scan` sets the error `ErrTooLong` and
returns `false`, and the loop of `Print` ends there, silently. -/

namespace bufio

/-- The Go constant `bufio.MaxScanTokenSize`, 64 KiB: the size that the
buffer of a scanner does not exceed. -/
def MaxScanTokenSize : Nat := 64 * 1024

/-- The number of bytes of a text, `len(s)` in Go: the text is UTF-8. -/
def byteLen (s : List Char) : Nat :=
  (s.map Char.utf8Size).sum

/-- The Go function `dropCR`: a carriage return at the end is dropped. -/
def dropCR (data : List Char) : List Char :=
  if data.getLast? = some '\r' then data.dropLast else data

/-- The pieces that `ScanLines` cuts the text into, before `dropCR`: a piece
ends at a newline, which is not part of it, or at the end of the text; after
the last newline an empty rest is no piece (`atEOF && len(data) == 0`). -/
def rawLines : List Char → List (List Char)
  | [] => []
  | c :: cs =>
    if c = '\n' then [] :: rawLines cs
    else
      match rawLines cs with
      | [] => [[c]]
      | l :: ls => (c :: l) :: ls

/-- The lines that `scanner.Scan()` and `scanner.Text()` yield for the text
`input` that the reader delivers, in order. A piece of fewer than
`MaxScanTokenSize` bytes fits the buffer with its newline and is yielded
without its carriage return. At the first piece of `MaxScanTokenSize` bytes or
more the buffer is full before the newline or the end of the text is seen:
`Scan` returns `false` and yields nothing more (a reader that reports the end
of the text at once with the last bytes, not in a read of its own, lets one
last piece of exactly `MaxScanTokenSize` bytes through: that reader is not
modelled). -/
def scanLines (input : List Char) : List (List Char) :=
  ((rawLines input).takeWhile fun l => decide (byteLen l < MaxScanTokenSize)).map dropCR

end bufio

/-- The Go method `DescribePrinter.Print`, lines 53 to 289, on the text
`input` that the reader `r` delivers: the scanner, and the loop over the
lines that it yields. -/
def DescribePrinter.Print (dp : DescribePrinter) (deps : Collaborators)
    (input : List Char) : Option PrintState :=
  printer.Print dp deps (bufio.scanLines input)

/-! ### Descriptions used in the statements -/

/-- The text of the runs and columns after the first column: for each pair
`(w, c)`, `w` spaces and then `c`. -/
def spaces.joinRuns (rest : List (Nat × List Char)) : List Char :=
  (rest.map fun p => List.replicate p.1 ' ' ++ p.2).flatten

/-- Whether a line contains one of the three route detection labels. -/
def hasRouteLabel (line : List Char) : Bool :=
  routeDetectionKeywords.any fun keyword => strings.Contains line keyword

/-- The text without its colour sequences: each escape character is removed
with what follows it up to and including the next `m` (`inSeq` tells that
such a sequence is being skipped). -/
def stripAux : Bool → List Char → List Char
  | _, [] => []
  | false, c :: cs => if c = esc then stripAux true cs else c :: stripAux false cs
  | true, c :: cs => if c = 'm' then stripAux false cs else stripAux true cs

/-- The text without its colour start and reset sequences. -/
def stripColors (s : List Char) : List Char :=
  stripAux false s

/-- The text of an `Endpoints` value as the route rendering rewrites it:
the comma-separated parts, each without the white space around it, joined by
a comma and one space. -/
def endpointsText (valueOutput : List Char) : List Char :=
  ", ".data.intercalate ((strings.Split valueOutput ',').map strings.TrimSpace)

/-- That `out` is a rendering of the text `v`: it begins with a colour
sequence, without its colour sequences it is `v` (when `v` has no escape
character), and it has no newline when `v` has none. -/
def Renders (out v : List Char) : Prop :=
  (∃ x c t, out = Apply x c ++ t) ∧
    (esc ∉ v → ∀ r, stripAux false (out ++ r) = v ++ stripAux false r) ∧
    ('\n' ∉ v → '\n' ∉ out)

/-- Modelled from the spec: collaborators for the worked examples, after the
expected outputs of the tests: key colours alternate with the depth between
Yellow and White (Black on a light background), a value is Yellow for
`<none>`, Green for `true` and `false`, Magenta for digits and Cyan
otherwise; the table printer writes the line as it is; `ToLower` lowers the
ASCII letters. -/
def exampleCollaborators : Collaborators where
  getColorByKeyIndent := fun indent width dark =>
    if indent / width % 2 = 1 then (if dark then Color.White else Color.Black)
    else Color.Yellow
  getColorByValueType := fun val _ =>
    if val = "<none>".data then Color.Yellow
    else if val = "true".data ∨ val = "false".data then Color.Green
    else if val ≠ [] ∧ val.all Char.isDigit then Color.Magenta
    else Color.Cyan
  printLineAsTableFormat := fun line _ => line ++ "\n".data
  ToLower := fun s => s.map Char.toLower

end printer

/-! ## The status printer (`printer/openshift_status.go`)

The regular expressions of `colorizeLine` are compiled by the Go library
`regexp`; each is given here by its match at a position of the text: the
length of the match that the leftmost-first search finds when it starts there,
given the character before the position (for `\b`). -/

namespace printer

namespace regexp

/-- The class `\s` of the Go regular expressions: `[\t\n\f\r ]`. -/
def isSpace (c : Char) : Bool :=
  c = '\t' ∨ c = '\n' ∨ c = Char.ofNat 12 ∨ c = '\r' ∨ c = ' '

/-- The class `\w` of the Go regular expressions: `[0-9A-Za-z_]`. -/
def isWord (c : Char) : Bool :=
  c.isAlphanum ∨ c = '_'

/-- The assertion `\b` between the character before a position and the
character at it (`none` at the ends of the text): exactly one of the two is
a word character. -/
def boundary (before next : Option Char) : Bool :=
  before.any isWord != next.any isWord

/-- The match of a literal followed by `\S+` (or `[^\s]+`) at the start of
`s`: the literal and the longest run of non-space characters, which is not
empty. -/
def matchLitNonSpace (lit s : List Char) : Option Nat :=
  if lit.isPrefixOf s then
    let run := (s.drop lit.length).takeWhile fun c => !isSpace c
    if run ≠ [] then some (lit.length + run.length) else none
  else none

/-- The match of `\bword\b` at the start of `s`, for a word that is not
empty: the word, with a boundary before it and a boundary after it. -/
def matchWord (word : List Char) (before : Option Char) (s : List Char) : Option Nat :=
  if word.isPrefixOf s ∧ boundary before s.head? ∧
      boundary word.getLast? (s.drop word.length).head? then
    some word.length
  else none

/-- The loop of `ReplaceAllStringFunc`: `before` is the character before the
position, `skip` the number of characters still to pass of a match that was
replaced. The search goes on after the end of a match. (None of the
expressions of `colorizeLine` matches the empty text; a match of length `0`
is no match here.) -/
def replaceLoop (re : Option Char → List Char → Option Nat) (repl : List Char → List Char) :
    Option Char → Nat → List Char → List Char
  | _, _, [] => []
  | _, skip + 1, c :: cs => replaceLoop re repl (some c) skip cs
  | before, 0, c :: cs =>
    match re before (c :: cs) with
    | some (n + 1) => repl ((c :: cs).take (n + 1)) ++ replaceLoop re repl (some c) n cs
    | _ => c :: replaceLoop re repl (some c) 0 cs

/-- The Go method `(*Regexp).ReplaceAllStringFunc`: every match, from left to
right and without overlap, is replaced by `repl` of it. -/
def ReplaceAllStringFunc (re : Option Char → List Char → Option Nat) (src : List Char)
    (repl : List Char → List Char) : List Char :=
  replaceLoop re repl none 0 src

end regexp

/-- The expression `(svc/\S+)` of line 34. -/
def reService : Option Char → List Char → Option Nat :=
  fun _ s => regexp.matchLitNonSpace "svc/".data s

/-- The expression `(dc/\S+)` of line 40. -/
def reDc : Option Char → List Char → Option Nat :=
  fun _ s => regexp.matchLitNonSpace "dc/".data s

/-- The expression `(https?://[^\s]+)` of line 47: with the `s` when it is
there. -/
def reURL : Option Char → List Char → Option Nat :=
  fun _ s =>
    match regexp.matchLitNonSpace "https://".data s with
    | some n => some n
    | none => regexp.matchLitNonSpace "http://".data s

/-- The expression `\bword\b` that line 62 compiles for a key of `keywords`. -/
def reKeyword (word : List Char) : Option Char → List Char → Option Nat :=
  regexp.matchWord word

/-- The map `keywords` of lines 54 to 59: each key `\bword\b` is given by its
word. -/
def keywords : List (List Char × Color) :=
  [("running".data, Color.Green), ("deployed".data, Color.Green), ("failed".data, Color.Red)]

/-- The Go struct `OpenShiftStatusPrinter`. -/
structure OpenShiftStatusPrinter where
  DarkBackground : Bool
  deriving DecidableEq, Repr

/-- The Go method `OpenShiftStatusPrinter.colorizeLine`. The order in which
`range` yields the entries of the map `keywords` is not specified; `order` is
that order, an arrangement of `keywords`. -/
def OpenShiftStatusPrinter.colorizeLine (_p : OpenShiftStatusPrinter)
    (order : List (List Char × Color)) (line : List Char) : List Char :=
  if strings.HasPrefix line "In project ".data then Apply line Color.Cyan
  else
    let line := regexp.ReplaceAllStringFunc reService line fun m => Apply m Color.Green
    let line := regexp.ReplaceAllStringFunc reDc line fun m => Apply m Color.Blue
    let line := regexp.ReplaceAllStringFunc reURL line fun m => Apply m Color.Magenta
    order.foldl
      (fun line kw => regexp.ReplaceAllStringFunc (reKeyword kw.1) line fun m => Apply m kw.2)
      line

/-! ### Descriptions used in the statements on the status printer -/

/-- That the expression `re` has no match in `s`: it matches at no position
of `s`. -/
def regexp.NoMatch (re : Option Char → List Char → Option Nat) (s : List Char) : Prop :=
  ∀ u v, s = u ++ v → re u.getLast? v = none

/-- The word `w` as a table of words and colours renders it: wrapped in the
colour of its first entry in the table, or as it is when it has none. -/
def colorBy (table : List (List Char × Color)) (w : List Char) : List Char :=
  match table.lookup w with
  | some c => Apply w c
  | none => w

/-- The loop of `mapWords`: `acc` holds, in reverse, the word characters read
since the last character that is none. -/
def mapWordsLoop (f : List Char → List Char) : List Char → List Char → List Char
  | acc, [] => if acc = [] then [] else f acc.reverse
  | acc, c :: cs =>
    if regexp.isWord c then mapWordsLoop f (c :: acc) cs
    else (if acc = [] then [] else f acc.reverse) ++ c :: mapWordsLoop f [] cs

/-- The text in which every maximal run `w` of word characters (`\w`) is
replaced by `f w`; the other characters stay as they are. -/
def mapWords (f : List Char → List Char) (s : List Char) : List Char :=
  mapWordsLoop f [] s

end printer

namespace printer

/-- The loop of `OpenShiftStatusPrinter.Print` from the `i`-th line on:
`fmt.Fprintln(w, p.colorizeLine(line))` for every line; `order i` is the order
in which `range` yields the entries of `keywords` in the call for the `i`-th
line. -/
def OpenShiftStatusPrinter.printFrom (p : OpenShiftStatusPrinter)
    (order : Nat → List (List Char × Color)) : Nat → List (List Char) → List Char
  | _, [] => []
  | i, line :: rest =>
    p.colorizeLine (order i) line ++ "\n".data ++ p.printFrom order (i + 1) rest

/-- The Go method `OpenShiftStatusPrinter.Print` on the text `input` that the
reader `r` delivers: the text written for the lines that the scanner yields
(`bufio.scanLines`: the loop ends at the first line that the buffer of the
scanner cannot hold). -/
def OpenShiftStatusPrinter.Print (p : OpenShiftStatusPrinter)
    (order : Nat → List (List Char × Color)) (input : List Char) : List Char :=
  p.printFrom order 0 (bufio.scanLines input)

/-- That the colour sequences of a text are whole: after an escape character
come only `[` and digits up to the next `m`, and the text does not end
inside a sequence (`inSeq` tells that the text begins inside one). -/
def colourWf : Bool → List Char → Bool
  | inSeq, [] => !inSeq
  | false, c :: cs => if c = esc then colourWf true cs else colourWf false cs
  | true, c :: cs =>
    if c = 'm' then colourWf false cs else (c = '[' ∨ c.isDigit) && colourWf true cs

/-- That the matches of the expression `re` do not cut a colour sequence: a
match is not longer than the text, it does not begin with a character of the
inside of a sequence, and it holds no escape character or is followed by no
character of the inside of a sequence. -/
def regexp.Safe (re : Option Char → List Char → Option Nat) : Prop :=
  ∀ before s n, re before s = some n →
    n ≤ s.length ∧
    (∀ c ∈ s.head?, c ≠ 'm' ∧ c ≠ '[' ∧ c.isDigit = false) ∧
    (esc ∉ s.take n ∨ ∀ d ∈ (s.drop n).head?, d ≠ 'm' ∧ d ≠ '[' ∧ d.isDigit = false)

end printer

namespace command

/-- Modelled from the spec: `ResolveSubcommand` is not among the sources
(only its test is). The spec has the decision in this order: "If any argument
is an internal/hidden completion-marker token, colorization is disabled (but
classification still proceeds)"; "If `plain` mode is configured, colorization
is disabled, unless the resolved descriptor's `help` flag is set"; "Else if
`forceColor` is configured, colorization is enabled regardless of TTY state";
"Else colorization is enabled iff the process output stream is attached to an
interactive terminal"; "If no verb token was found and no explicit help flag
exists, the descriptor's `help` flag is set synthetically, and colorization
follows rule 2-4 using that synthetic flag"; "Independent of the above,
colorization is forced off if the classified subcommand is in a fixed
unsupported set". The spec names neither the marker tokens nor the members of
the set: `markers` and `unsupported` are parameters, and `isOutputTerminal`
is what the probe of the terminal returns. -/
def ResolveSubcommand (markers : List String) (unsupported : List kubectl.CLICommand)
    (isOutputTerminal : Bool) (args : List String) (config : KubecolorConfig) :
    Option (Bool × kubectl.CLICommandInfo) :=
  match kubectl.InspectCLICommandInfo args with
  | none => none
  | some (info, found) =>
    let info := if !found ∧ !info.Help then { info with Help := true } else info
    let decision :=
      if args.any fun a => markers.contains a then false
      else if config.Plain then info.Help
      else if config.ForceColor then true
      else isOutputTerminal
    some (if info.Subcommand ∈ unsupported then false else decision, info)

end command

/-! ## The option scan as a fold: lemmas -/

namespace kubectl

theorem lookAtNextArg_eq (args : List String) (i : Nat) (info : CLICommandInfo) :
    lookAtNextArg args i info = some (applyNext args[i + 1]? info) := by
  unfold lookAtNextArg
  by_cases h : i + 1 < args.length
  · have h1 : (args.length : Int) - 1 > (i : Int) := by omega
    rw [if_pos h1, List.getElem?_eq_getElem h]
    rfl
  · have h1 : ¬ ((args.length : Int) - 1 > (i : Int)) := by omega
    have h2 : args[i + 1]? = none := List.getElem?_eq_none (by omega)
    rw [if_neg h1, h2]
    rfl

theorem collectBody_eq (args : List String) (i : Nat) (a : String) (info : CLICommandInfo)
    (ha : args[i]? = some a) :
    collectBody args i info = some (stepTok a args[i + 1]? info) := by
  unfold collectBody stepTok
  rw [ha]
  simp only [lookAtNextArg_eq]
  repeat' split
  all_goals rfl

/-- Running the loop over the segment `suf` of `pre ++ suf ++ post` is the
scan of `suf` followed by the head of `post`. -/
theorem collectLoop_segment (suf post : List String) :
    ∀ (pre : List String) (info : CLICommandInfo),
      collectLoop (pre ++ suf ++ post) suf.length pre.length info =
        some (scan suf (nextOf post none) info) := by
  induction suf with
  | nil => intro pre info; rfl
  | cons a rest ih =>
    intro pre info
    have ha : (pre ++ a :: rest ++ post)[pre.length]? = some a := by
      rw [List.append_assoc, List.getElem?_append_right (Nat.le_refl _)]
      simp
    have hn : (pre ++ a :: rest ++ post)[pre.length + 1]? = nextOf rest (nextOf post none) := by
      rw [List.append_assoc, List.getElem?_append_right (by omega)]
      cases rest with
      | nil => cases post <;> simp [nextOf]
      | cons b r => simp [nextOf]
    have h := ih (pre ++ [a]) (stepTok a (nextOf rest (nextOf post none)) info)
    simp only [List.append_assoc, List.singleton_append, List.length_append,
      List.length_singleton] at h
    simp only [List.length_cons, collectLoop, collectBody_eq _ _ a info ha, hn, scan]
    simpa only [List.append_assoc, List.cons_append] using h

/-- The index loop of `CollectCommandlineOptions` never fails and computes `scan`. -/
theorem CollectCommandlineOptions_eq (args : List String) (info : CLICommandInfo) :
    CollectCommandlineOptions args info = some (scan args none info) := by
  have h := collectLoop_segment args [] [] info
  simpa [CollectCommandlineOptions, nextOf] using h

end kubectl

/-! ## The verb scan -/

namespace kubectl

/-- The keys of the verb table are pairwise different, as in a Go map. -/
theorem strToCLICommand_keys_nodup : (strToCLICommand.map Prod.fst).Nodup := by
  decide

theorem lookup_none_iff_not_key (a : String) :
    strToCLICommand.lookup a = none ↔ a ∉ strToCLICommand.map Prod.fst := by
  rw [List.lookup_eq_none_iff]
  constructor
  · intro h hk
    obtain ⟨p, hp, rfl⟩ := List.mem_map.1 hk
    simpa using h p hp
  · intro h p hp
    have : p.1 ≠ a := fun e => h (List.mem_map.2 ⟨p, hp, e⟩)
    simpa using fun e => this e.symm

theorem lookup_some_mem (a : String) (c : CLICommand)
    (h : strToCLICommand.lookup a = some c) : (a, c) ∈ strToCLICommand := by
  obtain ⟨l₁, l₂, e, _⟩ := List.lookup_eq_some_iff.1 h
  rw [e]
  simp

theorem InspectCLICommand_of_some (a : String) (c : CLICommand)
    (h : strToCLICommand.lookup a = some c) : InspectCLICommand a = (c, true) := by
  simp [InspectCLICommand, h]

theorem InspectCLICommand_of_none (a : String)
    (h : strToCLICommand.lookup a = none) : InspectCLICommand a = (0, false) := by
  simp [InspectCLICommand, h]

theorem inspectLoop_cons_some (ret : CLICommandInfo) (a : String) (rest : List String)
    (c : CLICommand) (h : strToCLICommand.lookup a = some c) :
    inspectLoop ret (a :: rest) = ({ ret with Subcommand := c }, true) := by
  simp [inspectLoop, InspectCLICommand_of_some a c h]

theorem inspectLoop_cons_none (ret : CLICommandInfo) (a : String) (rest : List String)
    (h : strToCLICommand.lookup a = none) :
    inspectLoop ret (a :: rest) = inspectLoop ret rest := by
  simp [inspectLoop, InspectCLICommand_of_none a h]

/-- The verb loop reports a verb exactly when some argument is a key. -/
theorem inspectLoop_found_iff (ret : CLICommandInfo) (l : List String) :
    (inspectLoop ret l).2 = true ↔ ∃ a ∈ l, a ∈ strToCLICommand.map Prod.fst := by
  induction l with
  | nil => simp [inspectLoop]
  | cons a rest ih =>
    cases h : strToCLICommand.lookup a with
    | some c =>
      rw [inspectLoop_cons_some ret a rest c h]
      have hk : a ∈ strToCLICommand.map Prod.fst :=
        List.mem_map.2 ⟨(a, c), lookup_some_mem a c h, rfl⟩
      simp only [true_iff]
      exact ⟨a, List.mem_cons_self _ _, hk⟩
    | none =>
      rw [inspectLoop_cons_none ret a rest h, ih]
      have hk := (lookup_none_iff_not_key a).1 h
      constructor
      · rintro ⟨b, hb, hbk⟩
        exact ⟨b, List.mem_cons_of_mem _ hb, hbk⟩
      · rintro ⟨b, hb, hbk⟩
        rcases List.mem_cons.1 hb with rfl | hb
        · exact absurd hbk hk
        · exact ⟨b, hb, hbk⟩

/-- When the verb loop reports a verb, the subcommand is the table value of
the first argument that is a key. -/
theorem inspectLoop_first (ret : CLICommandInfo) (l : List String)
    (hf : (inspectLoop ret l).2 = true) :
    ∃ (i : Nat) (a : String), l[i]? = some a ∧ (a, (inspectLoop ret l).1.Subcommand) ∈ strToCLICommand ∧
      ∀ (j : Nat) (b : String), j < i → l[j]? = some b → b ∉ strToCLICommand.map Prod.fst := by
  induction l with
  | nil => simp [inspectLoop] at hf
  | cons a rest ih =>
    cases h : strToCLICommand.lookup a with
    | some c =>
      rw [inspectLoop_cons_some ret a rest c h]
      exact ⟨0, a, by simp, lookup_some_mem a c h, fun j b hj => absurd hj (Nat.not_lt_zero j)⟩
    | none =>
      rw [inspectLoop_cons_none ret a rest h] at hf ⊢
      obtain ⟨i, x, hx, hmem, hbefore⟩ := ih hf
      refine ⟨i + 1, x, by simpa using hx, hmem, ?_⟩
      intro j b hj hb
      cases j with
      | zero =>
        have : a = b := by simpa using hb
        exact this ▸ (lookup_none_iff_not_key a).1 h
      | succ j => exact hbefore j b (by omega) (by simpa using hb)

/-- The verb loop changes no field but `Subcommand`. -/
theorem inspectLoop_fields (ret : CLICommandInfo) (l : List String) :
    (inspectLoop ret l).1 = { ret with Subcommand := (inspectLoop ret l).1.Subcommand } := by
  induction l with
  | nil => rfl
  | cons a rest ih =>
    cases h : strToCLICommand.lookup a with
    | some c => rw [inspectLoop_cons_some ret a rest c h]
    | none => rw [inspectLoop_cons_none ret a rest h]; exact ih

/-- Without a verb the loop returns the descriptor as it got it. -/
theorem inspectLoop_not_found (ret : CLICommandInfo) (l : List String)
    (h : ∀ a ∈ l, a ∉ strToCLICommand.map Prod.fst) : inspectLoop ret l = (ret, false) := by
  induction l with
  | nil => rfl
  | cons a rest ih =>
    have ha := (lookup_none_iff_not_key a).2 (h a (List.mem_cons_self _ _))
    rw [inspectLoop_cons_none ret a rest ha]
    exact ih fun b hb => h b (List.mem_cons_of_mem _ hb)

theorem InspectCLICommandInfo_eq (args : List String) :
    InspectCLICommandInfo args =
      some (inspectLoop (scan args none (CLICommandInfo.withArgs args)) args) := by
  simp [InspectCLICommandInfo, CollectCommandlineOptions_eq]

end kubectl

/-! ## The option scan -/

namespace kubectl

theorem nextOf_append (r q : List String) (nxt : Option String) :
    nextOf (r ++ q) nxt = nextOf r (nextOf q nxt) := by
  cases r <;> rfl

/-- The scan of `p ++ q` is the scan of `p`, which sees the head of `q` after
its last token, followed by the scan of `q`. -/
theorem scan_append (p q : List String) (nxt : Option String) (info : CLICommandInfo) :
    scan (p ++ q) nxt info = scan q nxt (scan p (nextOf q nxt) info) := by
  induction p generalizing info with
  | nil => rfl
  | cons a r ih =>
    show scan (r ++ q) nxt (stepTok a (nextOf (r ++ q) nxt) info) =
      scan q nxt (scan r (nextOf q nxt) (stepTok a (nextOf r (nextOf q nxt)) info))
    rw [nextOf_append]
    exact ih _

theorem applyNext_fields (nxt : Option String) (info : CLICommandInfo) :
    applyNext nxt info = { info with FormatOption := (applyNext nxt info).FormatOption } := by
  cases nxt with
  | none => rfl
  | some f =>
    simp only [applyNext, setFormatFromNext]
    repeat' split
    all_goals rfl

theorem applyNext_Args (nxt : Option String) (info : CLICommandInfo) (x : List String) :
    applyNext nxt { info with Args := x } = { applyNext nxt info with Args := x } := by
  cases nxt with
  | none => rfl
  | some f =>
    simp only [applyNext, setFormatFromNext]
    repeat' split
    all_goals rfl

/-- A following token that is no recognised format leaves the descriptor alone. -/
theorem applyNext_of_not_format (f : String) (info : CLICommandInfo)
    (h1 : f ≠ "json") (h2 : f ≠ "yaml") (h3 : f ≠ "wide") :
    applyNext (some f) info = info := by
  simp [applyNext, setFormatFromNext, h1, h2, h3]

theorem stepTok_congr_next (a : String) (n1 n2 : Option String) (info : CLICommandInfo)
    (h : ∀ x, applyNext n1 x = applyNext n2 x) : stepTok a n1 info = stepTok a n2 info := by
  unfold stepTok
  rw [h info]

theorem scan_congr_next (l : List String) (n1 n2 : Option String) (info : CLICommandInfo)
    (h : ∀ x, applyNext n1 x = applyNext n2 x) : scan l n1 info = scan l n2 info := by
  induction l generalizing info with
  | nil => rfl
  | cons a rest ih =>
    cases rest with
    | nil => simp only [scan, nextOf]; exact stepTok_congr_next a n1 n2 info h
    | cons b r =>
      simp only [scan, nextOf] at ih ⊢
      exact ih _

theorem stepTok_Args (a : String) (nxt : Option String) (info : CLICommandInfo)
    (x : List String) :
    stepTok a nxt { info with Args := x } = { stepTok a nxt info with Args := x } := by
  unfold stepTok
  repeat' split
  all_goals first
    | rfl
    | exact applyNext_Args nxt info x

/-- The scan never reads or writes the field `Args`. -/
theorem scan_Args (l : List String) (nxt : Option String) (info : CLICommandInfo)
    (x : List String) :
    scan l nxt { info with Args := x } = { scan l nxt info with Args := x } := by
  induction l generalizing info with
  | nil => rfl
  | cons a rest ih =>
    simp only [scan, stepTok_Args]
    exact ih _

theorem stepTok_preserved (a : String) (nxt : Option String) (info : CLICommandInfo) :
    (stepTok a nxt info).Subcommand = info.Subcommand ∧
      (stepTok a nxt info).IsKrew = info.IsKrew ∧ (stepTok a nxt info).Args = info.Args := by
  unfold stepTok
  repeat' split
  all_goals first
    | exact ⟨rfl, rfl, rfl⟩
    | (rw [applyNext_fields]; exact ⟨rfl, rfl, rfl⟩)

/-- The scan leaves `Subcommand`, `IsKrew` and `Args` as they are. -/
theorem scan_preserved (l : List String) (nxt : Option String) (info : CLICommandInfo) :
    (scan l nxt info).Subcommand = info.Subcommand ∧
      (scan l nxt info).IsKrew = info.IsKrew ∧ (scan l nxt info).Args = info.Args := by
  induction l generalizing info with
  | nil => exact ⟨rfl, rfl, rfl⟩
  | cons a rest ih =>
    simp only [scan]
    obtain ⟨h1, h2, h3⟩ := ih (stepTok a (nextOf rest nxt) info)
    obtain ⟨k1, k2, k3⟩ := stepTok_preserved a (nextOf rest nxt) info
    exact ⟨h1.trans k1, h2.trans k2, h3.trans k3⟩

/-! ### The four position-independent flags -/

theorem stepTok_NoHeader (a : String) (nxt : Option String) (info : CLICommandInfo) :
    (stepTok a nxt info).NoHeader = (info.NoHeader || decide (a = "--no-headers")) := by
  by_cases h : a = "--no-headers"
  · subst h
    simp [stepTok, HasPrefix]
  · rw [decide_eq_false h, Bool.or_false]
    unfold stepTok
    repeat' split
    all_goals first
      | rfl
      | (rw [applyNext_fields])

theorem stepTok_Watch (a : String) (nxt : Option String) (info : CLICommandInfo) :
    (stepTok a nxt info).Watch = (info.Watch || decide (a = "-w" ∨ a = "--watch")) := by
  by_cases h : a = "-w" ∨ a = "--watch"
  · rcases h with h | h <;> subst h <;> simp [stepTok, HasPrefix]
  · rw [decide_eq_false h, Bool.or_false]
    unfold stepTok
    repeat' split
    all_goals first
      | rfl
      | (rw [applyNext_fields])

theorem stepTok_Recursive (a : String) (nxt : Option String) (info : CLICommandInfo) :
    (stepTok a nxt info).Recursive =
      (info.Recursive || decide (a = "--recursive=true" ∨ a = "--recursive")) := by
  by_cases h : a = "--recursive=true" ∨ a = "--recursive"
  · rcases h with h | h <;> subst h <;> simp [stepTok, HasPrefix]
  · rw [decide_eq_false h, Bool.or_false]
    unfold stepTok
    repeat' split
    all_goals first
      | rfl
      | (rw [applyNext_fields])

theorem stepTok_Help (a : String) (nxt : Option String) (info : CLICommandInfo) :
    (stepTok a nxt info).Help = (info.Help || decide (a = "-h" ∨ a = "--help")) := by
  by_cases h : a = "-h" ∨ a = "--help"
  · rcases h with h | h <;> subst h <;> simp [stepTok, HasPrefix]
  · rw [decide_eq_false h, Bool.or_false]
    unfold stepTok
    repeat' split
    all_goals first
      | rfl
      | (rw [applyNext_fields])

theorem scan_NoHeader (l : List String) (nxt : Option String) (info : CLICommandInfo) :
    (scan l nxt info).NoHeader = true ↔ info.NoHeader = true ∨ "--no-headers" ∈ l := by
  induction l generalizing info with
  | nil => simp [scan]
  | cons a rest ih =>
    simp only [scan, ih, stepTok_NoHeader, Bool.or_eq_true, decide_eq_true_eq, List.mem_cons]
    constructor
    · rintro ((h | h) | h)
      · exact Or.inl h
      · exact Or.inr (Or.inl h.symm)
      · exact Or.inr (Or.inr h)
    · rintro (h | h | h)
      · exact Or.inl (Or.inl h)
      · exact Or.inl (Or.inr h.symm)
      · exact Or.inr h

theorem scan_Watch (l : List String) (nxt : Option String) (info : CLICommandInfo) :
    (scan l nxt info).Watch = true ↔ info.Watch = true ∨ "-w" ∈ l ∨ "--watch" ∈ l := by
  induction l generalizing info with
  | nil => simp [scan]
  | cons a rest ih =>
    simp only [scan, ih, stepTok_Watch, Bool.or_eq_true, decide_eq_true_eq, List.mem_cons]
    constructor
    · rintro ((h | h | h) | h | h)
      · exact Or.inl h
      · exact Or.inr (Or.inl (Or.inl h.symm))
      · exact Or.inr (Or.inr (Or.inl h.symm))
      · exact Or.inr (Or.inl (Or.inr h))
      · exact Or.inr (Or.inr (Or.inr h))
    · rintro (h | (h | h) | h | h)
      · exact Or.inl (Or.inl h)
      · exact Or.inl (Or.inr (Or.inl h.symm))
      · exact Or.inr (Or.inl h)
      · exact Or.inl (Or.inr (Or.inr h.symm))
      · exact Or.inr (Or.inr h)

theorem scan_Recursive (l : List String) (nxt : Option String) (info : CLICommandInfo) :
    (scan l nxt info).Recursive = true ↔
      info.Recursive = true ∨ "--recursive" ∈ l ∨ "--recursive=true" ∈ l := by
  induction l generalizing info with
  | nil => simp [scan]
  | cons a rest ih =>
    simp only [scan, ih, stepTok_Recursive, Bool.or_eq_true, decide_eq_true_eq, List.mem_cons]
    constructor
    · rintro ((h | h | h) | h | h)
      · exact Or.inl h
      · exact Or.inr (Or.inr (Or.inl h.symm))
      · exact Or.inr (Or.inl (Or.inl h.symm))
      · exact Or.inr (Or.inl (Or.inr h))
      · exact Or.inr (Or.inr (Or.inr h))
    · rintro (h | (h | h) | h | h)
      · exact Or.inl (Or.inl h)
      · exact Or.inl (Or.inr (Or.inr h.symm))
      · exact Or.inr (Or.inl h)
      · exact Or.inl (Or.inr (Or.inl h.symm))
      · exact Or.inr (Or.inr h)

theorem scan_Help (l : List String) (nxt : Option String) (info : CLICommandInfo) :
    (scan l nxt info).Help = true ↔ info.Help = true ∨ "-h" ∈ l ∨ "--help" ∈ l := by
  induction l generalizing info with
  | nil => simp [scan]
  | cons a rest ih =>
    simp only [scan, ih, stepTok_Help, Bool.or_eq_true, decide_eq_true_eq, List.mem_cons]
    constructor
    · rintro ((h | h | h) | h | h)
      · exact Or.inl h
      · exact Or.inr (Or.inl (Or.inl h.symm))
      · exact Or.inr (Or.inr (Or.inl h.symm))
      · exact Or.inr (Or.inl (Or.inr h))
      · exact Or.inr (Or.inr (Or.inr h))
    · rintro (h | (h | h) | h | h)
      · exact Or.inl (Or.inl h)
      · exact Or.inl (Or.inr (Or.inl h.symm))
      · exact Or.inr (Or.inl h)
      · exact Or.inl (Or.inr (Or.inr h.symm))
      · exact Or.inr (Or.inr h)

/-! ### The flag `--short` -/

theorem hasPrefix_short_excl (a : String) (h : HasPrefix a "--short" = true) :
    HasPrefix a "-o" = false ∧ HasPrefix a "--output" = false := by
  rcases a with ⟨l⟩
  simp only [HasPrefix] at h ⊢
  match l, h with
  | [], h => simp [List.isPrefixOf] at h
  | [_], h => simp [List.isPrefixOf] at h
  | [_, _], h => simp [List.isPrefixOf] at h
  | c1 :: c2 :: c3 :: rest, h =>
    simp [List.isPrefixOf] at h ⊢
    obtain ⟨h1, h2, h3, _⟩ := h
    subst h1 h2 h3
    simp

/-- A token that begins with `--short` sets `Short`, to `false` only for
`--short=false`. -/
theorem stepTok_short_token (a : String) (nxt : Option String) (info : CLICommandInfo)
    (h : HasPrefix a "--short" = true) :
    stepTok a nxt info = { info with Short := !decide (a = "--short=false") } := by
  obtain ⟨h1, h2⟩ := hasPrefix_short_excl a h
  unfold stepTok
  simp only [h1, h2, h, Bool.false_eq_true, if_false, if_true]
  by_cases e1 : a = "--short=true"
  · subst e1; simp
  · by_cases e2 : a = "--short=false"
    · subst e2; simp
    · simp [e1, e2]

theorem stepTok_Short_other (a : String) (nxt : Option String) (info : CLICommandInfo)
    (h : HasPrefix a "--short" = false) : (stepTok a nxt info).Short = info.Short := by
  unfold stepTok
  simp only [h, Bool.false_eq_true, if_false]
  repeat' split
  all_goals first
    | rfl
    | (rw [applyNext_fields])

theorem scan_Short_other (l : List String) (nxt : Option String) (info : CLICommandInfo)
    (h : ∀ a ∈ l, HasPrefix a "--short" = false) : (scan l nxt info).Short = info.Short := by
  induction l generalizing info with
  | nil => rfl
  | cons a rest ih =>
    simp only [scan]
    rw [ih _ fun b hb => h b (List.mem_cons_of_mem _ hb)]
    exact stepTok_Short_other a _ info (h a (List.mem_cons_self _ _))

/-- The last token that begins with `--short` decides the flag. -/
theorem scan_Short_last (p s : List String) (t : String) (nxt : Option String)
    (info : CLICommandInfo) (ht : HasPrefix t "--short" = true)
    (hs : ∀ a ∈ s, HasPrefix a "--short" = false) :
    (scan (p ++ t :: s) nxt info).Short = !decide (t = "--short=false") := by
  rw [scan_append]
  simp only [scan]
  rw [scan_Short_other s nxt _ hs, stepTok_short_token t _ _ ht]

/-! ### Spellings of the output flag -/

theorem inspectLoop_Args (ret : CLICommandInfo) (A l : List String) :
    inspectLoop { ret with Args := A } l =
      ({ (inspectLoop ret l).1 with Args := A }, (inspectLoop ret l).2) := by
  induction l with
  | nil => rfl
  | cons a rest ih =>
    cases h : strToCLICommand.lookup a with
    | some c => rw [inspectLoop_cons_some _ a rest c h, inspectLoop_cons_some _ a rest c h]
    | none => rw [inspectLoop_cons_none _ a rest h, inspectLoop_cons_none _ a rest h]; exact ih

/-- Tokens that are no verbs do not change the result of the verb loop. -/
theorem inspectLoop_skip (ret : CLICommandInfo) (p mid s : List String)
    (h : ∀ a ∈ mid, strToCLICommand.lookup a = none) :
    inspectLoop ret (p ++ mid ++ s) = inspectLoop ret (p ++ s) := by
  induction p with
  | nil =>
    induction mid with
    | nil => rfl
    | cons a rest ih =>
      have ha := h a (List.mem_cons_self _ _)
      have e : [] ++ (a :: rest) ++ s = a :: ([] ++ rest ++ s) := rfl
      rw [e, inspectLoop_cons_none ret a _ ha]
      exact ih fun b hb => h b (List.mem_cons_of_mem _ hb)
  | cons a rest ih =>
    have e1 : (a :: rest) ++ mid ++ s = a :: (rest ++ mid ++ s) := rfl
    have e2 : (a :: rest) ++ s = a :: (rest ++ s) := rfl
    rw [e1, e2]
    cases hl : strToCLICommand.lookup a with
    | some c => rw [inspectLoop_cons_some _ a _ c hl, inspectLoop_cons_some _ a _ c hl]
    | none => rw [inspectLoop_cons_none _ a _ hl, inspectLoop_cons_none _ a _ hl]; exact ih

theorem forgetArgs_scan (p s l A : List String) (F : FormatOption) :
    forgetArgs (inspectLoop
        (scan s none { scan p none (CLICommandInfo.withArgs A) with FormatOption := F }) l) =
      forgetArgs (inspectLoop
        (scan s none { scan p none (CLICommandInfo.withArgs []) with FormatOption := F }) l) := by
  have e : CLICommandInfo.withArgs A = { CLICommandInfo.withArgs [] with Args := A } := rfl
  rw [e, scan_Args]
  have e2 : ∀ Y : CLICommandInfo,
      ({ ({ Y with Args := A } : CLICommandInfo) with FormatOption := F } : CLICommandInfo) =
        { ({ Y with FormatOption := F } : CLICommandInfo) with Args := A } := fun _ => rfl
  rw [e2, scan_Args, inspectLoop_Args]
  rfl

/-- The classification of `p ++ mid ++ s` when the tokens `mid` are no verbs,
have the only effect of setting the format `F`, and begin with a token that
is no recognised format value. -/
theorem InspectCLICommandInfo_segment (p mid s : List String) (F : FormatOption)
    (h1 : ∀ nxt X, scan mid nxt X = { X with FormatOption := F })
    (h2 : ∀ nxt x, applyNext (nextOf mid nxt) x = x)
    (h3 : ∀ a ∈ mid, strToCLICommand.lookup a = none) :
    (InspectCLICommandInfo (p ++ mid ++ s)).map forgetArgs =
      some (forgetArgs (inspectLoop
        (scan s none { scan p none (CLICommandInfo.withArgs []) with FormatOption := F })
        (p ++ s))) := by
  rw [InspectCLICommandInfo_eq, Option.map_some', inspectLoop_skip _ p mid s h3,
    scan_append (p ++ mid) s, scan_append p mid, h1,
    scan_congr_next p (nextOf mid (nextOf s none)) none _ (fun x => h2 _ x),
    forgetArgs_scan]

end kubectl

/-! ## The claims on the command classifier -/

namespace kubectl

/-- C1: `InspectCLICommandInfo args` returns `found = true` exactly when some
element of `args` is a key of `strToCLICommand`, and then `Subcommand` is the
table value of the key with the smallest index in `args`. -/
theorem InspectCLICommandInfo_first_match (args : List String) :
    ∃ ret found, InspectCLICommandInfo args = some (ret, found) ∧
      (found = true ↔ ∃ a ∈ args, a ∈ strToCLICommand.map Prod.fst) ∧
      (found = true →
        ∃ (i : Nat) (a : String), args[i]? = some a ∧
          (a, ret.Subcommand) ∈ strToCLICommand ∧
          ∀ (j : Nat) (b : String), j < i → args[j]? = some b →
            b ∉ strToCLICommand.map Prod.fst) := by
  refine ⟨_, _, InspectCLICommandInfo_eq args, ?_, ?_⟩
  · exact inspectLoop_found_iff _ args
  · exact inspectLoop_first _ args

/-- C2: the descriptor that `InspectCLICommandInfo args` returns has
`Args = args`, for every `args` and whether or not a verb was found. -/
theorem InspectCLICommandInfo_Args (args : List String) :
    ∃ ret found, InspectCLICommandInfo args = some (ret, found) ∧ ret.Args = args := by
  refine ⟨_, _, InspectCLICommandInfo_eq args, ?_⟩
  rw [inspectLoop_fields]
  exact (scan_preserved args none (CLICommandInfo.withArgs args)).2.2

/-- C5: from a zero descriptor, `NoHeader`, `Watch`, `Help` and `Recursive`
are set exactly when one of their tokens occurs in `args`, at any position;
so they are the same for every permutation of `args`. -/
theorem CollectCommandlineOptions_flags (args x : List String) :
    ∃ r, CollectCommandlineOptions args (CLICommandInfo.withArgs x) = some r ∧
      (r.NoHeader = true ↔ "--no-headers" ∈ args) ∧
      (r.Watch = true ↔ "-w" ∈ args ∨ "--watch" ∈ args) ∧
      (r.Help = true ↔ "-h" ∈ args ∨ "--help" ∈ args) ∧
      (r.Recursive = true ↔ "--recursive" ∈ args ∨ "--recursive=true" ∈ args) ∧
      ∀ args2 : List String, args2.Perm args →
        ∃ r2, CollectCommandlineOptions args2 (CLICommandInfo.withArgs x) = some r2 ∧
          r2.NoHeader = r.NoHeader ∧ r2.Watch = r.Watch ∧ r2.Help = r.Help ∧
          r2.Recursive = r.Recursive := by
  have key : ∀ l : List String,
      ((scan l none (CLICommandInfo.withArgs x)).NoHeader = true ↔ "--no-headers" ∈ l) ∧
      ((scan l none (CLICommandInfo.withArgs x)).Watch = true ↔ "-w" ∈ l ∨ "--watch" ∈ l) ∧
      ((scan l none (CLICommandInfo.withArgs x)).Help = true ↔ "-h" ∈ l ∨ "--help" ∈ l) ∧
      ((scan l none (CLICommandInfo.withArgs x)).Recursive = true ↔
        "--recursive" ∈ l ∨ "--recursive=true" ∈ l) := by
    intro l
    refine ⟨?_, ?_, ?_, ?_⟩
    · rw [scan_NoHeader]; simp [CLICommandInfo.withArgs]
    · rw [scan_Watch]; simp [CLICommandInfo.withArgs]
    · rw [scan_Help]; simp [CLICommandInfo.withArgs]
    · rw [scan_Recursive]; simp [CLICommandInfo.withArgs]
  obtain ⟨k1, k2, k3, k4⟩ := key args
  refine ⟨_, CollectCommandlineOptions_eq args _, k1, k2, k3, k4, ?_⟩
  intro args2 hp
  obtain ⟨m1, m2, m3, m4⟩ := key args2
  refine ⟨_, CollectCommandlineOptions_eq args2 _, ?_, ?_, ?_, ?_⟩
  · rw [Bool.eq_iff_iff, m1, k1, hp.mem_iff]
  · rw [Bool.eq_iff_iff, m2, k2, hp.mem_iff, hp.mem_iff]
  · rw [Bool.eq_iff_iff, m3, k3, hp.mem_iff, hp.mem_iff]
  · rw [Bool.eq_iff_iff, m4, k4, hp.mem_iff, hp.mem_iff]

/-- C6: from a zero descriptor, `Short` is decided by the last token that
begins with `--short`: true for `--short` and `--short=true`, false for
`--short=false`; it is false when no token begins with `--short`. -/
theorem CollectCommandlineOptions_short (args x : List String) :
    ∃ r, CollectCommandlineOptions args (CLICommandInfo.withArgs x) = some r ∧
      ((∀ a ∈ args, HasPrefix a "--short" = false) → r.Short = false) ∧
      ∀ (p s : List String) (t : String), args = p ++ t :: s →
        HasPrefix t "--short" = true → (∀ a ∈ s, HasPrefix a "--short" = false) →
          (t = "--short" ∨ t = "--short=true" → r.Short = true) ∧
          (t = "--short=false" → r.Short = false) := by
  refine ⟨_, CollectCommandlineOptions_eq args _, ?_, ?_⟩
  · intro h
    rw [scan_Short_other args none _ h]
    rfl
  · intro p s t e ht hs
    subst e
    rw [scan_Short_last p s t none _ ht hs]
    constructor
    · rintro (rfl | rfl) <;> decide
    · rintro rfl; decide

/-- C7: without a verb token `InspectCLICommandInfo` returns `found = false`
and the zero `Subcommand`, which is the value of no verb of the table; the
other fields are in every case those that `CollectCommandlineOptions`
computes from the same list, whichever verb was found; `["-h"]` gives
`Help = true` and `found = false`. -/
theorem InspectCLICommandInfo_no_verb (args : List String) :
    ∃ info ret found,
      CollectCommandlineOptions args (CLICommandInfo.withArgs args) = some info ∧
      InspectCLICommandInfo args = some (ret, found) ∧
      ret = { info with Subcommand := ret.Subcommand } ∧
      ((∀ a ∈ args, a ∉ strToCLICommand.map Prod.fst) →
        found = false ∧ ret.Subcommand = 0 ∧ ret = info) ∧
      (∀ q ∈ strToCLICommand, q.2 ≠ 0) ∧
      InspectCLICommandInfo ["-h"] =
        some ({ CLICommandInfo.withArgs ["-h"] with Help := true }, false) := by
  refine ⟨_, _, _, CollectCommandlineOptions_eq args _, InspectCLICommandInfo_eq args,
    inspectLoop_fields _ args, ?_, by decide, by decide⟩
  intro h
  rw [inspectLoop_not_found _ args h]
  exact ⟨rfl, (scan_preserved args none _).1, rfl⟩

/-- C8: `CollectCommandlineOptions` never indexes past the end of `args`: the
lookup of `args[i+1]` and every loop iteration succeed, so the function
returns; a bare `-o` or `--output` as the last token leaves the descriptor,
`FormatOption` included, as it was before that token. -/
theorem CollectCommandlineOptions_in_range (args : List String) (info : CLICommandInfo) :
    (∀ (i : Nat) (x : CLICommandInfo), ∃ r, lookAtNextArg args i x = some r) ∧
      (∀ (i : Nat) (x : CLICommandInfo), i < args.length →
        ∃ r, collectBody args i x = some r) ∧
      (∃ r, CollectCommandlineOptions args info = some r) ∧
      (∀ t : String, t = "-o" ∨ t = "--output" →
        ∃ before,
          collectLoop (args ++ [t]) args.length 0 info = some before ∧
          collectBody (args ++ [t]) args.length before = some before ∧
          CollectCommandlineOptions (args ++ [t]) info = some before ∧
          CollectCommandlineOptions args info = some before) := by
  refine ⟨fun i x => ⟨_, lookAtNextArg_eq args i x⟩, ?_,
    ⟨_, CollectCommandlineOptions_eq args info⟩, ?_⟩
  · intro i x hi
    exact ⟨_, collectBody_eq args i args[i] x (List.getElem?_eq_getElem hi)⟩
  · intro t ht
    have hid : ∀ y, applyNext (some t) y = applyNext none y := by
      intro y
      rcases ht with rfl | rfl <;>
        exact applyNext_of_not_format _ y (by decide) (by decide) (by decide)
    have hstep : ∀ y, stepTok t none y = y := by
      intro y
      rcases ht with rfl | rfl <;> simp [stepTok, HasPrefix, applyNext]
    have hseg := collectLoop_segment args [t] [] info
    simp only [List.nil_append, nextOf] at hseg
    have hbody : collectBody (args ++ [t]) args.length (scan args (some t) info) =
        some (scan args (some t) info) := by
      rw [collectBody_eq (args ++ [t]) args.length t _ (by simp)]
      have : (args ++ [t])[args.length + 1]? = none :=
        List.getElem?_eq_none (by simp)
      rw [this, hstep]
    refine ⟨scan args (some t) info, hseg, hbody, ?_, ?_⟩
    · rw [CollectCommandlineOptions_eq, scan_append]
      simp only [scan, nextOf, hstep]
    · rw [CollectCommandlineOptions_eq, scan_congr_next args (some t) none info hid]

end kubectl

namespace kubectl

/-- C3: for `f` one of `json`, `yaml`, `wide` and all lists `p`, `s`, the five
spellings `-o<f>`, `-o=<f>`, `-o <f>`, `--output=<f>` and `--output <f>` of
the output flag between `p` and `s` give the same `FormatOption`,
`Subcommand`, boolean flags and `found`; `get pod -ojson` gives
`Subcommand = Get` and `FormatOption = Json`. -/
theorem InspectCLICommandInfo_output_spellings (f : String) (p s : List String)
    (hf : f = "json" ∨ f = "yaml" ∨ f = "wide") :
    (∃ c, (InspectCLICommandInfo (p ++ ["-o" ++ f] ++ s)).map forgetArgs = some c ∧
      (InspectCLICommandInfo (p ++ ["-o=" ++ f] ++ s)).map forgetArgs = some c ∧
      (InspectCLICommandInfo (p ++ ["-o", f] ++ s)).map forgetArgs = some c ∧
      (InspectCLICommandInfo (p ++ ["--output=" ++ f] ++ s)).map forgetArgs = some c ∧
      (InspectCLICommandInfo (p ++ ["--output", f] ++ s)).map forgetArgs = some c) ∧
    (InspectCLICommandInfo ["get", "pod", "-ojson"]).map forgetArgs =
      some ({ CLICommandInfo.withArgs [] with
        Subcommand := CLICommand.Get, FormatOption := FormatOption.Json }, true) := by
  refine ⟨?_, by decide⟩
  rcases hf with rfl | rfl | rfl
  · refine ⟨_, InspectCLICommandInfo_segment p _ s FormatOption.Json ?_ ?_ ?_,
      InspectCLICommandInfo_segment p _ s FormatOption.Json ?_ ?_ ?_,
      InspectCLICommandInfo_segment p _ s FormatOption.Json ?_ ?_ ?_,
      InspectCLICommandInfo_segment p _ s FormatOption.Json ?_ ?_ ?_,
      InspectCLICommandInfo_segment p _ s FormatOption.Json ?_ ?_ ?_⟩
    all_goals first
      | (intro nxt X; simp [scan, nextOf, stepTok, HasPrefix, applyNext, setFormatFromNext]; done)
      | (intro a ha; simp at ha; rcases ha with rfl | rfl <;> decide)
  · refine ⟨_, InspectCLICommandInfo_segment p _ s FormatOption.Yaml ?_ ?_ ?_,
      InspectCLICommandInfo_segment p _ s FormatOption.Yaml ?_ ?_ ?_,
      InspectCLICommandInfo_segment p _ s FormatOption.Yaml ?_ ?_ ?_,
      InspectCLICommandInfo_segment p _ s FormatOption.Yaml ?_ ?_ ?_,
      InspectCLICommandInfo_segment p _ s FormatOption.Yaml ?_ ?_ ?_⟩
    all_goals first
      | (intro nxt X; simp [scan, nextOf, stepTok, HasPrefix, applyNext, setFormatFromNext]; done)
      | (intro a ha; simp at ha; rcases ha with rfl | rfl <;> decide)
  · refine ⟨_, InspectCLICommandInfo_segment p _ s FormatOption.Wide ?_ ?_ ?_,
      InspectCLICommandInfo_segment p _ s FormatOption.Wide ?_ ?_ ?_,
      InspectCLICommandInfo_segment p _ s FormatOption.Wide ?_ ?_ ?_,
      InspectCLICommandInfo_segment p _ s FormatOption.Wide ?_ ?_ ?_,
      InspectCLICommandInfo_segment p _ s FormatOption.Wide ?_ ?_ ?_⟩
    all_goals first
      | (intro nxt X; simp [scan, nextOf, stepTok, HasPrefix, applyNext, setFormatFromNext]; done)
      | (intro a ha; simp at ha; rcases ha with rfl | rfl <;> decide)

/-- C3, at `p = ["get", "pod"]`, `s = []` and `f = "json"`. -/
theorem InspectCLICommandInfo_output_spellings_witness :
    (∃ c, (InspectCLICommandInfo (["get", "pod"] ++ ["-o" ++ "json"] ++ [])).map forgetArgs =
        some c ∧
      (InspectCLICommandInfo (["get", "pod"] ++ ["-o=" ++ "json"] ++ [])).map forgetArgs =
        some c ∧
      (InspectCLICommandInfo (["get", "pod"] ++ ["-o", "json"] ++ [])).map forgetArgs = some c ∧
      (InspectCLICommandInfo (["get", "pod"] ++ ["--output=" ++ "json"] ++ [])).map forgetArgs =
        some c ∧
      (InspectCLICommandInfo (["get", "pod"] ++ ["--output", "json"] ++ [])).map forgetArgs =
        some c) ∧
    (InspectCLICommandInfo ["get", "pod", "-ojson"]).map forgetArgs =
      some ({ CLICommandInfo.withArgs [] with
        Subcommand := CLICommand.Get, FormatOption := FormatOption.Json }, true) :=
  InspectCLICommandInfo_output_spellings "json" ["get", "pod"] [] (Or.inl rfl)

/-- C4, the failing inputs: the only output flag of each list is `-oname`,
`-o=name`, `--output=name`, whose value `name` is no recognised format, and
`CollectCommandlineOptions` still sets `FormatOption` to `Json`, from the
token that follows the flag; in the two-token spellings `-o name` and
`--output name` the format stays `None`. -/
theorem CollectCommandlineOptions_fused_unknown_reads_next :
    CollectCommandlineOptions ["get", "pods", "-oname", "json"] (CLICommandInfo.withArgs []) =
        some { CLICommandInfo.withArgs [] with FormatOption := FormatOption.Json } ∧
      CollectCommandlineOptions ["get", "pods", "-o=name", "json"] (CLICommandInfo.withArgs []) =
        some { CLICommandInfo.withArgs [] with FormatOption := FormatOption.Json } ∧
      CollectCommandlineOptions ["get", "pods", "--output=name", "json"]
          (CLICommandInfo.withArgs []) =
        some { CLICommandInfo.withArgs [] with FormatOption := FormatOption.Json } ∧
      CollectCommandlineOptions ["get", "pods", "-o", "name", "json"]
          (CLICommandInfo.withArgs []) =
        some { CLICommandInfo.withArgs [] with FormatOption := FormatOption.None } ∧
      CollectCommandlineOptions ["get", "pods", "--output", "name", "json"]
          (CLICommandInfo.withArgs []) =
        some { CLICommandInfo.withArgs [] with FormatOption := FormatOption.None } := by
  decide

end kubectl

/-! ## The wrapper configuration -/

namespace command

theorem findAndRemoveLoop_eq (key : String) (rest : List String) :
    ∀ pre : List String,
      findAndRemoveLoop (pre ++ rest) key pre.length rest =
        (pre ++ rest.erase key, decide (key ∈ rest)) := by
  induction rest with
  | nil => intro pre; simp [findAndRemoveLoop]
  | cons arg rest ih =>
    intro pre
    by_cases h : arg = key
    · subst h
      simp [findAndRemoveLoop]
    · have h2 : ¬ key = arg := fun e => h e.symm
      have e : pre ++ arg :: rest = (pre ++ [arg]) ++ rest := by simp
      have hi := ih (pre ++ [arg])
      rw [List.length_append, List.length_singleton, ← e] at hi
      simp only [findAndRemoveLoop, if_neg h, hi, List.erase_cons, beq_iff_eq, h,
        List.mem_cons, h2, false_or, List.append_assoc, List.singleton_append, if_false]

/-- The function removes the first occurrence of `key` and reports whether
there was one. -/
theorem findAndRemoveBoolFlagIfExists_eq (args : List String) (key : String) :
    findAndRemoveBoolFlagIfExists args key = (args.erase key, decide (key ∈ args)) := by
  have h := findAndRemoveLoop_eq key args []
  simpa [findAndRemoveBoolFlagIfExists] using h

/-- The returned arguments are `args` with the first occurrence of each of
the five flags erased, in the order of the calls. -/
theorem ResolveConfig_args (env : String) (args : List String) :
    (ResolveConfig env args).1 =
      ((((args.erase "--plain").erase "--light-background").erase "--force-colors").erase
        "--kubecolor-version").erase "--use-oc-cli" := by
  simp [ResolveConfig, findAndRemoveBoolFlagIfExists_eq]

theorem filter_erase_of_false (q : String → Bool) (k : String) (l : List String)
    (h : q k = false) : (l.erase k).filter q = l.filter q := by
  induction l with
  | nil => rfl
  | cons a rest ih =>
    by_cases e : a = k
    · subst e
      simp [h]
    · rw [List.erase_cons_tail (by simpa using e)]
      simp [List.filter_cons, ih]

/-! ## The claims on the wrapper configuration -/

/-- C9, as stated, fails: a flag given twice is removed once, and the second
occurrence stays in the returned list. -/
theorem ResolveConfig_keeps_second_occurrence :
    (ResolveConfig "" ["get", "pods", "--plain", "--plain"]).1 = ["get", "pods", "--plain"] ∧
      ¬ ∀ f ∈ wrapperFlags, f ∉ (ResolveConfig "" ["get", "pods", "--plain", "--plain"]).1 := by
  decide

/-- C9, amended: `ResolveConfig` removes the first occurrence of each of the
five wrapper flags, wherever it stands, so each flag occurs once less in the
returned list than in `args`; when each flag occurs at most once in `args`,
the returned list contains none of them. -/
theorem ResolveConfig_strips_flags (env : String) (args : List String) :
    (∀ f ∈ wrapperFlags, (ResolveConfig env args).1.count f = args.count f - 1) ∧
      ((∀ f ∈ wrapperFlags, args.count f ≤ 1) →
        ∀ f ∈ wrapperFlags, f ∉ (ResolveConfig env args).1) := by
  have h1 : ∀ f ∈ wrapperFlags, (ResolveConfig env args).1.count f = args.count f - 1 := by
    intro f hf
    rw [ResolveConfig_args]
    simp only [wrapperFlags, List.mem_cons, List.mem_singleton, List.not_mem_nil,
      or_false] at hf
    rcases hf with rfl | rfl | rfl | rfl | rfl <;>
      simp [List.count_erase_self, List.count_erase_of_ne]
  refine ⟨h1, ?_⟩
  intro hc f hf
  have h := h1 f hf
  have h2 := hc f hf
  rw [← List.count_eq_zero]
  omega

/-- C9 amended, at `get pods --plain --light-background --force-colors`. -/
theorem ResolveConfig_strips_flags_witness :
    ∀ f ∈ wrapperFlags,
      f ∉ (ResolveConfig "" ["get", "pods", "--plain", "--light-background",
        "--force-colors"]).1 :=
  (ResolveConfig_strips_flags "" ["get", "pods", "--plain", "--light-background",
    "--force-colors"]).2 (by decide)

/-- C10: `ResolveConfig` keeps every token that is no wrapper flag, in its
order and multiplicity: the returned list is a sublist of `args`, filtering
the wrapper flags out of it gives the same list as filtering them out of
`args`, and `args` without a wrapper flag is returned unchanged. -/
theorem ResolveConfig_keeps_others (env : String) (args : List String) :
    (ResolveConfig env args).1.Sublist args ∧
      (ResolveConfig env args).1.filter (fun a => decide (a ∉ wrapperFlags)) =
        args.filter (fun a => decide (a ∉ wrapperFlags)) ∧
      ((∀ f ∈ wrapperFlags, f ∉ args) → (ResolveConfig env args).1 = args) := by
  rw [ResolveConfig_args]
  refine ⟨?_, ?_, ?_⟩
  · exact (List.erase_sublist _ _).trans ((List.erase_sublist _ _).trans
      ((List.erase_sublist _ _).trans ((List.erase_sublist _ _).trans
        (List.erase_sublist _ _))))
  · rw [filter_erase_of_false _ _ _ (by decide), filter_erase_of_false _ _ _ (by decide),
      filter_erase_of_false _ _ _ (by decide), filter_erase_of_false _ _ _ (by decide),
      filter_erase_of_false _ _ _ (by decide)]
  · intro h
    rw [List.erase_of_not_mem (h "--plain" (by decide)),
      List.erase_of_not_mem (h "--light-background" (by decide)),
      List.erase_of_not_mem (h "--force-colors" (by decide)),
      List.erase_of_not_mem (h "--kubecolor-version" (by decide)),
      List.erase_of_not_mem (h "--use-oc-cli" (by decide))]

/-- C10, at `get pods`, which has no wrapper flag. -/
theorem ResolveConfig_keeps_others_witness :
    (ResolveConfig "kubectl.1.19" ["get", "pods"]).1 = ["get", "pods"] :=
  (ResolveConfig_keeps_others "kubectl.1.19" ["get", "pods"]).2.2 (by decide)

theorem ResolveConfig_config (env : String) (args : List String) :
    (ResolveConfig env args).2 =
      { Plain := decide ("--plain" ∈ args),
        DarkBackground := !decide ("--light-background" ∈ args),
        ForceColor := decide ("--force-colors" ∈ args),
        ShowKubecolorVersion := decide ("--kubecolor-version" ∈ args),
        KubectlCmd :=
          if "--use-oc-cli" ∈ args then "oc" else if env ≠ "" then env else "kubectl",
        UseOcCli := decide ("--use-oc-cli" ∈ args) } := by
  simp [ResolveConfig, findAndRemoveBoolFlagIfExists_eq, List.mem_erase_of_ne]

/-- C11: the configuration that `ResolveConfig` returns has `Plain`,
`ForceColor`, `ShowKubecolorVersion` and `UseOcCli` true exactly when their
flag occurs in `args`, and `DarkBackground` false exactly when
`--light-background` occurs; `get pods --plain --light-background
--force-colors` gives `Plain = true`, `DarkBackground = false`,
`ForceColor = true`. -/
theorem ResolveConfig_flags (env : String) (args : List String) :
    ((ResolveConfig env args).2.Plain = true ↔ "--plain" ∈ args) ∧
      ((ResolveConfig env args).2.DarkBackground = true ↔ "--light-background" ∉ args) ∧
      ((ResolveConfig env args).2.ForceColor = true ↔ "--force-colors" ∈ args) ∧
      ((ResolveConfig env args).2.ShowKubecolorVersion = true ↔
        "--kubecolor-version" ∈ args) ∧
      ((ResolveConfig env args).2.UseOcCli = true ↔ "--use-oc-cli" ∈ args) ∧
      ResolveConfig "" ["get", "pods", "--plain", "--light-background", "--force-colors"] =
        (["get", "pods"],
          { Plain := true, DarkBackground := false, ForceColor := true,
            ShowKubecolorVersion := false, KubectlCmd := "kubectl", UseOcCli := false }) := by
  rw [ResolveConfig_config]
  refine ⟨by simp, by simp, by simp, by simp, by simp, by decide⟩

/-- C12: with `env` the value of `KUBECTL_COMMAND`, `KubectlCmd` is `oc`
whenever `--use-oc-cli` occurs in `args`, whatever `env` is; otherwise it is
`env` when `env` is not empty, and `kubectl` when it is. -/
theorem ResolveConfig_KubectlCmd (env : String) (args : List String) :
    ("--use-oc-cli" ∈ args → (ResolveConfig env args).2.KubectlCmd = "oc") ∧
      ("--use-oc-cli" ∉ args → env ≠ "" → (ResolveConfig env args).2.KubectlCmd = env) ∧
      ("--use-oc-cli" ∉ args → env = "" → (ResolveConfig env args).2.KubectlCmd = "kubectl") := by
  rw [ResolveConfig_config]
  refine ⟨fun h => by simp [h], fun h he => by simp [h, he], fun h he => by simp [h, he]⟩

/-- C12, at the three cases of the tests: the flag with `customkubectl` in
the environment, `kubectl.1.19` in the environment without the flag, and
neither. -/
theorem ResolveConfig_KubectlCmd_witness :
    (ResolveConfig "customkubectl" ["get", "pods", "--use-oc-cli"]).2.KubectlCmd = "oc" ∧
      (ResolveConfig "kubectl.1.19" ["get", "pods", "--plain"]).2.KubectlCmd = "kubectl.1.19" ∧
      (ResolveConfig "" ["get", "pods"]).2.KubectlCmd = "kubectl" :=
  ⟨(ResolveConfig_KubectlCmd "customkubectl" ["get", "pods", "--use-oc-cli"]).1 (by decide),
    (ResolveConfig_KubectlCmd "kubectl.1.19" ["get", "pods", "--plain"]).2.1 (by decide)
      (by decide),
    (ResolveConfig_KubectlCmd "" ["get", "pods"]).2.2 (by decide) rfl⟩

end command

/-! ## The describe printer: lemmas -/

namespace printer

namespace spaces

theorem joinRuns_cons (w : Nat) (c : List Char) (rest : List (Nat × List Char)) :
    joinRuns ((w, c) :: rest) = List.replicate w ' ' ++ c ++ joinRuns rest := by
  simp [joinRuns]

/-- The five cases of `splitRuns` on a non-empty line. -/
theorem splitRuns_cons (c : Char) (cs : List Char) :
    splitRuns (c :: cs) =
      if c = ' ' then
        match (splitRuns cs).1, (splitRuns cs).2 with
        | [], [] => ([' '], [])
        | [], (w, col1) :: rest1 => ([], (w + 1, col1) :: rest1)
        | d :: col1, rest => if d = ' ' then ([], (2, col1) :: rest) else (' ' :: d :: col1, rest)
      else (c :: (splitRuns cs).1, (splitRuns cs).2) := by
  rw [splitRuns]

/-- A line is its first column followed by its runs and columns. -/
theorem splitRuns_reconstruct (line : List Char) :
    (splitRuns line).1 ++ joinRuns (splitRuns line).2 = line := by
  induction line with
  | nil => rfl
  | cons c cs ih =>
    rw [splitRuns_cons]
    by_cases hc : c = ' '
    · subst hc
      rw [if_pos rfl]
      generalize splitRuns cs = r at ih ⊢
      obtain ⟨col, rest⟩ := r
      cases col with
      | nil =>
        cases rest with
        | nil => simp at ih ⊢; simpa [joinRuns] using ih
        | cons p rest1 =>
          obtain ⟨w, col1⟩ := p
          simp only [joinRuns_cons, List.nil_append] at ih ⊢
          rw [← ih, List.replicate_succ]
          simp
      | cons d col1 =>
        by_cases hd : d = ' '
        · subst hd
          simp only [if_true, joinRuns_cons, List.nil_append]
          rw [← ih]
          simp [List.replicate]
        · simp only [if_neg hd]
          rw [← ih]
          simp
    · rw [if_neg hc]
      simp only [List.cons_append]
      rw [ih]

end spaces

end printer

namespace printer

namespace spaces

/-- What holds of the result of `splitRuns`: every run has two or more
spaces, no column after a run begins with a space, the first column does not
begin with two spaces, and it is empty only before a run or for the empty
line. -/
theorem splitInv (line : List Char) :
    (∀ p ∈ (splitRuns line).2, 2 ≤ p.1 ∧ p.2.head? ≠ some ' ') ∧
      (∀ d t, (splitRuns line).1 = ' ' :: d :: t → d ≠ ' ') ∧
      ((splitRuns line).1 = [] → (splitRuns line).2 = [] → line = []) := by
  induction line with
  | nil => exact ⟨by simp [splitRuns], by simp [splitRuns], fun _ _ => rfl⟩
  | cons c cs ih =>
    obtain ⟨h1, h2, h3⟩ := ih
    rw [splitRuns_cons]
    by_cases hc : c = ' '
    · subst hc
      rw [if_pos rfl]
      generalize splitRuns cs = r at h1 h2 h3 ⊢
      obtain ⟨col, rest⟩ := r
      cases col with
      | nil =>
        cases rest with
        | nil => exact ⟨by simp, by simp, by simp⟩
        | cons p rest1 =>
          obtain ⟨w, col1⟩ := p
          refine ⟨?_, by simp, by simp⟩
          intro q hq
          simp only [List.mem_cons] at hq
          rcases hq with rfl | hq
          · have := h1 (w, col1) (by simp)
            exact ⟨by simp at this ⊢; omega, this.2⟩
          · exact h1 q (by simp [hq])
      | cons d col1 =>
        by_cases hd : d = ' '
        · subst hd
          simp only [if_true]
          refine ⟨?_, by simp, by simp⟩
          intro q hq
          simp only [List.mem_cons] at hq
          rcases hq with rfl | hq
          · refine ⟨le_refl _, ?_⟩
            cases col1 with
            | nil => simp
            | cons e t =>
              have := h2 e t rfl
              simpa using this
          · exact h1 q hq
        · simp only [if_neg hd]
          refine ⟨h1, ?_, by simp⟩
          intro d2 t e
          simp only [List.cons.injEq, true_and] at e
          rw [← e.1]
          exact hd
    · rw [if_neg hc]
      refine ⟨h1, ?_, by simp⟩
      intro d t e
      simp only [List.cons.injEq] at e
      exact absurd e.1 hc

/-- A column that a run follows does not end in a space, and such a column
after a run is not empty. -/
theorem splitInv_trailing (line : List Char) :
    ((splitRuns line).2 ≠ [] → (splitRuns line).1.getLast? ≠ some ' ') ∧
      (∀ pre p q post, (splitRuns line).2 = pre ++ p :: q :: post →
        p.2 ≠ [] ∧ p.2.getLast? ≠ some ' ') := by
  induction line with
  | nil => simp [splitRuns]
  | cons c cs ih =>
    obtain ⟨h1, h2⟩ := ih
    rw [splitRuns_cons]
    by_cases hc : c = ' '
    · subst hc
      rw [if_pos rfl]
      generalize splitRuns cs = r at h1 h2 ⊢
      obtain ⟨col, rest⟩ := r
      cases col with
      | nil =>
        cases rest with
        | nil => simp
        | cons p rest1 =>
          obtain ⟨w, col1⟩ := p
          refine ⟨by simp, ?_⟩
          intro pre p q post e
          cases pre with
          | nil =>
            simp only [List.nil_append, List.cons.injEq] at e
            obtain ⟨e1, e2⟩ := e
            have := h2 [] (w, col1) q post (by simp [e2])
            rw [← e1]
            exact this
          | cons p0 pre1 =>
            simp only [List.cons_append, List.cons.injEq] at e
            exact h2 ((w, col1) :: pre1) p q post (by simp [e.2])
      | cons d col1 =>
        by_cases hd : d = ' '
        · subst hd
          simp only [if_true]
          refine ⟨by simp, ?_⟩
          intro pre p q post e
          cases pre with
          | nil =>
            simp only [List.nil_append, List.cons.injEq] at e
            obtain ⟨e1, e2⟩ := e
            have hl := h1 (by simp [e2])
            rw [← e1]
            cases col1 with
            | nil => simp at hl
            | cons x t => exact ⟨by simp, by simpa [List.getLast?_cons_cons] using hl⟩
          | cons p0 pre1 =>
            simp only [List.cons_append, List.cons.injEq] at e
            exact h2 pre1 p q post e.2
        · simp only [if_neg hd]
          refine ⟨?_, h2⟩
          intro hr
          have hl := h1 hr
          simpa [List.getLast?_cons_cons] using hl
    · rw [if_neg hc]
      refine ⟨?_, h2⟩
      intro hr
      have hl := h1 hr
      cases hcol : (splitRuns cs).1 with
      | nil => simpa using hc
      | cons x t =>
        rw [hcol] at hl
        simpa [List.getLast?_cons_cons] using hl

end spaces

theorem findIndent_replicate (w : Nat) (t : List Char) :
    findIndent (List.replicate w ' ' ++ t) = w + findIndent t := by
  induction w with
  | zero => simp
  | succ w ih =>
    simp only [findIndent, List.replicate_succ, List.cons_append] at ih ⊢
    rw [List.takeWhile_cons_of_pos (by simp)]
    simp only [List.length_cons, ih]
    omega

theorem findIndent_of_head (t : List Char) (h : t.head? ≠ some ' ') : findIndent t = 0 := by
  cases t with
  | nil => rfl
  | cons x r =>
    have hx : x ≠ ' ' := by simpa using h
    simp [findIndent, List.takeWhile, hx]

/-- The two shapes of a non-empty line: at most one leading space and a
non-empty first column, or two or more leading spaces, which are the first
run, before which the first column is empty. -/
theorem line_cases (line : List Char) (hne : line ≠ []) :
    (∃ K rest, K ≠ [] ∧ spaces.splitRuns line = (K, rest) ∧ findIndent line ≤ 1) ∨
      (∃ K rest, spaces.splitRuns line = ([], (findIndent line, K) :: rest) ∧
        2 ≤ findIndent line) := by
  obtain ⟨i1, i2, i3⟩ := spaces.splitInv line
  obtain ⟨t1, t2⟩ := spaces.splitInv_trailing line
  have hrec := spaces.splitRuns_reconstruct line
  generalize hs : spaces.splitRuns line = r at i1 i2 i3 t1 t2 hrec
  obtain ⟨c0, rest⟩ := r
  simp only at i1 i2 i3 t1 t2 hrec
  cases c0 with
  | nil =>
    right
    cases rest with
    | nil => exact absurd (i3 rfl rfl) hne
    | cons p r =>
      obtain ⟨w, c1⟩ := p
      have hp := i1 (w, c1) (by simp)
      have hw : findIndent line = w := by
        rw [← hrec, spaces.joinRuns_cons, List.nil_append, List.append_assoc,
          findIndent_replicate]
        have : findIndent (c1 ++ spaces.joinRuns r) = 0 := by
          apply findIndent_of_head
          cases c1 with
          | nil =>
            cases r with
            | nil => simp [spaces.joinRuns]
            | cons q post => exact absurd rfl (t2 [] (w, []) q post rfl).1
          | cons x t => simpa using hp.2
        omega
      exact ⟨c1, r, by rw [hw], by rw [hw]; exact hp.1⟩
  | cons x t =>
    left
    refine ⟨x :: t, rest, by simp, rfl, ?_⟩
    rw [← hrec]
    by_cases hx : x = ' '
    · subst hx
      cases t with
      | nil =>
        cases rest with
        | nil => simp [findIndent, spaces.joinRuns]
        | cons q post => exact absurd rfl (t1 (by simp))
      | cons d t2 =>
        have hd := i2 d t2 rfl
        simp [findIndent, List.takeWhile, hd]
    · simp [findIndent, List.takeWhile, hx]

/-- The parts of a non-empty line as `Print` computes them: the columns are
`K` and the columns of `rest`, the index list is not sliced out of range, the
width `spacesCnt` is that of the first run after `K`, and the line is its
indent (two or more leading spaces), `K`, and the runs and columns of
`rest`. -/
theorem line_decomp (line : List Char) (hne : line ≠ []) :
    ∃ K rest idx,
      columnsOf line = K :: rest.map Prod.snd ∧
      dropIndentIndex (findIndent line) (spaces.FindAllStringIndex line) = some idx ∧
      spacesCntOf idx = ((rest.head?).map Prod.fst).getD 0 ∧
      line = toSpaces (if 2 ≤ findIndent line then findIndent line else 0) ++ K ++
        spaces.joinRuns rest ∧
      (∀ p ∈ rest, 2 ≤ p.1 ∧ p.2.head? ≠ some ' ') ∧
      (rest ≠ [] → K.getLast? ≠ some ' ') ∧
      (findIndent line = 0 → K.head? ≠ some ' ') ∧
      (2 ≤ findIndent line → K.head? ≠ some ' ') := by
  obtain ⟨i1, i2, i3⟩ := spaces.splitInv line
  obtain ⟨t1, t2⟩ := spaces.splitInv_trailing line
  have hrec := spaces.splitRuns_reconstruct line
  rcases line_cases line hne with ⟨K, rest, hK, hs, hn⟩ | ⟨K, rest, hs, hn⟩
  · rw [hs] at i1 i2 i3 t1 t2 hrec
    simp only at i1 i2 i3 t1 t2 hrec
    obtain ⟨x, t, rfl⟩ := List.exists_cons_of_ne_nil hK
    refine ⟨x :: t, rest, spaces.runIndices (x :: t).length rest, ?_, ?_, ?_, ?_, i1, t1, ?_, ?_⟩
    · simp [columnsOf, spaces.Split, hs, dropEmptyFirst]
    · have e : spaces.FindAllStringIndex line = spaces.runIndices (x :: t).length rest := by
        simp [spaces.FindAllStringIndex, hs]
      rw [e]
      unfold dropIndentIndex
      have : ¬ findIndent line > 1 := by omega
      simp [this]
    · cases rest with
      | nil => rfl
      | cons p r => obtain ⟨w, c⟩ := p; simp [spaces.runIndices, spacesCntOf]
    · have : ¬ 2 ≤ findIndent line := by omega
      rw [if_neg this]
      simp [toSpaces, hrec]
    · intro h0
      rw [← hrec] at h0
      intro hx
      have hx2 : x = ' ' := by simpa using hx
      subst hx2
      simp [findIndent, List.takeWhile] at h0
    · intro h2
      omega
  · rw [hs] at i1 i2 i3 t1 t2 hrec
    simp only at i1 i2 i3 t1 t2 hrec
    refine ⟨K, rest, spaces.runIndices (0 + findIndent line + K.length) rest,
      ?_, ?_, ?_, ?_, ?_, ?_, ?_, ?_⟩
    · simp [columnsOf, spaces.Split, hs, dropEmptyFirst]
    · have e : spaces.FindAllStringIndex line =
          (0, 0 + findIndent line) ::
            spaces.runIndices (0 + findIndent line + K.length) rest := by
        simp [spaces.FindAllStringIndex, hs, spaces.runIndices]
      rw [e]
      unfold dropIndentIndex
      have h0 : findIndent line > 0 := by omega
      have h1 : findIndent line > 1 := by omega
      simp [h0, h1, tailSlice]
    · cases rest with
      | nil => rfl
      | cons p r => obtain ⟨w, c⟩ := p; simp [spaces.runIndices, spacesCntOf]
    · rw [if_pos hn]
      rw [spaces.joinRuns_cons] at hrec
      simpa [toSpaces] using hrec.symm
    · intro p hp
      exact i1 p (List.mem_cons_of_mem _ hp)
    · intro hr
      obtain ⟨q, post, rfl⟩ := List.exists_cons_of_ne_nil hr
      exact (t2 [] (findIndent line, K) q post rfl).2
    · intro h0
      omega
    · intro _
      exact (i1 (findIndent line, K) (by simp)).2

/-! ## The colours and the rendering of a line -/

theorem effectiveColors_one (dp : DescribePrinter) (deps : Collaborators) (b : Bool) (n : Nat)
    (K : List Char) :
    ∃ kc vc, effectiveColors dp deps b n [K] = some (kc, vc) ∧
      (b = false → kc = deps.getColorByKeyIndent n basicIndentWidth dp.DarkBackground) := by
  unfold effectiveColors
  cases b
  · simp
  · by_cases h : strings.HasSuffix K ":".data = true <;> simp [h]

theorem effectiveColors_two (dp : DescribePrinter) (deps : Collaborators) (b : Bool) (n : Nat)
    (K V : List Char) :
    ∃ kc vc, effectiveColors dp deps b n [K, V] = some (kc, vc) ∧
      (b = false → kc = deps.getColorByKeyIndent n basicIndentWidth dp.DarkBackground ∧
        vc = deps.getColorByValueType V dp.DarkBackground) := by
  unfold effectiveColors
  cases b <;> simp

/-! ### Colour sequences -/

theorem stripAux_plain (v r : List Char) (h : esc ∉ v) :
    stripAux false (v ++ r) = v ++ stripAux false r := by
  induction v with
  | nil => rfl
  | cons c cs ih =>
    have hc : c ≠ esc := fun e => h (by simp [e])
    have hcs : esc ∉ cs := fun e => h (by simp [e])
    simp [stripAux, hc, ih hcs]

theorem stripAux_cons (c : Char) (r : List Char) (h : c ≠ esc) :
    stripAux false (c :: r) = c :: stripAux false r := by
  simp [stripAux, h]

theorem stripAux_start (c : Color) (r : List Char) :
    stripAux false (esc :: '[' :: (c.digits ++ 'm' :: r)) = stripAux false r := by
  cases c <;> simp [stripAux, Color.digits, esc]

theorem stripAux_reset (r : List Char) :
    stripAux false ([esc, '[', '0', 'm'] ++ r) = stripAux false r := by
  simp [stripAux, esc]

theorem stripAux_Apply (v : List Char) (c : Color) (r : List Char) (h : esc ∉ v) :
    stripAux false (Apply v c ++ r) = v ++ stripAux false r := by
  have e : Apply v c ++ r = esc :: '[' :: (c.digits ++ 'm' :: (v ++ ([esc, '[', '0', 'm'] ++ r))) := by
    simp [Apply]
  rw [e, stripAux_start, stripAux_plain _ _ h, stripAux_reset]

theorem newline_mem_Apply (v : List Char) (c : Color) : '\n' ∈ Apply v c ↔ '\n' ∈ v := by
  cases c <;> simp [Apply, Color.digits, esc]

theorem Renders_Apply (v : List Char) (c : Color) : Renders (Apply v c) v :=
  ⟨⟨v, c, [], by simp⟩, fun h r => stripAux_Apply v c r h,
    fun h => by rwa [newline_mem_Apply]⟩

/-! ### The route renderings of a value -/

theorem takeWhile_append_dropWhile_tail (s : List Char) (sep : Char) (h : sep ∈ s) :
    (s.takeWhile fun c => c != sep) ++ sep :: (s.dropWhile fun c => c != sep).tail = s := by
  induction s with
  | nil => simp at h
  | cons x t ih =>
    by_cases hx : x = sep
    · subst hx
      simp
    · have ht : sep ∈ t := by
        rcases List.mem_cons.1 h with e | e
        · exact absurd e.symm hx
        · exact e
      have e1 : (x :: t).takeWhile (fun c => c != sep) =
          x :: t.takeWhile (fun c => c != sep) := by simp [List.takeWhile_cons, hx]
      have e2 : (x :: t).dropWhile (fun c => c != sep) =
          t.dropWhile (fun c => c != sep) := by simp [List.dropWhile_cons, hx]
      rw [e1, e2, List.cons_append, ih ht]

theorem SplitN_two (s : List Char) (sep : Char) :
    strings.SplitN s sep 2 =
      if sep ∈ s then
        [s.takeWhile fun c => c != sep, (s.dropWhile fun c => c != sep).tail]
      else [s] := by
  simp [strings.SplitN]

theorem serviceOutput_renders (dp : DescribePrinter) (deps : Collaborators) (V : List Char) :
    ∃ out, serviceOutput dp deps V = some out ∧ Renders out V := by
  unfold serviceOutput
  rw [SplitN_two]
  by_cases h : ' ' ∈ V
  · have hV := takeWhile_append_dropWhile_tail V ' ' h
    generalize (V.takeWhile fun c => c != ' ') = a at hV
    generalize (V.dropWhile fun c => c != ' ').tail = b at hV
    subst hV
    simp only [if_pos h]
    refine ⟨_, by simp; rfl, ⟨a, ocRouteResourceNameColor, _, rfl⟩, ?_, ?_⟩
    · intro he r
      have ha : esc ∉ a := fun e => he (by simp [e])
      have hb : esc ∉ b := fun e => he (by simp [e])
      have hs : (' ' : Char) ≠ esc := by decide
      rw [List.append_assoc, stripAux_Apply _ _ _ ha]
      rw [List.cons_append, stripAux_cons _ _ hs, stripAux_Apply _ _ _ hb]
      simp
    · intro hn
      have ha : '\n' ∉ a := fun e => hn (by simp [e])
      have hb : '\n' ∉ b := fun e => hn (by simp [e])
      simp [newline_mem_Apply, ha, hb]
  · simp only [if_neg h]
    refine ⟨_, by simp; rfl, ?_⟩
    simpa using Renders_Apply V ocRouteResourceNameColor

theorem tlsOutput_renders (dp : DescribePrinter) (deps : Collaborators) (V : List Char)
    (vc : Color) : ∃ out, tlsOutput dp deps V vc = some out ∧ Renders out V := by
  have key : ∀ (a b : List Char), a ++ b = V → ∀ c : Color,
      Renders (if b ≠ [] then Apply a c ++ Apply b (deps.getColorByValueType b dp.DarkBackground)
        else Apply a c) V := by
    intro a b hab c
    subst hab
    by_cases hb : b = []
    · subst hb
      simpa using Renders_Apply a c
    · rw [if_pos hb]
      refine ⟨⟨a, c, _, rfl⟩, ?_, ?_⟩
      · intro he r
        have h1 : esc ∉ a := fun e => he (by simp [e])
        have h2 : esc ∉ b := fun e => he (by simp [e])
        rw [List.append_assoc, stripAux_Apply _ _ _ h1, stripAux_Apply _ _ _ h2]
        simp
      · intro hn
        have h1 : '\n' ∉ a := fun e => hn (by simp [e])
        have h2 : '\n' ∉ b := fun e => hn (by simp [e])
        simp [newline_mem_Apply, h1, h2]
  have pick : ∀ (a b : List Char), a ++ b = V →
      ∃ c : Color,
        (if deps.ToLower a = "edge".data then Apply a ocRouteTLSColorEdge
          else if deps.ToLower a = "passthrough".data then Apply a ocRouteTLSColorPassthrough
          else if deps.ToLower a = "reencrypt".data then Apply a ocRouteTLSColorReencrypt
          else Apply a vc) = Apply a c := by
    intro a b _
    by_cases h1 : deps.ToLower a = "edge".data
    · exact ⟨_, by rw [if_pos h1]⟩
    · by_cases h2 : deps.ToLower a = "passthrough".data
      · exact ⟨_, by rw [if_neg h1, if_pos h2]⟩
      · by_cases h3 : deps.ToLower a = "reencrypt".data
        · exact ⟨_, by rw [if_neg h1, if_neg h2, if_pos h3]⟩
        · exact ⟨_, by rw [if_neg h1, if_neg h2, if_neg h3]⟩
  unfold tlsOutput
  by_cases h : ' ' ∈ V
  · have hidx : strings.Index V ' ' = ((V.takeWhile fun c => c != ' ').length : Int) := by
      simp [strings.Index, h]
    have hle : (V.takeWhile fun c => c != ' ').length ≤ V.length :=
      (List.takeWhile_sublist _).length_le
    have hne : strings.Index V ' ' ≠ -1 := by rw [hidx]; omega
    have h1 : sliceTo V (strings.Index V ' ') =
        some (V.take (V.takeWhile fun c => c != ' ').length) := by
      rw [hidx]
      simp [sliceTo, hle]
    have h2 : sliceFrom V (strings.Index V ' ') =
        some (V.drop (V.takeWhile fun c => c != ' ').length) := by
      rw [hidx]
      simp [sliceFrom, hle]
    simp only [hne, ne_eq, not_false_eq_true, if_true, h1, h2]
    obtain ⟨c, hc⟩ := pick _ _ (List.take_append_drop (V.takeWhile fun c => c != ' ').length V)
    rw [hc]
    have := key _ _ (List.take_append_drop (V.takeWhile fun c => c != ' ').length V) c
    by_cases hb : V.drop (V.takeWhile fun c => c != ' ').length = []
    · rw [if_neg (by simpa using hb)] at this ⊢
      exact ⟨_, rfl, this⟩
    · rw [if_pos hb] at this ⊢
      exact ⟨_, rfl, this⟩
  · have hidx : strings.Index V ' ' = -1 := by simp [strings.Index, h]
    simp only [hidx, ne_eq, not_true_eq_false, if_false]
    obtain ⟨c, hc⟩ := pick V [] (by simp)
    rw [hc]
    have := key V [] (by simp) c
    simp only [ne_eq, not_true_eq_false, if_false] at this ⊢
    exact ⟨_, rfl, this⟩

theorem Split_ne_nil (s : List Char) (sep : Char) : strings.Split s sep ≠ [] := by
  induction s with
  | nil => simp [strings.Split]
  | cons c cs ih =>
    unfold strings.Split
    by_cases h : c = sep
    · simp [h]
    · rw [if_neg h]
      split <;> simp

theorem Split_subset (s : List Char) (sep : Char) :
    ∀ p ∈ strings.Split s sep, ∀ c ∈ p, c ∈ s := by
  induction s with
  | nil => simp [strings.Split]
  | cons x cs ih =>
    intro p hp c hc
    unfold strings.Split at hp
    by_cases h : x = sep
    · rw [if_pos h] at hp
      rcases List.mem_cons.1 hp with e | e
      · subst e; simp at hc
      · exact List.mem_cons_of_mem _ (ih p e c hc)
    · rw [if_neg h] at hp
      cases hsp : strings.Split cs sep with
      | nil => exact absurd hsp (Split_ne_nil cs sep)
      | cons hd tl =>
        rw [hsp] at hp ih
        simp only [List.mem_cons] at hp
        rcases hp with e | e
        · subst e
          rcases List.mem_cons.1 hc with e2 | e2
          · simp [e2]
          · exact List.mem_cons_of_mem _ (ih hd (by simp) c e2)
        · exact List.mem_cons_of_mem _ (ih p (by simp [e]) c hc)

theorem TrimSpace_subset (p : List Char) : ∀ c ∈ strings.TrimSpace p, c ∈ p := by
  intro c hc
  unfold strings.TrimSpace at hc
  have h1 : c ∈ p.dropWhile strings.IsSpace :=
    (List.rdropWhile_prefix _ _).sublist.subset hc
  exact (List.dropWhile_sublist _).subset h1

theorem coloredEpStrings_strip (ps : List (List Char))
    (h : ∀ p ∈ ps, esc ∉ strings.TrimSpace p) (r : List Char) :
    stripAux false ((coloredEpStrings ps).flatten ++ r) =
      ", ".data.intercalate (ps.map strings.TrimSpace) ++ stripAux false r := by
  induction ps with
  | nil => simp [coloredEpStrings, List.intercalate]
  | cons ep rest ih =>
    cases rest with
    | nil =>
      simp only [coloredEpStrings, List.flatten_cons, List.flatten_nil, List.append_nil,
        List.map_cons, List.map_nil]
      rw [stripAux_Apply _ _ _ (h ep (by simp))]
      simp [List.intercalate]
    | cons ep2 rest2 =>
      have ih2 := ih fun p hp => h p (List.mem_cons_of_mem _ hp)
      have hc : esc ∉ ",".data := by decide
      have hs : (' ' : Char) ≠ esc := by decide
      simp only [coloredEpStrings, List.flatten_cons, List.append_assoc]
      rw [stripAux_Apply _ _ _ (h ep (by simp)), stripAux_Apply _ _ _ hc]
      have e : " ".data ++ ((coloredEpStrings (ep2 :: rest2)).flatten ++ r) =
          ' ' :: ((coloredEpStrings (ep2 :: rest2)).flatten ++ r) := rfl
      rw [e, stripAux_cons _ _ hs, ih2]
      simp [List.intercalate, List.intersperse]

theorem coloredEpStrings_newline (ps : List (List Char))
    (h : ∀ p ∈ ps, '\n' ∉ strings.TrimSpace p) : '\n' ∉ (coloredEpStrings ps).flatten := by
  induction ps with
  | nil => simp [coloredEpStrings]
  | cons ep rest ih =>
    cases rest with
    | nil =>
      simpa [coloredEpStrings, newline_mem_Apply] using h ep (by simp)
    | cons ep2 rest2 =>
      have ih2 := ih fun p hp => h p (List.mem_cons_of_mem _ hp)
      have h1 := h ep (by simp)
      simp only [coloredEpStrings, List.flatten_cons, List.mem_append, newline_mem_Apply,
        not_or]
      exact ⟨h1, ⟨by decide, by decide⟩, ih2⟩

theorem endpointsOutput_spec (V : List Char) :
    (∃ x c t, endpointsOutput V = Apply x c ++ t) ∧
      (esc ∉ V → ∀ r, stripAux false (endpointsOutput V ++ r) =
        endpointsText V ++ stripAux false r) ∧
      ('\n' ∉ V → '\n' ∉ endpointsOutput V) := by
  refine ⟨?_, ?_, ?_⟩
  · unfold endpointsOutput
    cases hsp : strings.Split V ',' with
    | nil => exact absurd hsp (Split_ne_nil V ',')
    | cons ep rest =>
      cases rest with
      | nil =>
        exact ⟨strings.TrimSpace ep, ocRouteEndpointColor, [], by simp [coloredEpStrings]⟩
      | cons ep2 rest2 =>
        exact ⟨strings.TrimSpace ep, ocRouteEndpointColor, _,
          by simp only [coloredEpStrings, List.flatten_cons]; rfl⟩
  · intro he r
    exact coloredEpStrings_strip _
      (fun p hp hc => he (Split_subset V ',' p hp _ (TrimSpace_subset p _ hc))) r
  · intro hn
    exact coloredEpStrings_newline _
      (fun p hp hc => hn (Split_subset V ',' p hp _ (TrimSpace_subset p _ hc)))

/-- The route rendering of a value never fails; it either leaves the line to
the default printing, or rewrites an `Endpoints` value, or renders the value
as it is. -/
theorem routeValueOutput_spec (dp : DescribePrinter) (deps : Collaborators)
    (K V : List Char) (vc : Color) :
    routeValueOutput dp deps K V vc = some none ∨
      (strings.TrimSuffix (strings.TrimSpace K) ":".data = "Endpoints".data ∧
        routeValueOutput dp deps K V vc = some (some (endpointsOutput V))) ∨
      (strings.TrimSuffix (strings.TrimSpace K) ":".data ≠ "Endpoints".data ∧
        ∃ out, routeValueOutput dp deps K V vc = some (some out) ∧ Renders out V) := by
  unfold routeValueOutput
  by_cases h1 : strings.TrimSuffix (strings.TrimSpace K) ":".data = "Service".data
  · simp only [h1, if_true]
    by_cases h2 : strings.Contains V "(".data = true ∧ strings.Contains V "%".data = true
    · rw [if_pos h2]
      obtain ⟨out, ho, hr⟩ := serviceOutput_renders dp deps V
      right; right
      exact ⟨by decide, out, by rw [ho]; rfl, hr⟩
    · rw [if_neg h2]
      exact Or.inl rfl
  · rw [if_neg h1]
    by_cases h2 : strings.TrimSuffix (strings.TrimSpace K) ":".data = "Endpoints".data
    · rw [if_pos h2]
      exact Or.inr (Or.inl ⟨h2, rfl⟩)
    · rw [if_neg h2]
      by_cases h3 : strings.TrimSuffix (strings.TrimSpace K) ":".data = "TLS Termination".data
      · rw [if_pos h3]
        obtain ⟨out, ho, hr⟩ := tlsOutput_renders dp deps V vc
        right; right
        exact ⟨h2, out, by rw [ho]; rfl, hr⟩
      · rw [if_neg h3]
        exact Or.inl rfl

theorem columnsOf_nil : columnsOf [] = [] := by
  simp [columnsOf, spaces.Split, spaces.splitRuns, dropEmptyFirst]

/-- What `Print` writes for a line of one column. -/
theorem printLine_one (dp : DescribePrinter) (deps : Collaborators) (b : Bool)
    (line K : List Char) (h : columnsOf line = [K]) :
    ∃ kc vc,
      effectiveColors dp deps b (findIndent line) [K] = some (kc, vc) ∧
      printLine dp deps b line =
        some (toSpaces (findIndent line) ++ coloredKeyOutput K kc ++ "\n".data) ∧
      line = toSpaces (if 2 ≤ findIndent line then findIndent line else 0) ++ K := by
  have hne : line ≠ [] := by
    intro e
    rw [e, columnsOf_nil] at h
    exact absurd h (by simp)
  obtain ⟨K1, rest, idx, hcols, hidx, _, hline, _, _, _, _⟩ := line_decomp line hne
  rw [h] at hcols
  have hK : K = K1 := by simpa using (List.cons.inj hcols).1
  have hrest : rest = [] := by simpa using (List.cons.inj hcols).2
  subst hK hrest
  obtain ⟨kc, vc, hc, _⟩ := effectiveColors_one dp deps b (findIndent line) K
  refine ⟨kc, vc, hc, ?_, by simpa [spaces.joinRuns] using hline⟩
  unfold printLine
  simp only [h, hidx, hc, List.length_singleton]
  simp

/-- What `Print` writes for a line of two columns: the indent, the coloured
key, as many spaces as separate the columns in the line, the rendered value
and the newline. -/
theorem printLine_two (dp : DescribePrinter) (deps : Collaborators) (b : Bool)
    (line K V : List Char) (h : columnsOf line = [K, V]) :
    ∃ w kc vc out,
      line = toSpaces (if 2 ≤ findIndent line then findIndent line else 0) ++ K ++
        toSpaces w ++ V ∧
      2 ≤ w ∧ K.getLast? ≠ some ' ' ∧ V.head? ≠ some ' ' ∧
      effectiveColors dp deps b (findIndent line) [K, V] = some (kc, vc) ∧
      printLine dp deps b line =
        some (toSpaces (findIndent line) ++ coloredKeyOutput K kc ++ toSpaces w ++ out ++
          "\n".data) ∧
      ((b = true ∧ routeValueOutput dp deps K V vc = some (some out)) ∨
        ((b = false ∨ routeValueOutput dp deps K V vc = some none) ∧ out = Apply V vc)) := by
  have hne : line ≠ [] := by
    intro e
    rw [e, columnsOf_nil] at h
    exact absurd h (by simp)
  obtain ⟨K1, rest, idx, hcols, hidx, hcnt, hline, hruns, hlast, _, _⟩ := line_decomp line hne
  rw [h] at hcols
  have hK : K = K1 := by simpa using (List.cons.inj hcols).1
  subst hK
  have hrest : ∃ w, rest = [(w, V)] := by
    have := (List.cons.inj hcols).2
    cases rest with
    | nil => simp at this
    | cons p r =>
      obtain ⟨w, c⟩ := p
      simp only [List.map_cons, List.cons.injEq] at this
      obtain ⟨e1, e2⟩ := this
      have : r = [] := by simpa using e2.symm
      subst this
      exact ⟨w, by rw [e1]⟩
  obtain ⟨w, rfl⟩ := hrest
  have hw := hruns (w, V) (by simp)
  obtain ⟨kc, vc, hc, _⟩ := effectiveColors_two dp deps b (findIndent line) K V
  have hcnt2 : spacesCntOf idx = w := by simpa using hcnt
  have hp : ∀ out : List Char,
      (if b = true then routeValueOutput dp deps K V vc else some none) = some (some out) →
        printLine dp deps b line =
          some (toSpaces (findIndent line) ++ coloredKeyOutput K kc ++ toSpaces w ++ out ++
            "\n".data) := by
    intro out ho
    unfold printLine
    simp only [h, hidx, hc, hcnt2]
    simp [ho]
  have hp2 : (if b = true then routeValueOutput dp deps K V vc else some none) = some none →
        printLine dp deps b line =
          some (toSpaces (findIndent line) ++ coloredKeyOutput K kc ++ toSpaces w ++
            Apply V vc ++ "\n".data) := by
    intro ho
    unfold printLine
    simp only [h, hidx, hc, hcnt2]
    simp [ho]
  have hl : line = toSpaces (if 2 ≤ findIndent line then findIndent line else 0) ++ K ++
      toSpaces w ++ V := by
    simpa [spaces.joinRuns, toSpaces] using hline
  cases b with
  | false =>
    exact ⟨w, kc, vc, Apply V vc, hl, hw.1, hlast (by simp), hw.2, hc, hp2 (by simp),
      Or.inr ⟨Or.inl rfl, rfl⟩⟩
  | true =>
    rcases routeValueOutput_spec dp deps K V vc with hr | ⟨_, hr⟩ | ⟨_, out, hr, _⟩
    · exact ⟨w, kc, vc, Apply V vc, hl, hw.1, hlast (by simp), hw.2, hc,
        hp2 (by simp [hr]), Or.inr ⟨Or.inr hr, rfl⟩⟩
    · exact ⟨w, kc, vc, _, hl, hw.1, hlast (by simp), hw.2, hc, hp _ (by simp [hr]),
        Or.inl ⟨rfl, hr⟩⟩
    · exact ⟨w, kc, vc, out, hl, hw.1, hlast (by simp), hw.2, hc, hp _ (by simp [hr]),
        Or.inl ⟨rfl, hr⟩⟩

/-! ### The coloured key -/

theorem TrimRight_subset (K cutset : List Char) : ∀ c ∈ strings.TrimRight K cutset, c ∈ K :=
  fun _ hc => (List.rdropWhile_prefix _ _).sublist.subset hc

theorem HasSuffix_colon (K : List Char) :
    strings.HasSuffix K ":".data = true ↔ K.getLast? = some ':' := by
  unfold strings.HasSuffix
  rw [List.isSuffixOf_iff_suffix, List.getLast?_eq_some_iff]
  constructor
  · rintro ⟨t, rfl⟩
    exact ⟨t, rfl⟩
  · rintro ⟨t, rfl⟩
    exact ⟨t, rfl⟩

theorem eq_nil_or_append_singleton (K : List Char) :
    K = [] ∨ ∃ init c, K = init ++ [c] := by
  rcases List.eq_nil_or_concat K with e | ⟨init, c, e⟩
  · exact Or.inl e
  · exact Or.inr ⟨init, c, by rw [e, List.concat_eq_append]⟩

theorem TrimRight_append_of_ne (init : List Char) (c : Char) (hc : c ≠ ':') :
    strings.TrimRight (init ++ [c]) ":".data = init ++ [c] := by
  unfold strings.TrimRight
  rw [List.rdropWhile_concat_neg _ _ _ (by simpa using hc)]

theorem TrimRight_of_last (K : List Char) (h : K.getLast? ≠ some ':') :
    strings.TrimRight K ":".data = K := by
  rcases eq_nil_or_append_singleton K with e | ⟨init, c, e⟩
  · subst e
    simp [strings.TrimRight]
  · subst e
    apply TrimRight_append_of_ne
    intro hc
    apply h
    rw [hc, List.getLast?_concat]

theorem TrimRight_append_colon (K0 : List Char) (h : K0.getLast? ≠ some ':') :
    strings.TrimRight (K0 ++ ":".data) ":".data = K0 := by
  have e : strings.TrimRight (K0 ++ [':']) ":".data = strings.TrimRight K0 ":".data := by
    unfold strings.TrimRight
    rw [List.rdropWhile_concat_pos _ _ _ (by simp)]
  exact e.trans (TrimRight_of_last K0 h)

/-- A key that ends in at most one colon is spelled again by its trimmed
text and the colon that `Print` re-attaches. -/
theorem TrimRight_colon_spells (K : List Char)
    (h : strings.HasSuffix K "::".data = false) :
    strings.TrimRight K ":".data ++
      (if strings.HasSuffix K ":".data = true then ":".data else []) = K := by
  by_cases hs : strings.HasSuffix K ":".data = true
  · rw [if_pos hs]
    obtain ⟨init, rfl⟩ := List.getLast?_eq_some_iff.1 ((HasSuffix_colon K).1 hs)
    have hinit : init.getLast? ≠ some ':' := by
      intro hl
      obtain ⟨i2, rfl⟩ := List.getLast?_eq_some_iff.1 hl
      have h2 : strings.HasSuffix (i2 ++ [':'] ++ [':']) "::".data = true := by
        unfold strings.HasSuffix
        rw [List.isSuffixOf_iff_suffix]
        exact ⟨i2, by simp⟩
      rw [h2] at h
      exact absurd h (by simp)
    have e := TrimRight_append_colon init hinit
    change strings.TrimRight (init ++ [':']) ":".data = init at e
    rw [e]
  · rw [if_neg hs, List.append_nil]
    apply TrimRight_of_last
    intro hl
    exact hs ((HasSuffix_colon K).2 hl)

theorem coloredKeyOutput_eq (K : List Char) (c : Color) :
    coloredKeyOutput K c =
      Apply (strings.TrimRight K ":".data) c ++
        (if strings.HasSuffix K ":".data = true then ":".data else []) := by
  unfold coloredKeyOutput
  by_cases h : strings.HasSuffix K ":".data = true <;> simp [h]

theorem coloredKeyOutput_strip (K : List Char) (c : Color) (r : List Char)
    (he : esc ∉ K) (h : strings.HasSuffix K "::".data = false) :
    stripAux false (coloredKeyOutput K c ++ r) = K ++ stripAux false r := by
  have h1 : esc ∉ strings.TrimRight K ":".data := fun e => he (TrimRight_subset K _ _ e)
  have h2 : esc ∉ (if strings.HasSuffix K ":".data = true then ":".data else []) := by
    by_cases hs : strings.HasSuffix K ":".data = true
    · rw [if_pos hs]; decide
    · rw [if_neg hs]; simp
  rw [coloredKeyOutput_eq, List.append_assoc, stripAux_Apply _ _ _ h1, stripAux_plain _ _ h2,
    ← List.append_assoc, TrimRight_colon_spells K h]

theorem coloredKeyOutput_newline (K : List Char) (c : Color) (h : '\n' ∉ K) :
    '\n' ∉ coloredKeyOutput K c := by
  have h1 : '\n' ∉ strings.TrimRight K ":".data := fun e => h (TrimRight_subset K _ _ e)
  rw [coloredKeyOutput_eq]
  by_cases hs : strings.HasSuffix K ":".data = true
  · rw [if_pos hs]
    simp only [List.mem_append, newline_mem_Apply, not_or]
    exact ⟨h1, by decide⟩
  · rw [if_neg hs]
    simpa [newline_mem_Apply] using h1

theorem coloredKeyOutput_last (K : List Char) (c : Color) :
    (coloredKeyOutput K c).getLast? ≠ some ' ' := by
  rw [coloredKeyOutput_eq]
  by_cases hs : strings.HasSuffix K ":".data = true
  · rw [if_pos hs]
    simp [List.getLast?_append]
  · rw [if_neg hs, List.append_nil]
    have e : Apply (strings.TrimRight K ":".data) c =
        ([esc, '['] ++ c.digits ++ ['m'] ++ strings.TrimRight K ":".data ++ [esc, '[', '0']) ++
          ['m'] := by
      simp [Apply]
    rw [e, List.getLast?_concat]
    simp

/-! ### Totality of a line, and the shape of what is written -/

theorem Contains_iff_infix (s sub : List Char) :
    strings.Contains s sub = true ↔ sub <:+: s := by
  induction s with
  | nil => simp [strings.Contains, List.isEmpty_iff]
  | cons c cs ih =>
    simp only [strings.Contains, Bool.or_eq_true, List.isPrefixOf_iff_prefix, ih,
      List.infix_cons_iff]

theorem routeValueOutput_endpoints (dp : DescribePrinter) (deps : Collaborators)
    (K V : List Char) (vc : Color)
    (h : strings.TrimSuffix (strings.TrimSpace K) ":".data = "Endpoints".data) :
    routeValueOutput dp deps K V vc = some (some (endpointsOutput V)) := by
  unfold routeValueOutput
  simp [h]

/-- What `Print` writes for a line of two columns, with the rendering of the
value told apart: the re-joined endpoints, or a rendering of the value. -/
theorem printLine_two_render (dp : DescribePrinter) (deps : Collaborators) (b : Bool)
    (line K V : List Char) (h : columnsOf line = [K, V]) :
    ∃ w kc out,
      line = toSpaces (if 2 ≤ findIndent line then findIndent line else 0) ++ K ++
        toSpaces w ++ V ∧
      2 ≤ w ∧ K.getLast? ≠ some ' ' ∧ V.head? ≠ some ' ' ∧
      printLine dp deps b line =
        some (toSpaces (findIndent line) ++ coloredKeyOutput K kc ++ toSpaces w ++ out ++
          "\n".data) ∧
      ((b = true ∧ strings.TrimSuffix (strings.TrimSpace K) ":".data = "Endpoints".data ∧
          out = endpointsOutput V) ∨
        (¬ (b = true ∧ strings.TrimSuffix (strings.TrimSpace K) ":".data = "Endpoints".data) ∧
          Renders out V)) ∧
      (b = false →
        kc = deps.getColorByKeyIndent (findIndent line) basicIndentWidth dp.DarkBackground ∧
        out = Apply V (deps.getColorByValueType V dp.DarkBackground)) := by
  obtain ⟨w, kc, vc, out, hline, hw, hK, hV, hcol, hpr, hout⟩ := printLine_two dp deps b line K V h
  refine ⟨w, kc, out, hline, hw, hK, hV, hpr, ?_, ?_⟩
  · rcases hout with ⟨hb, hr⟩ | ⟨hb, ho⟩
    · rcases routeValueOutput_spec dp deps K V vc with h1 | ⟨hk, h1⟩ | ⟨hk, o2, h1, hren⟩
      · rw [h1] at hr
        exact absurd hr (by simp)
      · rw [h1] at hr
        simp only [Option.some.injEq] at hr
        exact Or.inl ⟨hb, hk, hr.symm⟩
      · rw [h1] at hr
        simp only [Option.some.injEq] at hr
        subst hr
        exact Or.inr ⟨fun hh => hk hh.2, hren⟩
    · subst ho
      refine Or.inr ⟨?_, Renders_Apply V vc⟩
      rintro ⟨hb1, hk⟩
      rcases hb with hb | hb
      · rw [hb1] at hb
        exact absurd hb (by simp)
      · rw [routeValueOutput_endpoints dp deps K V vc hk] at hb
        exact absurd hb (by simp)
  · intro hb
    obtain ⟨kc2, vc2, he2, hv⟩ := effectiveColors_two dp deps b (findIndent line) K V
    rw [hcol] at he2
    simp only [Option.some.injEq, Prod.mk.injEq] at he2
    obtain ⟨hk1, hk2⟩ := hv hb
    rcases hout with ⟨hb1, _⟩ | ⟨_, ho⟩
    · rw [hb] at hb1
      exact absurd hb1 (by simp)
    · rw [ho, he2.1, he2.2, hk1, hk2]
      exact ⟨rfl, rfl⟩

/-- The columns of a non-empty line: one, two, or more than two. -/
theorem columnsOf_cases (line : List Char) (hne : line ≠ []) :
    (∃ K, columnsOf line = [K]) ∨ (∃ K V, columnsOf line = [K, V]) ∨
      2 < (columnsOf line).length := by
  obtain ⟨K, rest, idx, hcols, _⟩ := line_decomp line hne
  rw [hcols]
  cases rest with
  | nil => exact Or.inl ⟨K, rfl⟩
  | cons p rest =>
    cases rest with
    | nil => exact Or.inr (Or.inl ⟨K, p.2, rfl⟩)
    | cons q rest =>
      refine Or.inr (Or.inr ?_)
      simp

theorem printLine_total (dp : DescribePrinter) (deps : Collaborators) (b : Bool)
    (line : List Char) (hne : line ≠ []) : ∃ out, printLine dp deps b line = some out := by
  rcases columnsOf_cases line hne with ⟨K, h⟩ | ⟨K, V, h⟩ | h
  · obtain ⟨kc, vc, _, hp, _⟩ := printLine_one dp deps b line K h
    exact ⟨_, hp⟩
  · obtain ⟨w, kc, vc, out, _, _, _, _, _, hp, _⟩ := printLine_two dp deps b line K V h
    exact ⟨_, hp⟩
  · obtain ⟨K, rest, idx, _, hidx, _⟩ := line_decomp line hne
    refine ⟨deps.printLineAsTableFormat line dp.DarkBackground, ?_⟩
    unfold printLine
    simp only [hidx]
    rw [if_pos h]

theorem writeLine_total (dp : DescribePrinter) (deps : Collaborators) (b : Bool)
    (line : List Char) : ∃ out, writeLine dp deps b line = some out := by
  unfold writeLine
  by_cases h : line = []
  · rw [if_pos h]
    exact ⟨_, rfl⟩
  · rw [if_neg h]
    exact printLine_total dp deps b line h

theorem newline_not_mem_toSpaces (n : Nat) : '\n' ∉ toSpaces n := by
  intro h
  have := List.eq_of_mem_replicate h
  exact absurd this (by decide)

theorem esc_not_mem_toSpaces (n : Nat) : esc ∉ toSpaces n := by
  intro h
  have := List.eq_of_mem_replicate h
  exact absurd this (by decide)

/-- A line of at most two columns and without a newline is written as one
text without a newline, followed by one newline. -/
theorem writeLine_shape (dp : DescribePrinter) (deps : Collaborators) (b : Bool)
    (line : List Char) (hcols : line ≠ [] → (columnsOf line).length ≤ 2) (hnl : '\n' ∉ line) :
    ∃ o, writeLine dp deps b line = some (o ++ "\n".data) ∧ '\n' ∉ o ∧ (line = [] → o = []) := by
  unfold writeLine
  by_cases hne : line = []
  · rw [if_pos hne]
    exact ⟨[], rfl, by simp, fun _ => rfl⟩
  · rw [if_neg hne]
    rcases columnsOf_cases line hne with ⟨K, h⟩ | ⟨K, V, h⟩ | h
    · obtain ⟨kc, vc, _, hp, hline⟩ := printLine_one dp deps b line K h
      refine ⟨toSpaces (findIndent line) ++ coloredKeyOutput K kc, hp, ?_, fun e => absurd e hne⟩
      have hK : '\n' ∉ K := by
        intro e
        apply hnl
        rw [hline]
        exact List.mem_append_right _ e
      simp only [List.mem_append, not_or]
      exact ⟨newline_not_mem_toSpaces _, coloredKeyOutput_newline K kc hK⟩
    · obtain ⟨w, kc, out, hline, _, _, _, hp, hout, _⟩ := printLine_two_render dp deps b line K V h
      have hK : '\n' ∉ K := by
        intro e
        apply hnl
        rw [hline]
        simp [e]
      have hV : '\n' ∉ V := by
        intro e
        apply hnl
        rw [hline]
        simp [e]
      have ho : '\n' ∉ out := by
        rcases hout with ⟨_, _, e⟩ | ⟨_, hren⟩
        · rw [e]
          exact (endpointsOutput_spec V).2.2 hV
        · exact hren.2.2 hV
      refine ⟨toSpaces (findIndent line) ++ coloredKeyOutput K kc ++ toSpaces w ++ out, hp, ?_,
        fun e => absurd e hne⟩
      simp only [List.mem_append, not_or]
      exact ⟨⟨⟨newline_not_mem_toSpaces _, coloredKeyOutput_newline K kc hK⟩,
        newline_not_mem_toSpaces _⟩, ho⟩
    · exact absurd (hcols hne) (by omega)

/-! ### The loop of `Print` -/

theorem detectRoute_eq (b : Bool) (line : List Char) :
    detectRoute b line = (b || hasRouteLabel line) := by
  cases b <;> simp [detectRoute, hasRouteLabel]

theorem printStep_spec (dp : DescribePrinter) (deps : Collaborators) (st : PrintState)
    (line : List Char) :
    ∃ out, writeLine dp deps (st.isRoute || hasRouteLabel line) line = some out ∧
      printStep dp deps st line =
        some { isRoute := st.isRoute || hasRouteLabel line, w := st.w ++ out } := by
  obtain ⟨out, ho⟩ := writeLine_total dp deps (st.isRoute || hasRouteLabel line) line
  refine ⟨out, ho, ?_⟩
  unfold printStep
  simp only [detectRoute_eq, ho]

theorem printLoop_append (dp : DescribePrinter) (deps : Collaborators) :
    ∀ (pre post : List (List Char)) (st : PrintState),
      printLoop dp deps st (pre ++ post) =
        (printLoop dp deps st pre).bind fun s => printLoop dp deps s post := by
  intro pre
  induction pre with
  | nil => intro post st; rfl
  | cons l pre ih =>
    intro post st
    simp only [List.cons_append, printLoop]
    cases printStep dp deps st l with
    | none => rfl
    | some st1 => exact ih post st1

/-- The loop of `Print` writes, line after line, what `writeLine` gives for
the line under some flag, and leaves the flag set when it was set or a line
has a label. -/
theorem printLoop_lines (dp : DescribePrinter) (deps : Collaborators)
    (Q : List Char → List Char → Prop) :
    ∀ (lines : List (List Char)),
      (∀ l ∈ lines, ∀ b, ∃ o, writeLine dp deps b l = some (o ++ "\n".data) ∧ Q l o) →
      ∀ st : PrintState, ∃ outs : List (List Char),
        printLoop dp deps st lines =
          some { isRoute := st.isRoute || lines.any hasRouteLabel,
                 w := st.w ++ (outs.map fun o => o ++ "\n".data).flatten } ∧
        List.Forall₂ (fun l o => (∃ b, writeLine dp deps b l = some (o ++ "\n".data)) ∧ Q l o)
          lines outs := by
  intro lines
  induction lines with
  | nil =>
    intro _ st
    exact ⟨[], by simp [printLoop], List.Forall₂.nil⟩
  | cons l rest ih =>
    intro h st
    obtain ⟨o, ho, hq⟩ := h l (List.mem_cons_self _ _) (st.isRoute || hasRouteLabel l)
    obtain ⟨out, hout, hstep⟩ := printStep_spec dp deps st l
    rw [ho] at hout
    simp only [Option.some.injEq] at hout
    subst hout
    obtain ⟨outs, hloop, hall⟩ :=
      ih (fun l1 h1 => h l1 (List.mem_cons_of_mem _ h1))
        { isRoute := st.isRoute || hasRouteLabel l, w := st.w ++ (o ++ "\n".data) }
    refine ⟨o :: outs, ?_, List.Forall₂.cons ⟨⟨_, ho⟩, hq⟩ hall⟩
    simp only [printLoop, hstep, hloop, List.any_cons, List.map_cons, List.flatten_cons,
      List.append_assoc, Bool.or_assoc]

theorem printLoop_total (dp : DescribePrinter) (deps : Collaborators) :
    ∀ (lines : List (List Char)) (st : PrintState), ∃ w,
      printLoop dp deps st lines =
        some { isRoute := st.isRoute || lines.any hasRouteLabel, w := w } := by
  intro lines
  induction lines with
  | nil =>
    intro st
    exact ⟨st.w, by simp [printLoop]⟩
  | cons l rest ih =>
    intro st
    obtain ⟨out, _, hstep⟩ := printStep_spec dp deps st l
    obtain ⟨w, hw⟩ := ih { isRoute := st.isRoute || hasRouteLabel l, w := st.w ++ out }
    exact ⟨w, by simp only [printLoop, hstep, hw, List.any_cons, Bool.or_assoc]⟩

theorem writeLine_of_columns (dp : DescribePrinter) (deps : Collaborators) (b : Bool)
    (line K : List Char) (rest : List (List Char)) (h : columnsOf line = K :: rest) :
    writeLine dp deps b line = printLine dp deps b line := by
  unfold writeLine
  rw [if_neg]
  intro e
  rw [e, columnsOf_nil] at h
  exact absurd h (by simp)

theorem indent_of_ne_one (n : Nat) (h : n ≠ 1) : (if 2 ≤ n then n else 0) = n := by
  split <;> omega

/-! ### The claims about `DescribePrinter.Print` -/

/-- For lines of at most two columns that hold no newline, the loop of `Print`
returns, and what it wrote is, line after line in the order of the lines, one
text without a newline followed by one newline: as many newline-ended lines
as there are lines. The text is what the loop body writes for that line, and
for an empty line it is empty. -/
theorem Print_lines_shape (dp : DescribePrinter) (deps : Collaborators)
    (lines : List (List Char))
    (hcols : ∀ l ∈ lines, l ≠ [] → (columnsOf l).length ≤ 2)
    (hnl : ∀ l ∈ lines, '\n' ∉ l) :
    ∃ st outs, Print dp deps lines = some st ∧
      st.w = (outs.map fun o => o ++ "\n".data).flatten ∧
      outs.length = lines.length ∧
      List.Forall₂
        (fun l o => (∃ b, writeLine dp deps b l = some (o ++ "\n".data)) ∧
          ('\n' ∉ o ∧ (l = [] → o = [])))
        lines outs := by
  obtain ⟨outs, hloop, hall⟩ :=
    printLoop_lines dp deps (fun l o => '\n' ∉ o ∧ (l = [] → o = [])) lines
      (fun l hl b => writeLine_shape dp deps b l (hcols l hl) (hnl l hl))
      { isRoute := false, w := [] }
  exact ⟨_, outs, hloop, by simp, hall.length_eq.symm, hall⟩

/-! ### The reader: what the scanner yields -/

namespace bufio

theorem rawLines_no_newline : ∀ (input : List Char), ∀ l ∈ rawLines input, '\n' ∉ l := by
  intro input
  induction input with
  | nil => intro l hl; simp [rawLines] at hl
  | cons c cs ih =>
    intro l hl
    unfold rawLines at hl
    by_cases hc : c = '\n'
    · rw [if_pos hc] at hl
      rcases List.mem_cons.1 hl with h | h
      · rw [h]; simp
      · exact ih l h
    · rw [if_neg hc] at hl
      cases hr : rawLines cs with
      | nil =>
        rw [hr] at hl
        simp only [List.mem_singleton] at hl
        rw [hl]
        simpa using fun h => hc h.symm
      | cons l1 ls =>
        rw [hr] at hl ih
        rcases List.mem_cons.1 hl with h | h
        · rw [h]
          intro hm
          rcases List.mem_cons.1 hm with h1 | h1
          · exact hc h1.symm
          · exact ih l1 (List.mem_cons_self _ _) h1
        · exact ih l (List.mem_cons_of_mem _ h)

theorem rawLines_append_newline (l rest : List Char) (h : '\n' ∉ l) :
    rawLines (l ++ '\n' :: rest) = l :: rawLines rest := by
  induction l with
  | nil => simp [rawLines]
  | cons c cs ih =>
    have hc : c ≠ '\n' := fun e => h (by simp [e])
    have hcs : '\n' ∉ cs := fun e => h (List.mem_cons_of_mem _ e)
    rw [List.cons_append, rawLines, if_neg hc, ih hcs]

theorem mem_dropCR (data : List Char) (c : Char) (h : c ∈ dropCR data) : c ∈ data := by
  unfold dropCR at h
  split at h
  · exact List.mem_of_mem_dropLast h
  · exact h

theorem byteLen_replicate (n : Nat) (c : Char) :
    byteLen (List.replicate n c) = n * c.utf8Size := by
  unfold byteLen
  rw [List.map_replicate, List.sum_replicate, smul_eq_mul]

theorem scanLines_of_short (input : List Char)
    (h : ∀ l ∈ rawLines input, byteLen l < MaxScanTokenSize) :
    scanLines input = (rawLines input).map dropCR := by
  unfold scanLines
  rw [List.takeWhile_eq_self_iff.2]
  intro l hl
  exact decide_eq_true (h l hl)

theorem scanLines_no_newline (input : List Char) : ∀ l ∈ scanLines input, '\n' ∉ l := by
  intro l hl
  unfold scanLines at hl
  obtain ⟨r, hr, rfl⟩ := List.mem_map.1 hl
  intro hm
  exact rawLines_no_newline input r ((List.takeWhile_sublist _).subset hr) (mem_dropCR r _ hm)

theorem scanLines_long_first (n : Nat) (c : Char) (rest : List Char) (hc : c ≠ '\n')
    (hn : MaxScanTokenSize ≤ n) :
    rawLines (List.replicate n c ++ '\n' :: rest) = List.replicate n c :: rawLines rest ∧
      scanLines (List.replicate n c ++ '\n' :: rest) = [] := by
  have hnl : '\n' ∉ List.replicate n c := by
    intro h
    exact hc (List.eq_of_mem_replicate h).symm
  have hraw := rawLines_append_newline (List.replicate n c) rest hnl
  refine ⟨hraw, ?_⟩
  unfold scanLines
  rw [hraw, List.takeWhile_cons_of_neg]
  · rfl
  · have h1 : 1 ≤ c.utf8Size := Char.utf8Size_pos c
    rw [byteLen_replicate]
    simp only [decide_eq_true_eq, not_lt]
    calc MaxScanTokenSize ≤ n := hn
      _ = n * 1 := (Nat.mul_one n).symm
      _ ≤ n * c.utf8Size := Nat.mul_le_mul_left n h1

end bufio

/-! ### The columns of a line without a space -/

theorem columnsOf_no_space (l : List Char) (hne : l ≠ []) (h : ' ' ∉ l) :
    columnsOf l = [l] := by
  have hs : ∀ l : List Char, ' ' ∉ l → spaces.splitRuns l = (l, []) := by
    intro l
    induction l with
    | nil => intro _; rfl
    | cons c cs ih =>
      intro h
      have hc : c ≠ ' ' := fun e => h (by simp [e])
      rw [spaces.splitRuns, ih (fun e => h (List.mem_cons_of_mem _ e))]
      simp [hc]
  unfold columnsOf spaces.Split
  rw [hs l h]
  simp [dropEmptyFirst, hne]

/-! ### The claims about `DescribePrinter.Print` on the input stream -/

/-- C13, counterexample: the stream of two lines, 65536 times `a` and then
`b`, each of one column. The first line has 65536 bytes and does not fit the
buffer of the scanner: `Scan` returns `false` at once, and `Print` returns
having written nothing, no line for two lines of input. -/
theorem Print_long_line_stops :
    bufio.rawLines (List.replicate 65536 'a' ++ "\nb\n".data) =
        [List.replicate 65536 'a', "b".data] ∧
      bufio.byteLen (List.replicate 65536 'a') = 65536 ∧
      (∀ l ∈ [List.replicate 65536 'a', "b".data], l ≠ [] → (columnsOf l).length ≤ 2) ∧
      bufio.scanLines (List.replicate 65536 'a' ++ "\nb\n".data) = [] ∧
      DescribePrinter.Print ⟨true⟩ exampleCollaborators
          (List.replicate 65536 'a' ++ "\nb\n".data) = some { isRoute := false, w := [] } := by
  have e : "\nb\n".data = '\n' :: "b\n".data := rfl
  have hn : bufio.MaxScanTokenSize ≤ 65536 := by decide
  obtain ⟨hraw, hscan⟩ := bufio.scanLines_long_first 65536 'a' "b\n".data (by decide) hn
  have hb : bufio.rawLines "b\n".data = ["b".data] := by decide
  have hne : List.replicate 65536 'a' ≠ [] := by
    intro h
    have := congrArg List.length h
    rw [List.length_replicate] at this
    exact absurd this (by decide)
  have hsp : ' ' ∉ List.replicate 65536 'a' := by
    intro h
    exact absurd (List.eq_of_mem_replicate h) (by decide)
  refine ⟨?_, ?_, ?_, ?_, ?_⟩
  · rw [e, hraw, hb]
  · rw [bufio.byteLen_replicate]
    rfl
  · intro l hl _
    rcases List.mem_cons.1 hl with h | h
    · rw [h, columnsOf_no_space _ hne hsp]
      exact Nat.le_succ 1
    · rw [List.mem_singleton] at h
      rw [h]
      decide
  · rw [e, hscan]
  · unfold DescribePrinter.Print
    rw [e, hscan]
    rfl

/-- C13, amended: for every input stream whose lines have fewer than 65536
bytes each (the bound of the scanner) and, when not blank, at most two
columns, `Print` returns, and what it wrote is, line after line in the order
of the input, one text without a newline followed by one newline: as many
newline-ended lines as the stream has lines. The text is what the loop body
writes for that line, and for an empty line it is empty. -/
theorem Print_one_line_per_line (dp : DescribePrinter) (deps : Collaborators)
    (input : List Char)
    (hshort : ∀ l ∈ bufio.rawLines input, bufio.byteLen l < bufio.MaxScanTokenSize)
    (hcols : ∀ l ∈ (bufio.rawLines input).map bufio.dropCR,
      l ≠ [] → (columnsOf l).length ≤ 2) :
    ∃ st outs, DescribePrinter.Print dp deps input = some st ∧
      st.w = (outs.map fun o => o ++ "\n".data).flatten ∧
      outs.length = (bufio.rawLines input).length ∧
      List.Forall₂
        (fun l o => (∃ b, writeLine dp deps b l = some (o ++ "\n".data)) ∧
          ('\n' ∉ o ∧ (l = [] → o = [])))
        ((bufio.rawLines input).map bufio.dropCR) outs := by
  have hscan := bufio.scanLines_of_short input hshort
  have hnl : ∀ l ∈ (bufio.rawLines input).map bufio.dropCR, '\n' ∉ l := by
    rw [← hscan]
    exact bufio.scanLines_no_newline input
  obtain ⟨st, outs, hp, hw, hlen, hall⟩ :=
    Print_lines_shape dp deps ((bufio.rawLines input).map bufio.dropCR) hcols hnl
  refine ⟨st, outs, ?_, hw, ?_, hall⟩
  · unfold DescribePrinter.Print
    rw [hscan]
    exact hp
  · rw [hlen, List.length_map]

theorem Print_one_line_per_line_witness :
    (∀ l ∈ bufio.rawLines "Name:         nginx-lpv5x\n\nLabels:  <none>\r\n".data,
        bufio.byteLen l < bufio.MaxScanTokenSize) ∧
      (bufio.rawLines "Name:         nginx-lpv5x\n\nLabels:  <none>\r\n".data).map bufio.dropCR =
        ["Name:         nginx-lpv5x".data, [], "Labels:  <none>".data] ∧
      (∀ l ∈ (bufio.rawLines "Name:         nginx-lpv5x\n\nLabels:  <none>\r\n".data).map
          bufio.dropCR, l ≠ [] → (columnsOf l).length ≤ 2) ∧
      ∃ st outs,
        DescribePrinter.Print ⟨true⟩ exampleCollaborators
            "Name:         nginx-lpv5x\n\nLabels:  <none>\r\n".data = some st ∧
          st.w = (outs.map fun o => o ++ "\n".data).flatten ∧
          outs.length =
            (bufio.rawLines "Name:         nginx-lpv5x\n\nLabels:  <none>\r\n".data).length ∧
          List.Forall₂
            (fun l o =>
              (∃ b, writeLine ⟨true⟩ exampleCollaborators b l = some (o ++ "\n".data)) ∧
                ('\n' ∉ o ∧ (l = [] → o = [])))
            ((bufio.rawLines "Name:         nginx-lpv5x\n\nLabels:  <none>\r\n".data).map
              bufio.dropCR) outs :=
  ⟨by decide, by decide, by decide,
    Print_one_line_per_line ⟨true⟩ exampleCollaborators
      "Name:         nginx-lpv5x\n\nLabels:  <none>\r\n".data (by decide) (by decide)⟩

/-- C14, counterexample: in a route the line `Endpoints:  a,b`, which has two
columns and no escape character, is written with the value `a, b`: without
its colour sequences the output has a space that the input has not. -/
theorem writeLine_endpoints_rejoined :
    (columnsOf "Endpoints:  a,b".data).length ≤ 2 ∧ esc ∉ "Endpoints:  a,b".data ∧
      writeLine ⟨true⟩ exampleCollaborators true "Endpoints:  a,b".data =
        some ("\x1b[33mEndpoints\x1b[0m:  \x1b[36ma\x1b[0m\x1b[37m,\x1b[0m \x1b[36mb\x1b[0m".data ++
          "\n".data) ∧
      stripColors
          "\x1b[33mEndpoints\x1b[0m:  \x1b[36ma\x1b[0m\x1b[37m,\x1b[0m \x1b[36mb\x1b[0m".data =
        "Endpoints:  a, b".data ∧
      stripColors
          "\x1b[33mEndpoints\x1b[0m:  \x1b[36ma\x1b[0m\x1b[37m,\x1b[0m \x1b[36mb\x1b[0m".data ≠
        "Endpoints:  a,b".data := by
  decide

/-- C14, amended: a line without an escape character, of at most two
columns, with no or at least two leading spaces, and whose first column does
not end in two colons, is written as a text and a newline; without its colour
sequences the text is the line, character for character, except for an
`Endpoints` line of two columns in a route, where the value comes back as its
comma-separated parts, each without the white space around it, joined by a
comma and one space. -/
theorem writeLine_strip (dp : DescribePrinter) (deps : Collaborators) (b : Bool)
    (line : List Char)
    (hesc : esc ∉ line)
    (hcols : (columnsOf line).length ≤ 2)
    (hind : findIndent line ≠ 1)
    (hcolon : ∀ K ∈ (columnsOf line).head?, strings.HasSuffix K "::".data = false) :
    ∃ out, writeLine dp deps b line = some (out ++ "\n".data) ∧
      (∀ K V, columnsOf line = [K, V] → b = true →
        strings.TrimSuffix (strings.TrimSpace K) ":".data = "Endpoints".data →
        ∃ pre, line = pre ++ V ∧ stripColors out = pre ++ endpointsText V) ∧
      (¬ (b = true ∧ ∃ K V, columnsOf line = [K, V] ∧
            strings.TrimSuffix (strings.TrimSpace K) ":".data = "Endpoints".data) →
        stripColors out = line) := by
  by_cases hne : line = []
  · subst hne
    refine ⟨[], by simp [writeLine], ?_, fun _ => rfl⟩
    intro K V h
    rw [columnsOf_nil] at h
    exact absurd h (by simp)
  · rcases columnsOf_cases line hne with ⟨K, h⟩ | ⟨K, V, h⟩ | h
    · obtain ⟨kc, vc, _, hp, hline⟩ := printLine_one dp deps b line K h
      rw [indent_of_ne_one _ hind] at hline
      have hK : esc ∉ K := by
        intro e
        apply hesc
        rw [hline]
        exact List.mem_append_right _ e
      have hc : strings.HasSuffix K "::".data = false := hcolon K (by rw [h]; simp)
      refine ⟨toSpaces (findIndent line) ++ coloredKeyOutput K kc, ?_, ?_, ?_⟩
      · rw [writeLine_of_columns dp deps b line K [] h, hp]
      · intro K1 V1 h1
        rw [h] at h1
        exact absurd h1 (by simp)
      · intro _
        have e : toSpaces (findIndent line) ++ coloredKeyOutput K kc =
            toSpaces (findIndent line) ++ (coloredKeyOutput K kc ++ []) := by simp
        unfold stripColors
        rw [e, stripAux_plain _ _ (esc_not_mem_toSpaces _), coloredKeyOutput_strip K kc [] hK hc]
        conv_rhs => rw [hline]
        simp [stripAux]
    · obtain ⟨w, kc, out, hline, _, _, _, hp, hout, _⟩ := printLine_two_render dp deps b line K V h
      rw [indent_of_ne_one _ hind] at hline
      have hK : esc ∉ K := by
        intro e
        apply hesc
        rw [hline]
        simp [e]
      have hV : esc ∉ V := by
        intro e
        apply hesc
        rw [hline]
        simp [e]
      have hc : strings.HasSuffix K "::".data = false := hcolon K (by rw [h]; simp)
      have e : toSpaces (findIndent line) ++ coloredKeyOutput K kc ++ toSpaces w ++ out =
          toSpaces (findIndent line) ++ (coloredKeyOutput K kc ++ (toSpaces w ++ (out ++ []))) := by
        simp
      have hstrip : ∀ v : List Char, (∀ r, stripAux false (out ++ r) = v ++ stripAux false r) →
          stripColors (toSpaces (findIndent line) ++ coloredKeyOutput K kc ++ toSpaces w ++ out) =
            toSpaces (findIndent line) ++ K ++ toSpaces w ++ v := by
        intro v hv
        unfold stripColors
        rw [e, stripAux_plain _ _ (esc_not_mem_toSpaces _), coloredKeyOutput_strip K kc _ hK hc,
          stripAux_plain _ _ (esc_not_mem_toSpaces _), hv]
        simp [stripAux]
      refine ⟨toSpaces (findIndent line) ++ coloredKeyOutput K kc ++ toSpaces w ++ out, ?_, ?_, ?_⟩
      · rw [writeLine_of_columns dp deps b line K [V] h, hp]
      · intro K1 V1 h1 hb hk
        rw [h] at h1
        simp only [List.cons.injEq, and_true] at h1
        obtain ⟨rfl, rfl⟩ := h1
        refine ⟨toSpaces (findIndent line) ++ K ++ toSpaces w, hline, ?_⟩
        rcases hout with ⟨_, _, ho⟩ | ⟨hn, _⟩
        · exact hstrip _ (by rw [ho]; exact (endpointsOutput_spec V).2.1 hV)
        · exact absurd ⟨hb, hk⟩ hn
      · intro hn
        rcases hout with ⟨hb, hk, _⟩ | ⟨_, hren⟩
        · exact absurd ⟨hb, K, V, h, hk⟩ hn
        · rw [hstrip V (hren.2.1 hV)]
          exact hline.symm
    · exact absurd hcols (by omega)

theorem writeLine_strip_witness :
    esc ∉ "  Port:  80/TCP".data ∧ (columnsOf "  Port:  80/TCP".data).length ≤ 2 ∧
      findIndent "  Port:  80/TCP".data ≠ 1 ∧
      (∀ K ∈ (columnsOf "  Port:  80/TCP".data).head?, strings.HasSuffix K "::".data = false) ∧
      ∃ out, writeLine ⟨true⟩ exampleCollaborators true "  Port:  80/TCP".data =
          some (out ++ "\n".data) ∧
        (∀ K V, columnsOf "  Port:  80/TCP".data = [K, V] → true = true →
          strings.TrimSuffix (strings.TrimSpace K) ":".data = "Endpoints".data →
          ∃ pre, "  Port:  80/TCP".data = pre ++ V ∧ stripColors out = pre ++ endpointsText V) ∧
        (¬ (true = true ∧ ∃ K V, columnsOf "  Port:  80/TCP".data = [K, V] ∧
              strings.TrimSuffix (strings.TrimSpace K) ":".data = "Endpoints".data) →
          stripColors out = "  Port:  80/TCP".data) :=
  ⟨by decide, by decide, by decide, by decide,
    writeLine_strip ⟨true⟩ exampleCollaborators true "  Port:  80/TCP".data
      (by decide) (by decide) (by decide) (by decide)⟩

/-- C15: a line of two columns `K` and `V` is `K`, a run of `w` spaces
(`w` at least two, `K` not ending and `V` not beginning with a space) and
`V`, after its leading spaces; `Print` writes, with or without the route
flag, the coloured key, which does not end with a space, then `w` spaces,
then the rendered value, which begins with a colour sequence. -/
theorem writeLine_separator_width (dp : DescribePrinter) (deps : Collaborators) (b : Bool)
    (line K V : List Char) (h : columnsOf line = [K, V]) :
    ∃ w kc x c t,
      line = toSpaces (if 2 ≤ findIndent line then findIndent line else 0) ++ K ++
        toSpaces w ++ V ∧
      2 ≤ w ∧ K.getLast? ≠ some ' ' ∧ V.head? ≠ some ' ' ∧
      writeLine dp deps b line =
        some (toSpaces (findIndent line) ++ coloredKeyOutput K kc ++ toSpaces w ++
          (Apply x c ++ t) ++ "\n".data) ∧
      (coloredKeyOutput K kc).getLast? ≠ some ' ' ∧ (Apply x c ++ t).head? = some esc := by
  obtain ⟨w, kc, out, hline, hw, hK, hV, hp, hout, _⟩ := printLine_two_render dp deps b line K V h
  have hx : ∃ x c t, out = Apply x c ++ t := by
    rcases hout with ⟨_, _, ho⟩ | ⟨_, hren⟩
    · rw [ho]
      exact (endpointsOutput_spec V).1
    · exact hren.1
  obtain ⟨x, c, t, rfl⟩ := hx
  refine ⟨w, kc, x, c, t, hline, hw, hK, hV, ?_, coloredKeyOutput_last K kc, by simp [Apply]⟩
  rw [writeLine_of_columns dp deps b line K [V] h, hp]

theorem writeLine_separator_width_witness :
    ∃ w kc x c t,
      " Port:    80/TCP".data =
        toSpaces (if 2 ≤ findIndent " Port:    80/TCP".data
          then findIndent " Port:    80/TCP".data else 0) ++ " Port:".data ++
          toSpaces w ++ "80/TCP".data ∧
      2 ≤ w ∧ " Port:".data.getLast? ≠ some ' ' ∧ "80/TCP".data.head? ≠ some ' ' ∧
      writeLine ⟨true⟩ exampleCollaborators true " Port:    80/TCP".data =
        some (toSpaces (findIndent " Port:    80/TCP".data) ++
          coloredKeyOutput " Port:".data kc ++ toSpaces w ++ (Apply x c ++ t) ++ "\n".data) ∧
      (coloredKeyOutput " Port:".data kc).getLast? ≠ some ' ' ∧
      (Apply x c ++ t).head? = some esc :=
  writeLine_separator_width ⟨true⟩ exampleCollaborators true " Port:    80/TCP".data
    " Port:".data "80/TCP".data (by decide)

/-- What is written for a line of one column `K`: as many spaces as the line
has leading spaces, `K` without its trailing colons in the key colour, a
colon when `K` ends in one, and the newline; without a route the key colour
is the colour of the depth. The line itself is `K` after its leading spaces
only when these are none or two and more: one leading space is part of `K`. -/
theorem writeLine_one_column (dp : DescribePrinter) (deps : Collaborators) (b : Bool)
    (line K : List Char) (h : columnsOf line = [K]) :
    ∃ kc,
      writeLine dp deps b line =
        some (toSpaces (findIndent line) ++
          (Apply (strings.TrimRight K ":".data) kc ++
            (if strings.HasSuffix K ":".data = true then ":".data else [])) ++ "\n".data) ∧
      line = toSpaces (if 2 ≤ findIndent line then findIndent line else 0) ++ K ∧
      (b = false →
        kc = deps.getColorByKeyIndent (findIndent line) basicIndentWidth dp.DarkBackground) := by
  obtain ⟨kc, vc, hcol, hp, hline⟩ := printLine_one dp deps b line K h
  refine ⟨kc, ?_, hline, ?_⟩
  · rw [writeLine_of_columns dp deps b line K [] h, hp, coloredKeyOutput_eq]
  · intro hb
    obtain ⟨kc2, vc2, he2, hv⟩ := effectiveColors_one dp deps b (findIndent line) K
    rw [hcol] at he2
    simp only [Option.some.injEq, Prod.mk.injEq] at he2
    rw [he2.1]
    exact hv hb

/-- C16: the line ` Name:` has one column and one leading space. `Print`
writes the space as the indent and then colours the column, which is ` Name`
with the same space in it, in the colour of the depth when there is no route:
with or without the route flag the coloured key text begins with a space, and
without its colour sequences the output is two spaces and `Name:`, one space
more than the line has. -/
theorem writeLine_one_column_one_space (dp : DescribePrinter) (deps : Collaborators) :
    columnsOf " Name:".data = [" Name:".data] ∧ findIndent " Name:".data = 1 ∧
      writeLine dp deps false " Name:".data =
        some (" ".data ++ Apply " Name".data (deps.getColorByKeyIndent 1 2 dp.DarkBackground) ++
          ":".data ++ "\n".data) ∧
      ∀ b, ∃ kc,
        writeLine dp deps b " Name:".data =
          some (" ".data ++ Apply " Name".data kc ++ ":".data ++ "\n".data) ∧
        stripColors (" ".data ++ Apply " Name".data kc ++ ":".data) = "  Name:".data := by
  have hc : columnsOf " Name:".data = [" Name:".data] := by decide
  have hi : findIndent " Name:".data = 1 := by decide
  have e1 : strings.TrimRight " Name:".data ":".data = " Name".data := by decide
  have e2 : strings.HasSuffix " Name:".data ":".data = true := by decide
  have hall : ∀ b, ∃ kc,
      writeLine dp deps b " Name:".data =
        some (" ".data ++ Apply " Name".data kc ++ ":".data ++ "\n".data) ∧
      (b = false → kc = deps.getColorByKeyIndent 1 2 dp.DarkBackground) ∧
      stripColors (" ".data ++ Apply " Name".data kc ++ ":".data) = "  Name:".data := by
    intro b
    obtain ⟨kc, hw, _, hkc⟩ := writeLine_one_column dp deps b " Name:".data " Name:".data hc
    rw [hi, e1, e2, if_pos rfl] at hw
    refine ⟨kc, ?_, ?_, ?_⟩
    · rw [hw]
      simp [toSpaces]
    · intro hb
      rw [hkc hb, hi]
      rfl
    · have e : " ".data ++ Apply " Name".data kc ++ ":".data =
          " ".data ++ (Apply " Name".data kc ++ (":".data ++ [])) := by simp
      unfold stripColors
      rw [e, stripAux_plain _ _ (by decide), stripAux_Apply _ _ _ (by decide),
        stripAux_plain _ _ (by decide)]
      rfl
  refine ⟨hc, hi, ?_, ?_⟩
  · obtain ⟨kc, hw, hkc, _⟩ := hall false
    rw [hw, hkc rfl]
  · intro b
    obtain ⟨kc, hw, _, hs⟩ := hall b
    exact ⟨kc, hw, hs⟩

/-- C17: without the route flag, a line of two columns `K0:` and `V`, with
`n` leading spaces (`n` not one) and `K0` not ending in a colon, is `n`
spaces, `K0:`, `w` spaces, `V`, and `Print` writes `n` spaces,
`Apply(K0, getColorByKeyIndent(n, 2, dark))`, a colon, `w` spaces,
`Apply(V, getColorByValueType(V, dark))` and a newline. -/
theorem writeLine_key_value (dp : DescribePrinter) (deps : Collaborators)
    (line K0 V : List Char)
    (h : columnsOf line = [K0 ++ ":".data, V]) (hK : K0.getLast? ≠ some ':')
    (hind : findIndent line ≠ 1) :
    ∃ w, 2 ≤ w ∧
      line = toSpaces (findIndent line) ++ K0 ++ ":".data ++ toSpaces w ++ V ∧
      writeLine dp deps false line =
        some (toSpaces (findIndent line) ++
          Apply K0 (deps.getColorByKeyIndent (findIndent line) 2 dp.DarkBackground) ++ ":".data ++
          toSpaces w ++ Apply V (deps.getColorByValueType V dp.DarkBackground) ++ "\n".data) := by
  obtain ⟨w, kc, out, hline, hw, _, _, hp, _, hfalse⟩ :=
    printLine_two_render dp deps false line (K0 ++ ":".data) V h
  obtain ⟨hkc, hout⟩ := hfalse rfl
  rw [indent_of_ne_one _ hind] at hline
  refine ⟨w, hw, ?_, ?_⟩
  · conv_lhs => rw [hline]
    simp
  · have hs : strings.HasSuffix (K0 ++ ":".data) ":".data = true := by
      rw [HasSuffix_colon]
      exact List.getLast?_concat K0
    rw [writeLine_of_columns dp deps false line (K0 ++ ":".data) [V] h, hp, coloredKeyOutput_eq,
      TrimRight_append_colon K0 hK, if_pos hs, hkc, hout]
    simp [basicIndentWidth]

theorem writeLine_key_value_witness :
    (∃ w, 2 ≤ w ∧
      "Name:         nginx-lpv5x".data =
        toSpaces (findIndent "Name:         nginx-lpv5x".data) ++ "Name".data ++ ":".data ++
          toSpaces w ++ "nginx-lpv5x".data ∧
      writeLine ⟨true⟩ exampleCollaborators false "Name:         nginx-lpv5x".data =
        some (toSpaces (findIndent "Name:         nginx-lpv5x".data) ++
          Apply "Name".data
            (exampleCollaborators.getColorByKeyIndent
              (findIndent "Name:         nginx-lpv5x".data) 2 true) ++ ":".data ++
          toSpaces w ++
          Apply "nginx-lpv5x".data
            (exampleCollaborators.getColorByValueType "nginx-lpv5x".data true) ++ "\n".data)) ∧
      writeLine ⟨true⟩ exampleCollaborators false "Name:         nginx-lpv5x".data =
        some (Apply "Name".data Color.Yellow ++ ":".data ++ toSpaces 9 ++
          Apply "nginx-lpv5x".data Color.Cyan ++ "\n".data) :=
  ⟨writeLine_key_value ⟨true⟩ exampleCollaborators "Name:         nginx-lpv5x".data
      "Name".data "nginx-lpv5x".data (by decide) (by decide) (by decide),
    by decide⟩

/-- C18: the key `fe80::` ends in two colons; `Print` colours `fe80`, the
key with both colons removed, and appends one colon, so that the coloured
text and the colon spell `fe80:` and not the key; the one-column line
`  fe80::` is written as `  fe80:`, and the line `Host::  a` as `Host:  a`. -/
theorem coloredKeyOutput_two_colons (c : Color) :
    coloredKeyOutput "fe80::".data c = Apply "fe80".data c ++ ":".data ∧
      stripColors (coloredKeyOutput "fe80::".data c) = "fe80:".data ∧
      stripColors (coloredKeyOutput "fe80::".data c) ≠ "fe80::".data ∧
      columnsOf "  fe80::".data = ["fe80::".data] ∧
      writeLine ⟨true⟩ exampleCollaborators false "  fe80::".data =
        some ("  \x1b[37mfe80\x1b[0m:\n".data) ∧
      columnsOf "Host::  a".data = ["Host::".data, "a".data] ∧
      writeLine ⟨true⟩ exampleCollaborators false "Host::  a".data =
        some ("\x1b[33mHost\x1b[0m:  \x1b[36ma\x1b[0m\n".data) := by
  cases c <;> decide

/-- C19: for a non-empty line the list of columns is not empty after the
empty first column is dropped, so `columns[0]` is in range; with more than
one leading space the list of runs is not empty, so `spacesIndices[1:]` is
defined; and the loop body returns what it writes, with or without the route
flag. -/
theorem writeLine_in_range (dp : DescribePrinter) (deps : Collaborators)
    (line : List Char) (hne : line ≠ []) :
    columnsOf line ≠ [] ∧ (∃ k, (columnsOf line)[0]? = some k) ∧
      (1 < findIndent line → spaces.FindAllStringIndex line ≠ []) ∧
      (∃ idx, dropIndentIndex (findIndent line) (spaces.FindAllStringIndex line) = some idx) ∧
      (∀ b, ∃ out, writeLine dp deps b line = some out) := by
  obtain ⟨K, rest, idx, hcols, hidx, _⟩ := line_decomp line hne
  refine ⟨by rw [hcols]; simp, ⟨K, by rw [hcols]; simp⟩, ?_, ⟨idx, hidx⟩,
    fun b => writeLine_total dp deps b line⟩
  intro h1 he
  rw [he] at hidx
  have h0 : findIndent line > 0 := by omega
  simp [dropIndentIndex, h0, h1, tailSlice] at hidx

theorem writeLine_in_range_witness :
    "   ".data ≠ [] ∧
      (columnsOf "   ".data ≠ [] ∧ (∃ k, (columnsOf "   ".data)[0]? = some k) ∧
        (1 < findIndent "   ".data → spaces.FindAllStringIndex "   ".data ≠ []) ∧
        (∃ idx, dropIndentIndex (findIndent "   ".data)
          (spaces.FindAllStringIndex "   ".data) = some idx) ∧
        (∀ b, ∃ out, writeLine ⟨true⟩ exampleCollaborators b "   ".data = some out)) :=
  ⟨by decide, writeLine_in_range ⟨true⟩ exampleCollaborators "   ".data (by decide)⟩

/-- C20: `Print` returns for every stream; the route flag is `false` before
the first line; after the lines `pre` it is `true` exactly when one of them
has a label; the line `l` that follows is written under the flag after `l`
was inspected, which is the flag before it or that `l` has a label, and this
is the flag that is carried on: once `true` it stays `true`. A line has a
label when one of the three labels is a substring of it. -/
theorem Print_route_flag (dp : DescribePrinter) (deps : Collaborators) :
    Print dp deps [] = some { isRoute := false, w := [] } ∧
      (∀ (pre : List (List Char)) (l : List Char), ∃ st out,
        Print dp deps pre = some st ∧ st.isRoute = pre.any hasRouteLabel ∧
        writeLine dp deps (st.isRoute || hasRouteLabel l) l = some out ∧
        Print dp deps (pre ++ [l]) =
          some { isRoute := st.isRoute || hasRouteLabel l, w := st.w ++ out }) ∧
      (∀ l : List Char, hasRouteLabel l = true ↔
        ("Requested Host:".data <:+: l ∨ "TLS Termination:".data <:+: l ∨
          "Ingress:".data <:+: l)) := by
  refine ⟨rfl, ?_, ?_⟩
  · intro pre l
    obtain ⟨w, hw⟩ := printLoop_total dp deps pre { isRoute := false, w := [] }
    obtain ⟨out, hout, hstep⟩ :=
      printStep_spec dp deps { isRoute := false || pre.any hasRouteLabel, w := w } l
    refine ⟨_, out, hw, by simp, hout, ?_⟩
    unfold Print
    rw [printLoop_append, hw]
    simp only [Option.some_bind, printLoop, hstep]
  · intro l
    simp only [hasRouteLabel, routeDetectionKeywords, List.any_cons, List.any_nil,
      Bool.or_false, Bool.or_eq_true, Contains_iff_infix]

end printer

/-! ## The describe printer: the route rules and the tests -/

namespace printer

/-- The first line of a stream is written without the route flag when it has
no label itself. -/
theorem Print_cons_of_no_label (dp : DescribePrinter) (deps : Collaborators)
    (l : List Char) (ls : List (List Char)) (h : hasRouteLabel l = false) :
    Print dp deps (l :: ls) =
      (writeLine dp deps false l).bind fun out =>
        printLoop dp deps { isRoute := false, w := out } ls := by
  unfold Print
  simp only [printLoop, printStep, detectRoute_eq, h, Bool.or_false]
  cases writeLine dp deps false l with
  | none => rfl
  | some out => simp

theorem writeLine_name_my_route (dp : DescribePrinter) (deps : Collaborators) :
    writeLine dp deps false "Name:           my-route".data =
      some (Apply "Name".data (deps.getColorByKeyIndent 0 2 dp.DarkBackground) ++ ":".data ++
        toSpaces 11 ++
        Apply "my-route".data (deps.getColorByValueType "my-route".data dp.DarkBackground) ++
        "\n".data) := by
  have hc : columnsOf "Name:           my-route".data = ["Name:".data, "my-route".data] := by
    decide
  have hi : findIndent "Name:           my-route".data = 0 := by decide
  have hs : spaces.FindAllStringIndex "Name:           my-route".data = [(5, 16)] := by decide
  have hk : coloredKeyOutput "Name:".data (deps.getColorByKeyIndent 0 2 dp.DarkBackground) =
      Apply "Name".data (deps.getColorByKeyIndent 0 2 dp.DarkBackground) ++ ":".data := by
    rw [coloredKeyOutput_eq]
    have e1 : strings.TrimRight "Name:".data ":".data = "Name".data := by decide
    have e2 : strings.HasSuffix "Name:".data ":".data = true := by decide
    rw [e1, e2, if_pos rfl]
  unfold writeLine printLine
  rw [if_neg (by decide)]
  simp only [hc, hi, hs]
  simp only [dropIndentIndex, spacesCntOf, effectiveColors, basicIndentWidth]
  simp [hk, toSpaces]

theorem printLoop_written (dp : DescribePrinter) (deps : Collaborators) :
    ∀ (lines : List (List Char)) (st : PrintState), ∃ out,
      printLoop dp deps st lines =
        some { isRoute := st.isRoute || lines.any hasRouteLabel, w := st.w ++ out } := by
  intro lines
  induction lines with
  | nil =>
    intro st
    exact ⟨[], by simp [printLoop]⟩
  | cons l rest ih =>
    intro st
    obtain ⟨out, _, hstep⟩ := printStep_spec dp deps st l
    obtain ⟨out2, h2⟩ := ih { isRoute := st.isRoute || hasRouteLabel l, w := st.w ++ out }
    exact ⟨out ++ out2, by
      simp only [printLoop, hstep, h2, List.any_cons, Bool.or_assoc, List.append_assoc]⟩

/-- C21: on the first five lines of the route of the test, where `Name:` is
line 1 and `Requested Host:` is line 5, `Print` returns with the route flag
set, but the first line it wrote has the value `my-route` in the colour that
`getColorByValueType` gives, not in the route resource name colour: the flag
is still unset when line 1 is written. For the colours of the tests that is
Cyan and not the Green of `routeResourceNameColor`. -/
theorem Print_name_before_label (dp : DescribePrinter) (deps : Collaborators) :
    (∃ st rest,
      Print dp deps
          ["Name:           my-route".data, "Namespace:      my-project".data,
           "Labels:         app=my-app".data,
           "Annotations:    haproxy.router.openshift.io/balance=roundrobin".data,
           "Requested Host: www.example.com".data] = some st ∧
        st.isRoute = true ∧
        st.w =
          Apply "Name".data (deps.getColorByKeyIndent 0 2 dp.DarkBackground) ++ ":".data ++
            toSpaces 11 ++
            Apply "my-route".data (deps.getColorByValueType "my-route".data dp.DarkBackground) ++
            "\n".data ++ rest) ∧
      exampleCollaborators.getColorByValueType "my-route".data true = Color.Cyan ∧
      ocRouteResourceNameColor = Color.Green := by
  refine ⟨?_, by decide, by decide⟩
  have hany : (["Namespace:      my-project".data, "Labels:         app=my-app".data,
      "Annotations:    haproxy.router.openshift.io/balance=roundrobin".data,
      "Requested Host: www.example.com".data].any hasRouteLabel) = true := by decide
  obtain ⟨out, hout⟩ := printLoop_written dp deps
    ["Namespace:      my-project".data, "Labels:         app=my-app".data,
     "Annotations:    haproxy.router.openshift.io/balance=roundrobin".data,
     "Requested Host: www.example.com".data]
    { isRoute := false,
      w := Apply "Name".data (deps.getColorByKeyIndent 0 2 dp.DarkBackground) ++ ":".data ++
        toSpaces 11 ++
        Apply "my-route".data (deps.getColorByValueType "my-route".data dp.DarkBackground) ++
        "\n".data }
  rw [hany] at hout
  refine ⟨{ isRoute := true,
            w := Apply "Name".data (deps.getColorByKeyIndent 0 2 dp.DarkBackground) ++ ":".data ++
              toSpaces 11 ++
              Apply "my-route".data (deps.getColorByValueType "my-route".data dp.DarkBackground) ++
              "\n".data ++ out }, out, ?_, rfl, rfl⟩
  rw [Print_cons_of_no_label dp deps _ _ (by decide), writeLine_name_my_route,
    Option.some_bind, hout]
  rfl

end printer

namespace printer

/-- C22: the line ` Name:            mem-cpu-quota` of the test has one
leading space; without the route flag `Print` writes the space as the indent
and then colours the first column, which is ` Name` with the same space
again: without its colour sequences the output begins with two spaces, and
the coloured key text begins with a space. -/
theorem writeLine_one_space_indent (dp : DescribePrinter) (deps : Collaborators) :
    columnsOf " Name:            mem-cpu-quota".data = [" Name:".data, "mem-cpu-quota".data] ∧
      writeLine dp deps false " Name:            mem-cpu-quota".data =
        some (" ".data ++
          Apply " Name".data (deps.getColorByKeyIndent 1 2 dp.DarkBackground) ++ ":".data ++
          toSpaces 12 ++
          Apply "mem-cpu-quota".data
            (deps.getColorByValueType "mem-cpu-quota".data dp.DarkBackground) ++
          "\n".data) ∧
      stripColors (" ".data ++
          Apply " Name".data (deps.getColorByKeyIndent 1 2 dp.DarkBackground) ++ ":".data ++
          toSpaces 12 ++
          Apply "mem-cpu-quota".data
            (deps.getColorByValueType "mem-cpu-quota".data dp.DarkBackground)) =
        "  Name:            mem-cpu-quota".data := by
  have hc : columnsOf " Name:            mem-cpu-quota".data =
      [" Name:".data, "mem-cpu-quota".data] := by decide
  refine ⟨hc, ?_, ?_⟩
  · have hi : findIndent " Name:            mem-cpu-quota".data = 1 := by decide
    have hs : spaces.FindAllStringIndex " Name:            mem-cpu-quota".data = [(6, 18)] := by
      decide
    have hk : coloredKeyOutput " Name:".data (deps.getColorByKeyIndent 1 2 dp.DarkBackground) =
        Apply " Name".data (deps.getColorByKeyIndent 1 2 dp.DarkBackground) ++ ":".data := by
      rw [coloredKeyOutput_eq]
      have e1 : strings.TrimRight " Name:".data ":".data = " Name".data := by decide
      have e2 : strings.HasSuffix " Name:".data ":".data = true := by decide
      rw [e1, e2, if_pos rfl]
    unfold writeLine printLine
    rw [if_neg (by decide)]
    simp only [hc, hi, hs]
    simp only [dropIndentIndex, spacesCntOf, effectiveColors, basicIndentWidth]
    simp [hk, toSpaces]
  · have e : " ".data ++
          Apply " Name".data (deps.getColorByKeyIndent 1 2 dp.DarkBackground) ++ ":".data ++
          toSpaces 12 ++
          Apply "mem-cpu-quota".data
            (deps.getColorByValueType "mem-cpu-quota".data dp.DarkBackground) =
        " ".data ++
          (Apply " Name".data (deps.getColorByKeyIndent 1 2 dp.DarkBackground) ++ (":".data ++
          (toSpaces 12 ++
          (Apply "mem-cpu-quota".data
            (deps.getColorByValueType "mem-cpu-quota".data dp.DarkBackground) ++ [])))) := by
      simp
    unfold stripColors
    rw [e, stripAux_plain _ _ (by decide), stripAux_Apply _ _ _ (by decide),
      stripAux_plain _ _ (by decide), stripAux_plain _ _ (esc_not_mem_toSpaces _),
      stripAux_Apply _ _ _ (by decide)]
    decide

/-- C23: without the route flag the one-column lines `Resource Quotas` and
`  (Total limits may be over 100 percent, i.e., overcommitted.)` of the
tests, which do not end in a colon, are written in the key colour of their
depth, `getColorByKeyIndent(n, 2, dark)`; `getColorByValueType` is not
asked. For the colours of the tests that is Yellow and White, where the
tests expect the Cyan of the value type. -/
theorem writeLine_text_line_key_colour (dp : DescribePrinter) (deps : Collaborators) :
    writeLine dp deps false "Resource Quotas".data =
        some (Apply "Resource Quotas".data (deps.getColorByKeyIndent 0 2 dp.DarkBackground) ++
          "\n".data) ∧
      writeLine dp deps false
          "  (Total limits may be over 100 percent, i.e., overcommitted.)".data =
        some ("  ".data ++
          Apply "(Total limits may be over 100 percent, i.e., overcommitted.)".data
            (deps.getColorByKeyIndent 2 2 dp.DarkBackground) ++ "\n".data) ∧
      exampleCollaborators.getColorByKeyIndent 0 2 true = Color.Yellow ∧
      exampleCollaborators.getColorByValueType "Resource Quotas".data true = Color.Cyan ∧
      exampleCollaborators.getColorByKeyIndent 2 2 true = Color.White ∧
      exampleCollaborators.getColorByValueType
        "(Total limits may be over 100 percent, i.e., overcommitted.)".data true = Color.Cyan := by
  refine ⟨?_, ?_, by decide, by decide, by decide, by decide⟩
  · have hc : columnsOf "Resource Quotas".data = ["Resource Quotas".data] := by decide
    have hi : findIndent "Resource Quotas".data = 0 := by decide
    have hs : spaces.FindAllStringIndex "Resource Quotas".data = [] := by decide
    have hk : ∀ c, coloredKeyOutput "Resource Quotas".data c = Apply "Resource Quotas".data c := by
      intro c
      rw [coloredKeyOutput_eq]
      have e1 : strings.TrimRight "Resource Quotas".data ":".data = "Resource Quotas".data := by
        decide
      have e2 : strings.HasSuffix "Resource Quotas".data ":".data = false := by decide
      rw [e1, e2]
      simp
    unfold writeLine printLine
    rw [if_neg (by decide)]
    simp only [hc, hi, hs]
    simp only [dropIndentIndex, spacesCntOf, effectiveColors, basicIndentWidth]
    simp [hk, toSpaces]
  · have hc : columnsOf "  (Total limits may be over 100 percent, i.e., overcommitted.)".data =
        ["(Total limits may be over 100 percent, i.e., overcommitted.)".data] := by decide
    have hi : findIndent "  (Total limits may be over 100 percent, i.e., overcommitted.)".data =
        2 := by decide
    have hs : spaces.FindAllStringIndex
        "  (Total limits may be over 100 percent, i.e., overcommitted.)".data = [(0, 2)] := by
      decide
    have hk : ∀ c,
        coloredKeyOutput "(Total limits may be over 100 percent, i.e., overcommitted.)".data c =
          Apply "(Total limits may be over 100 percent, i.e., overcommitted.)".data c := by
      intro c
      rw [coloredKeyOutput_eq]
      have e1 : strings.TrimRight
          "(Total limits may be over 100 percent, i.e., overcommitted.)".data ":".data =
          "(Total limits may be over 100 percent, i.e., overcommitted.)".data := by decide
      have e2 : strings.HasSuffix
          "(Total limits may be over 100 percent, i.e., overcommitted.)".data ":".data = false := by
        decide
      rw [e1, e2]
      simp
    unfold writeLine printLine
    rw [if_neg (by decide)]
    simp only [hc, hi, hs]
    simp only [dropIndentIndex, spacesCntOf, effectiveColors, basicIndentWidth, tailSlice]
    simp [hk, toSpaces]

end printer

namespace printer

theorem routeSpecificKeys_colon :
    ∀ K ∈ routeSpecificKeys, strings.HasSuffix K ":".data = true := by
  decide

/-- The key colour that `Print` computes for a line of one column in a route. -/
theorem effectiveColors_route_one (dp : DescribePrinter) (deps : Collaborators) (n : Nat)
    (K : List Char) :
    ∃ vc, effectiveColors dp deps true n [K] =
      some (if K ∈ routeSpecificKeys then routeKeyColor
        else if strings.HasSuffix K ":".data = false then
          deps.getColorByValueType K dp.DarkBackground
        else if n > 2 then
          (if strings.TrimSpace K ++ ":".data ∈ routeSpecificKeys then routeKeyColor
           else deps.getColorByKeyIndent n 3 dp.DarkBackground)
        else deps.getColorByKeyIndent n 2 dp.DarkBackground, vc) := by
  unfold effectiveColors
  by_cases hs : strings.HasSuffix K ":".data = true
  · by_cases hK : K ∈ routeSpecificKeys
    · simp [hs, hK, routeKeyColorOf, ocRouteKeyColor]
    · by_cases hn : n > 2
      · by_cases h3 : strings.TrimSpace K ++ ":".data ∈ routeSpecificKeys
        · simp [hs, hK, hn, h3, routeKeyColorOf, ocRouteKeyColor, basicIndentWidth]
        · simp [hs, hK, hn, h3, routeKeyColorOf, ocRouteKeyColor, basicIndentWidth]
      · simp [hs, hK, hn, routeKeyColorOf, ocRouteKeyColor, basicIndentWidth]
  · have hK : K ∉ routeSpecificKeys := fun h => hs (routeSpecificKeys_colon K h)
    have hs2 : strings.HasSuffix K ":".data = false := by simpa using hs
    simp [hs2, hK]

/-- The key colour that `Print` computes for a line of two columns in a route. -/
theorem effectiveColors_route_two (dp : DescribePrinter) (deps : Collaborators) (n : Nat)
    (K V : List Char) :
    ∃ vc, effectiveColors dp deps true n [K, V] =
      some (if K ∈ routeSpecificKeys then routeKeyColor
        else if n > 2 then
          (if strings.TrimSpace K ++ ":".data ∈ routeSpecificKeys then routeKeyColor
           else deps.getColorByKeyIndent n 3 dp.DarkBackground)
        else deps.getColorByKeyIndent n 2 dp.DarkBackground, vc) := by
  unfold effectiveColors
  by_cases hK : K ∈ routeSpecificKeys
  · simp [hK, routeKeyColorOf, ocRouteKeyColor]
  · by_cases hn : n > 2
    · by_cases h3 : strings.TrimSpace K ++ ":".data ∈ routeSpecificKeys
      · simp [hK, hn, h3, routeKeyColorOf, ocRouteKeyColor, basicIndentWidth]
      · simp [hK, hn, h3, routeKeyColorOf, ocRouteKeyColor, basicIndentWidth]
    · simp [hK, hn, routeKeyColorOf, ocRouteKeyColor, basicIndentWidth]

/-- C24, counterexample: in a route the one-column line
`    Path: / (all traffic)` of the test has four leading spaces and a column
that is no label, also when trimmed and with a colon appended; it is written
in the colour of its value type (Cyan for the colours of the tests) and not
in `getColorByKeyIndent(4, 3, dark)` (White). -/
theorem writeLine_route_text_line :
    columnsOf "    Path: / (all traffic)".data = ["Path: / (all traffic)".data] ∧
      findIndent "    Path: / (all traffic)".data = 4 ∧
      "Path: / (all traffic)".data ∉ routeSpecificKeys ∧
      strings.TrimSpace "Path: / (all traffic)".data ++ ":".data ∉ routeSpecificKeys ∧
      writeLine ⟨true⟩ exampleCollaborators true "    Path: / (all traffic)".data =
        some ("    ".data ++ Apply "Path: / (all traffic)".data Color.Cyan ++ "\n".data) ∧
      exampleCollaborators.getColorByKeyIndent 4 3 true = Color.White ∧
      Apply "Path: / (all traffic)".data Color.Cyan ≠
        Apply "Path: / (all traffic)".data Color.White := by
  decide

/-- C24, amended: in a route, a line of one or two columns is written as the
indent and the first column coloured (its trailing colons apart) with
`routeKeyColor` when the column is one of the twelve labels; otherwise, when
it is the only column and does not end in a colon, with the colour of its
value type; otherwise with `getColorByKeyIndent(depth, 2, dark)` at a depth
of at most 2, and at a depth above 2 with `routeKeyColor` when the trimmed
column with a colon appended is a label and with
`getColorByKeyIndent(depth, 3, dark)` when not. -/
theorem writeLine_route_key_colour (dp : DescribePrinter) (deps : Collaborators)
    (line K : List Char) (rest : List (List Char))
    (h : columnsOf line = K :: rest) (hlen : rest.length ≤ 1) :
    ∃ tail, writeLine dp deps true line =
      some (toSpaces (findIndent line) ++
        coloredKeyOutput K
          (if K ∈ routeSpecificKeys then routeKeyColor
           else if rest = [] ∧ strings.HasSuffix K ":".data = false then
             deps.getColorByValueType K dp.DarkBackground
           else if findIndent line > 2 then
             (if strings.TrimSpace K ++ ":".data ∈ routeSpecificKeys then routeKeyColor
              else deps.getColorByKeyIndent (findIndent line) 3 dp.DarkBackground)
           else deps.getColorByKeyIndent (findIndent line) 2 dp.DarkBackground) ++ tail) := by
  rw [writeLine_of_columns dp deps true line K rest h]
  cases rest with
  | nil =>
    obtain ⟨kc, vc, hcol, hp, _⟩ := printLine_one dp deps true line K h
    obtain ⟨vc2, he⟩ := effectiveColors_route_one dp deps (findIndent line) K
    rw [hcol] at he
    simp only [Option.some.injEq, Prod.mk.injEq] at he
    refine ⟨"\n".data, ?_⟩
    rw [hp, he.1]
    simp
  | cons V rest =>
    cases rest with
    | nil =>
      obtain ⟨w, kc, vc, out, _, _, _, _, hcol, hp, _⟩ := printLine_two dp deps true line K V h
      obtain ⟨vc2, he⟩ := effectiveColors_route_two dp deps (findIndent line) K V
      rw [hcol] at he
      simp only [Option.some.injEq, Prod.mk.injEq] at he
      refine ⟨toSpaces w ++ out ++ "\n".data, ?_⟩
      rw [hp, he.1]
      simp
    | cons _ _ => simp at hlen

theorem writeLine_route_key_colour_witness :
    ∃ tail, writeLine ⟨true⟩ exampleCollaborators true "Weight:         100".data =
      some (toSpaces (findIndent "Weight:         100".data) ++
        coloredKeyOutput "Weight:".data
          (if "Weight:".data ∈ routeSpecificKeys then routeKeyColor
           else if ["100".data] = [] ∧ strings.HasSuffix "Weight:".data ":".data = false then
             exampleCollaborators.getColorByValueType "Weight:".data true
           else if findIndent "Weight:         100".data > 2 then
             (if strings.TrimSpace "Weight:".data ++ ":".data ∈ routeSpecificKeys
              then routeKeyColor
              else exampleCollaborators.getColorByKeyIndent
                (findIndent "Weight:         100".data) 3 true)
           else exampleCollaborators.getColorByKeyIndent
             (findIndent "Weight:         100".data) 2 true) ++ tail) :=
  writeLine_route_key_colour ⟨true⟩ exampleCollaborators "Weight:         100".data
    "Weight:".data ["100".data] (by decide) (by decide)

end printer

namespace printer

theorem serviceOutput_eq (dp : DescribePrinter) (deps : Collaborators) (V : List Char) :
    serviceOutput dp deps V =
      some (if ' ' ∈ V then
          Apply (V.takeWhile fun c => c != ' ') routeResourceNameColor ++ " ".data ++
            Apply (V.dropWhile fun c => c != ' ').tail
              (deps.getColorByValueType (V.dropWhile fun c => c != ' ').tail dp.DarkBackground)
        else Apply V routeResourceNameColor) := by
  unfold serviceOutput
  rw [SplitN_two]
  by_cases h : ' ' ∈ V
  · simp [h, ocRouteResourceNameColor]
  · simp [h, ocRouteResourceNameColor]

/-- C25: in a route, a line of two columns with the key `Service` (the
column `Service:`, trimmed and without its colon) and a value `V` that holds
`(` and `%` is written as the indent, the coloured key, the separator spaces
and, when `V` has a space, the part of `V` before its first space in
`routeResourceNameColor`, one space, and the part after it in the colour of
its value type; when `V` has no space, `V` in `routeResourceNameColor`. -/
theorem writeLine_service (dp : DescribePrinter) (deps : Collaborators)
    (line K V : List Char) (h : columnsOf line = [K, V])
    (hk : strings.TrimSuffix (strings.TrimSpace K) ":".data = "Service".data)
    (h1 : strings.Contains V "(".data = true) (h2 : strings.Contains V "%".data = true) :
    ∃ w kc,
      writeLine dp deps true line =
        some (toSpaces (findIndent line) ++ coloredKeyOutput K kc ++ toSpaces w ++
          (if ' ' ∈ V then
            Apply (V.takeWhile fun c => c != ' ') routeResourceNameColor ++ " ".data ++
              Apply (V.dropWhile fun c => c != ' ').tail
                (deps.getColorByValueType (V.dropWhile fun c => c != ' ').tail dp.DarkBackground)
          else Apply V routeResourceNameColor) ++ "\n".data) ∧
      (' ' ∈ V →
        V = (V.takeWhile fun c => c != ' ') ++ " ".data ++ (V.dropWhile fun c => c != ' ').tail ∧
        ' ' ∉ V.takeWhile fun c => c != ' ') := by
  obtain ⟨w, kc, vc, out, _, _, _, _, _, hp, hout⟩ := printLine_two dp deps true line K V h
  have hr : routeValueOutput dp deps K V vc = (serviceOutput dp deps V).map some := by
    unfold routeValueOutput
    simp [hk, h1, h2]
  rw [serviceOutput_eq, Option.map_some'] at hr
  refine ⟨w, kc, ?_, ?_⟩
  · rw [writeLine_of_columns dp deps true line K [V] h, hp]
    rcases hout with ⟨_, ho⟩ | ⟨hb, _⟩
    · rw [hr] at ho
      simp only [Option.some.injEq] at ho
      rw [← ho]
    · rcases hb with hb | hb
      · exact absurd hb (by simp)
      · rw [hr] at hb
        exact absurd hb (by simp)
  · intro hs
    refine ⟨?_, ?_⟩
    · have e := takeWhile_append_dropWhile_tail V ' ' hs
      conv_lhs => rw [← e]
      simp
    · intro hm
      have := List.mem_takeWhile_imp hm
      simp at this

theorem writeLine_service_witness :
    (∃ w kc,
      writeLine ⟨true⟩ exampleCollaborators true "Service:        my-service (100%)".data =
        some (toSpaces (findIndent "Service:        my-service (100%)".data) ++
          coloredKeyOutput "Service:".data kc ++ toSpaces w ++
          (if ' ' ∈ "my-service (100%)".data then
            Apply ("my-service (100%)".data.takeWhile fun c => c != ' ')
                routeResourceNameColor ++ " ".data ++
              Apply ("my-service (100%)".data.dropWhile fun c => c != ' ').tail
                (exampleCollaborators.getColorByValueType
                  ("my-service (100%)".data.dropWhile fun c => c != ' ').tail true)
          else Apply "my-service (100%)".data routeResourceNameColor) ++ "\n".data) ∧
      (' ' ∈ "my-service (100%)".data →
        "my-service (100%)".data =
          ("my-service (100%)".data.takeWhile fun c => c != ' ') ++ " ".data ++
            ("my-service (100%)".data.dropWhile fun c => c != ' ').tail ∧
        ' ' ∉ "my-service (100%)".data.takeWhile fun c => c != ' ')) ∧
      ("my-service (100%)".data.takeWhile fun c => c != ' ') = "my-service".data ∧
      ("my-service (100%)".data.dropWhile fun c => c != ' ').tail = "(100%)".data ∧
      writeLine ⟨true⟩ exampleCollaborators true "Service:        my-service (100%)".data =
        some ("\x1b[33mService\x1b[0m:        \x1b[32mmy-service\x1b[0m \x1b[36m(100%)\x1b[0m\n".data) :=
  ⟨writeLine_service ⟨true⟩ exampleCollaborators "Service:        my-service (100%)".data
      "Service:".data "my-service (100%)".data (by decide) (by decide) (by decide) (by decide),
    by decide, by decide, by decide⟩

theorem coloredEpStrings_flatten (ps : List (List Char)) :
    (coloredEpStrings ps).flatten =
      (Apply ",".data routeCommaColor ++ " ".data).intercalate
        (ps.map fun ep => Apply (strings.TrimSpace ep) routeEndpointColor) := by
  induction ps with
  | nil => simp [coloredEpStrings, List.intercalate]
  | cons ep rest ih =>
    cases rest with
    | nil => simp [coloredEpStrings, List.intercalate, ocRouteEndpointColor]
    | cons ep2 rest =>
      rw [coloredEpStrings, List.flatten_cons, List.flatten_cons, ih]
      · simp [List.intercalate, List.intersperse, ocRouteEndpointColor, ocRouteCommaColor]
      · simp

/-- C26, counterexample: in a route the value `10.0.0.1:80,10.0.0.2:80` of an
`Endpoints:` line, which has no space after its comma, is rendered with a
space after the coloured comma: without its colour sequences the rendered
value is `10.0.0.1:80, 10.0.0.2:80` and not the value. -/
theorem writeLine_endpoints_space_inserted :
    writeLine ⟨true⟩ exampleCollaborators true "Endpoints:      10.0.0.1:80,10.0.0.2:80".data =
        some ("\x1b[33mEndpoints\x1b[0m:      ".data ++
          endpointsOutput "10.0.0.1:80,10.0.0.2:80".data ++ "\n".data) ∧
      endpointsOutput "10.0.0.1:80,10.0.0.2:80".data =
        Apply "10.0.0.1:80".data routeEndpointColor ++ Apply ",".data routeCommaColor ++
          " ".data ++ Apply "10.0.0.2:80".data routeEndpointColor ∧
      stripColors (endpointsOutput "10.0.0.1:80,10.0.0.2:80".data) =
        "10.0.0.1:80, 10.0.0.2:80".data ∧
      stripColors (endpointsOutput "10.0.0.1:80,10.0.0.2:80".data) ≠
        "10.0.0.1:80,10.0.0.2:80".data := by
  decide

/-- C26, amended: in a route, a line of two columns with the key `Endpoints`
has its value rendered as the comma-separated endpoints, each without the
white space around it and in `routeEndpointColor`, joined by a comma in
`routeCommaColor` followed by one space; without its colour sequences the
rendered value is the trimmed endpoints joined by a comma and one space. -/
theorem writeLine_endpoints (dp : DescribePrinter) (deps : Collaborators)
    (line K V : List Char) (h : columnsOf line = [K, V])
    (hk : strings.TrimSuffix (strings.TrimSpace K) ":".data = "Endpoints".data) :
    ∃ w kc,
      writeLine dp deps true line =
        some (toSpaces (findIndent line) ++ coloredKeyOutput K kc ++ toSpaces w ++
          endpointsOutput V ++ "\n".data) ∧
      endpointsOutput V =
        (Apply ",".data routeCommaColor ++ " ".data).intercalate
          ((strings.Split V ',').map fun ep => Apply (strings.TrimSpace ep) routeEndpointColor) ∧
      (esc ∉ V → stripColors (endpointsOutput V) = endpointsText V) := by
  obtain ⟨w, kc, out, _, _, _, _, hp, hout, _⟩ := printLine_two_render dp deps true line K V h
  refine ⟨w, kc, ?_, ?_, ?_⟩
  · rw [writeLine_of_columns dp deps true line K [V] h, hp]
    rcases hout with ⟨_, _, ho⟩ | ⟨hn, _⟩
    · rw [ho]
    · exact absurd ⟨rfl, hk⟩ hn
  · unfold endpointsOutput
    exact coloredEpStrings_flatten _
  · intro he
    have e := (endpointsOutput_spec V).2.1 he []
    unfold stripColors
    simpa [stripAux] using e

theorem writeLine_endpoints_witness :
    (∃ w kc,
      writeLine ⟨true⟩ exampleCollaborators true
          "Endpoints:      10.128.0.1:8080, 10.128.0.2:8080".data =
        some (toSpaces (findIndent "Endpoints:      10.128.0.1:8080, 10.128.0.2:8080".data) ++
          coloredKeyOutput "Endpoints:".data kc ++ toSpaces w ++
          endpointsOutput "10.128.0.1:8080, 10.128.0.2:8080".data ++ "\n".data) ∧
      endpointsOutput "10.128.0.1:8080, 10.128.0.2:8080".data =
        (Apply ",".data routeCommaColor ++ " ".data).intercalate
          ((strings.Split "10.128.0.1:8080, 10.128.0.2:8080".data ',').map fun ep =>
            Apply (strings.TrimSpace ep) routeEndpointColor) ∧
      (esc ∉ "10.128.0.1:8080, 10.128.0.2:8080".data →
        stripColors (endpointsOutput "10.128.0.1:8080, 10.128.0.2:8080".data) =
          endpointsText "10.128.0.1:8080, 10.128.0.2:8080".data)) ∧
      endpointsText "10.128.0.1:8080, 10.128.0.2:8080".data =
        "10.128.0.1:8080, 10.128.0.2:8080".data :=
  ⟨writeLine_endpoints ⟨true⟩ exampleCollaborators
      "Endpoints:      10.128.0.1:8080, 10.128.0.2:8080".data "Endpoints:".data
      "10.128.0.1:8080, 10.128.0.2:8080".data (by decide) (by decide),
    by decide⟩

/-- C27, counterexample: the three colours are not pairwise distinct. -/
theorem routeTLSColors_not_distinct :
    ¬ (routeTLSColorEdge ≠ routeTLSColorPassthrough ∧
        routeTLSColorEdge ≠ routeTLSColorReencrypt ∧
        routeTLSColorPassthrough ≠ routeTLSColorReencrypt) := by
  decide

/-- C27, amended: `routeTLSColorEdge` is Blue and differs from the other two
colours; `routeTLSColorPassthrough` and `routeTLSColorReencrypt` are the same
colour, Yellow. -/
theorem routeTLSColors :
    routeTLSColorEdge = Color.Blue ∧ routeTLSColorPassthrough = Color.Yellow ∧
      routeTLSColorReencrypt = Color.Yellow ∧
      routeTLSColorEdge ≠ routeTLSColorPassthrough ∧
      routeTLSColorEdge ≠ routeTLSColorReencrypt ∧
      routeTLSColorPassthrough = routeTLSColorReencrypt := by
  decide

end printer

namespace printer

open OpenShiftStatusPrinter

/-! ## The status printer: lemmas -/

namespace regexp

theorem getLast?_cons_or (c : Char) (u : List Char) (before : Option Char) :
    ((c :: u).getLast?).or before = (u.getLast?).or (some c) := by
  cases u with
  | nil => rfl
  | cons d u =>
    rw [List.getLast?_cons_cons]
    cases h : (d :: u).getLast? with
    | none => simp at h
    | some x => rfl

theorem replaceLoop_nil (re : Option Char → List Char → Option Nat)
    (repl : List Char → List Char) (before : Option Char) (k : Nat) :
    replaceLoop re repl before k [] = [] := by
  cases k <;> rfl

/-- Where the expression does not match, the character is copied. -/
theorem replaceLoop_cons_none (re : Option Char → List Char → Option Nat)
    (repl : List Char → List Char) (before : Option Char) (c : Char) (cs : List Char)
    (h : re before (c :: cs) = none) :
    replaceLoop re repl before 0 (c :: cs) = c :: replaceLoop re repl (some c) 0 cs := by
  rw [replaceLoop, h]

/-- The characters of a match that was replaced are passed over. -/
theorem replaceLoop_skip (re : Option Char → List Char → Option Nat)
    (repl : List Char → List Char) :
    ∀ (a T : List Char) (before : Option Char),
      replaceLoop re repl before a.length (a ++ T) =
        replaceLoop re repl ((a.getLast?).or before) 0 T := by
  intro a
  induction a with
  | nil => intro T before; rfl
  | cons c a ih =>
    intro T before
    rw [List.length_cons, List.cons_append, replaceLoop, ih, getLast?_cons_or]

/-- Where the expression matches the text `m`, which is not empty, the
replacement of `m` is written and the search goes on after `m`. -/
theorem replaceLoop_match (re : Option Char → List Char → Option Nat)
    (repl : List Char → List Char) (before : Option Char) (m T : List Char) (hm : m ≠ [])
    (h : re before (m ++ T) = some m.length) :
    replaceLoop re repl before 0 (m ++ T) =
      repl m ++ replaceLoop re repl m.getLast? 0 T := by
  cases m with
  | nil => exact absurd rfl hm
  | cons c m =>
    rw [List.cons_append] at h ⊢
    rw [replaceLoop, h]
    simp only [List.length_cons]
    have e : (c :: (m ++ T)).take (m.length + 1) = c :: m := by simp
    rw [e, replaceLoop_skip, ← getLast?_cons_or c m none]
    cases hl : (c :: m).getLast? with
    | none => simp at hl
    | some d => rfl

/-- A segment in which the expression matches at no position is copied. -/
theorem replaceLoop_segment (re : Option Char → List Char → Option Nat)
    (repl : List Char → List Char) :
    ∀ (seg T : List Char) (before : Option Char),
      (∀ u v, seg = u ++ v → v ≠ [] → re ((u.getLast?).or before) (v ++ T) = none) →
      replaceLoop re repl before 0 (seg ++ T) =
        seg ++ replaceLoop re repl ((seg.getLast?).or before) 0 T := by
  intro seg
  induction seg with
  | nil => intro T before _; rfl
  | cons c seg ih =>
    intro T before h
    have h0 := h [] (c :: seg) rfl (by simp)
    rw [List.cons_append] at h0 ⊢
    rw [replaceLoop_cons_none re repl before c _ h0, ih T (some c), getLast?_cons_or]
    · rfl
    · intro u v huv hv
      have := h (c :: u) v (by rw [huv]; rfl) hv
      rwa [getLast?_cons_or] at this

/-- A text in which the expression has no match is returned as it is. -/
theorem ReplaceAllStringFunc_of_noMatch (re : Option Char → List Char → Option Nat)
    (repl : List Char → List Char) (s : List Char) (h : NoMatch re s) :
    ReplaceAllStringFunc re s repl = s := by
  have e := replaceLoop_segment re repl s [] none (by
    intro u v huv _
    have := h u v huv
    simpa using this)
  unfold ReplaceAllStringFunc
  rw [List.append_nil] at e
  rw [e, replaceLoop_nil, List.append_nil]

theorem matchLitNonSpace_isPrefix (lit s : List Char) (n : Nat)
    (h : matchLitNonSpace lit s = some n) : lit <+: s := by
  unfold matchLitNonSpace at h
  by_cases hp : lit.isPrefixOf s = true
  · exact List.isPrefixOf_iff_prefix.1 hp
  · rw [if_neg hp] at h
    exact absurd h (by simp)

theorem matchWord_isPrefix (word : List Char) (before : Option Char) (s : List Char) (n : Nat)
    (h : matchWord word before s = some n) : word <+: s := by
  unfold matchWord at h
  split at h
  · rename_i hc
    exact List.isPrefixOf_iff_prefix.1 hc.1
  · exact absurd h (by simp)

/-- A prefix of `v ++ T` is a prefix of `v`, or reaches the first character of
`T`. -/
theorem prefix_append_cases (L : List Char) :
    ∀ (v T : List Char), L <+: v ++ T → L <+: v ∨ ∃ c ∈ L, T.head? = some c := by
  induction L with
  | nil => intro v T _; exact Or.inl (List.nil_prefix)
  | cons a L ih =>
    intro v T h
    cases v with
    | nil =>
      right
      rw [List.nil_append] at h
      obtain ⟨t, rfl⟩ := h
      exact ⟨a, by simp, rfl⟩
    | cons b v =>
      rw [List.cons_append, List.cons_prefix_cons] at h
      rcases ih v T h.2 with h1 | ⟨c, hc, hT⟩
      · left
        rw [List.cons_prefix_cons]
        exact ⟨h.1, h1⟩
      · exact Or.inr ⟨c, List.mem_cons_of_mem _ hc, hT⟩

end regexp

end printer

namespace printer

open OpenShiftStatusPrinter

namespace regexp

/-- A segment none of whose characters begins a literal of the expression is
copied. -/
theorem replaceLoop_segment_of_heads (re : Option Char → List Char → Option Nat)
    (repl : List Char → List Char) (lits : List (List Char))
    (hstart : ∀ before s n, re before s = some n → ∃ L ∈ lits, L <+: s)
    (hne : ∀ L ∈ lits, L ≠ [])
    (seg : List Char) (hseg : ∀ L ∈ lits, ∀ c ∈ seg, L.head? ≠ some c)
    (T : List Char) (before : Option Char) :
    replaceLoop re repl before 0 (seg ++ T) =
      seg ++ replaceLoop re repl ((seg.getLast?).or before) 0 T := by
  apply replaceLoop_segment
  intro u v huv hv
  cases hr : re ((u.getLast?).or before) (v ++ T) with
  | none => rfl
  | some n =>
    exfalso
    obtain ⟨L, hL, hpre⟩ := hstart _ _ _ hr
    cases v with
    | nil => exact hv rfl
    | cons c v =>
      cases L with
      | nil => exact hne [] hL rfl
      | cons a L =>
        rw [List.cons_append, List.cons_prefix_cons] at hpre
        refine hseg (a :: L) hL c ?_ (by rw [hpre.1]; rfl)
        rw [huv]
        simp

/-- A segment that holds no literal of the expression, before a text whose
first character is in no literal, is copied. -/
theorem replaceLoop_segment_of_no_literal (re : Option Char → List Char → Option Nat)
    (repl : List Char → List Char) (lits : List (List Char))
    (hstart : ∀ before s n, re before s = some n → ∃ L ∈ lits, L <+: s)
    (seg : List Char) (hseg : ∀ L ∈ lits, ¬ L <:+: seg)
    (T : List Char) (hT : ∀ L ∈ lits, ∀ c ∈ L, T.head? ≠ some c) (before : Option Char) :
    replaceLoop re repl before 0 (seg ++ T) =
      seg ++ replaceLoop re repl ((seg.getLast?).or before) 0 T := by
  apply replaceLoop_segment
  intro u v huv _
  cases hr : re ((u.getLast?).or before) (v ++ T) with
  | none => rfl
  | some n =>
    exfalso
    obtain ⟨L, hL, hpre⟩ := hstart _ _ _ hr
    rcases prefix_append_cases L v T hpre with h1 | ⟨c, hc, hh⟩
    · apply hseg L hL
      rw [huv]
      exact (h1.isInfix).trans (List.infix_append' u v [] |> fun h => by simpa using h)
    · exact hT L hL c hc hh

/-- A text of four segments, the first and third of which begin no literal
and the second and fourth of which hold none, is returned as it is. -/
theorem ReplaceAllStringFunc_wrapped (re : Option Char → List Char → Option Nat)
    (repl : List Char → List Char) (lits : List (List Char))
    (hstart : ∀ before s n, re before s = some n → ∃ L ∈ lits, L <+: s)
    (hne : ∀ L ∈ lits, L ≠ [])
    (A name B rest : List Char)
    (hA : ∀ L ∈ lits, ∀ c ∈ A, L.head? ≠ some c)
    (hB : ∀ L ∈ lits, ∀ c ∈ B, L.head? ≠ some c)
    (hBhead : ∀ L ∈ lits, ∀ c ∈ L, (B ++ rest).head? ≠ some c)
    (hname : ∀ L ∈ lits, ¬ L <:+: name) (hrest : ∀ L ∈ lits, ¬ L <:+: rest) :
    ReplaceAllStringFunc re (A ++ (name ++ (B ++ rest))) repl = A ++ (name ++ (B ++ rest)) := by
  unfold ReplaceAllStringFunc
  rw [replaceLoop_segment_of_heads re repl lits hstart hne A hA,
    replaceLoop_segment_of_no_literal re repl lits hstart name hname (B ++ rest) hBhead,
    replaceLoop_segment_of_heads re repl lits hstart hne B hB]
  have e := replaceLoop_segment_of_no_literal re repl lits hstart rest hrest []
    (by intro L _ c _; simp) ((B.getLast?).or ((name.getLast?).or ((A.getLast?).or none)))
  rw [List.append_nil, replaceLoop_nil, List.append_nil] at e
  rw [e]

end regexp

theorem reService_start :
    ∀ (before : Option Char) (s : List Char) (n : Nat), reService before s = some n →
      ∃ L ∈ ["svc/".data], L <+: s := by
  intro before s n h
  exact ⟨_, by simp, regexp.matchLitNonSpace_isPrefix _ _ _ h⟩

theorem reDc_start :
    ∀ (before : Option Char) (s : List Char) (n : Nat), reDc before s = some n →
      ∃ L ∈ ["dc/".data], L <+: s := by
  intro before s n h
  exact ⟨_, by simp, regexp.matchLitNonSpace_isPrefix _ _ _ h⟩

theorem reURL_start :
    ∀ (before : Option Char) (s : List Char) (n : Nat), reURL before s = some n →
      ∃ L ∈ ["https://".data, "http://".data], L <+: s := by
  intro before s n h
  unfold reURL at h
  cases h1 : regexp.matchLitNonSpace "https://".data s with
  | some k => exact ⟨_, by simp, regexp.matchLitNonSpace_isPrefix _ _ _ h1⟩
  | none =>
    rw [h1] at h
    exact ⟨_, by simp, regexp.matchLitNonSpace_isPrefix _ _ _ h⟩

theorem reKeyword_start (word : List Char) :
    ∀ (before : Option Char) (s : List Char) (n : Nat), reKeyword word before s = some n →
      ∃ L ∈ [word], L <+: s := by
  intro before s n h
  exact ⟨_, by simp, regexp.matchWord_isPrefix _ _ _ _ h⟩

theorem foldl_fixed {α β : Type} (f : α → β → α) (s : α) :
    ∀ l : List β, (∀ b ∈ l, f s b = s) → l.foldl f s = s := by
  intro l
  induction l with
  | nil => intro _; rfl
  | cons b l ih =>
    intro h
    rw [List.foldl_cons, h b (List.mem_cons_self _ _)]
    exact ih fun b1 h1 => h b1 (List.mem_cons_of_mem _ h1)

end printer

namespace printer

open OpenShiftStatusPrinter

/-- C28: a line that begins with `In project ` is returned as
`Apply(line, Cyan)`, whatever it holds and in whatever order the keywords
would be taken: the line as it is inside one colour span. -/
theorem colorizeLine_in_project (p : OpenShiftStatusPrinter)
    (order : List (List Char × Color)) (line : List Char)
    (h : strings.HasPrefix line "In project ".data = true) :
    colorizeLine p order line = Apply line Color.Cyan := by
  unfold OpenShiftStatusPrinter.colorizeLine
  rw [if_pos h]

theorem colorizeLine_in_project_witness :
    strings.HasPrefix "In project my-project on server https://api.example.com:6443".data
        "In project ".data = true ∧
      colorizeLine ⟨true⟩ keywords
          "In project my-project on server https://api.example.com:6443".data =
        Apply "In project my-project on server https://api.example.com:6443".data Color.Cyan :=
  ⟨by decide,
    colorizeLine_in_project ⟨true⟩ keywords
      "In project my-project on server https://api.example.com:6443".data (by decide)⟩

theorem reService_at_service (name rest : List Char) (hname : name ≠ [])
    (hns : ∀ c ∈ name, regexp.isSpace c = false)
    (hrest : ∀ c ∈ rest.head?, regexp.isSpace c = true) :
    reService none (("svc/".data ++ name) ++ rest) = some ("svc/".data ++ name).length := by
  have hp : "svc/".data.isPrefixOf (("svc/".data ++ name) ++ rest) = true := by
    rw [List.isPrefixOf_iff_prefix, List.append_assoc]
    exact List.prefix_append _ _
  have hd : (("svc/".data ++ name) ++ rest).drop "svc/".data.length = name ++ rest := by
    rw [List.append_assoc, List.drop_left]
  have ht : (name ++ rest).takeWhile (fun c => !regexp.isSpace c) = name := by
    rw [List.takeWhile_append_of_pos (by intro c hc; simp [hns c hc])]
    cases rest with
    | nil => simp
    | cons c r =>
      have := hrest c (by simp)
      simp [List.takeWhile, this]
  unfold reService regexp.matchLitNonSpace
  rw [if_pos hp]
  simp only [hd, ht]
  rw [if_pos hname]
  simp
  omega

/-- C29: a line `svc/` ++ name ++ rest, where name is a run of one or more
characters that are no white space, rest is empty or begins with white
space, and neither holds `svc/`, `dc/`, `http://`, `https://` or a keyword,
is returned as `Apply("svc/" ++ name, Green) ++ rest`, in whatever order the
keywords are taken. -/
theorem colorizeLine_service (p : OpenShiftStatusPrinter)
    (order : List (List Char × Color)) (name rest : List Char)
    (horder : order.Perm keywords)
    (hname : name ≠ []) (hns : ∀ c ∈ name, regexp.isSpace c = false)
    (hrest : ∀ c ∈ rest.head?, regexp.isSpace c = true)
    (hfree : ∀ L ∈ ["svc/".data, "dc/".data, "http://".data, "https://".data,
        "running".data, "deployed".data, "failed".data], ¬ L <:+: name ∧ ¬ L <:+: rest) :
    colorizeLine p order ("svc/".data ++ name ++ rest) =
      Apply ("svc/".data ++ name) Color.Green ++ rest := by
  have hproj : strings.HasPrefix ("svc/".data ++ name ++ rest) "In project ".data = false := by
    simp [strings.HasPrefix, List.isPrefixOf]
  have hshape : Apply ("svc/".data ++ name) Color.Green ++ rest =
      [esc, '[', '3', '2', 'm', 's', 'v', 'c', '/'] ++ (name ++ ([esc, '[', '0', 'm'] ++ rest)) := by
    simp [Apply, Color.digits]
  have hBhead : ∀ L ∈ ["svc/".data, "dc/".data, "http://".data, "https://".data,
      "running".data, "deployed".data, "failed".data], ∀ c ∈ L,
      ([esc, '[', '0', 'm'] ++ rest).head? ≠ some c := by
    intro L hL c hc
    simp only [List.cons_append, List.head?_cons, ne_eq, Option.some.injEq]
    rintro rfl
    revert hc
    revert L
    decide
  -- the pass of `svc/\S+`
  have h1 : regexp.ReplaceAllStringFunc reService ("svc/".data ++ name ++ rest)
      (fun m => Apply m Color.Green) = Apply ("svc/".data ++ name) Color.Green ++ rest := by
    unfold regexp.ReplaceAllStringFunc
    rw [regexp.replaceLoop_match reService _ none ("svc/".data ++ name) rest (by simp)
      (reService_at_service name rest hname hns hrest)]
    have e := regexp.replaceLoop_segment_of_no_literal reService (fun m => Apply m Color.Green)
      ["svc/".data] reService_start rest
      (by
        intro L hL
        rw [List.mem_singleton] at hL
        subst hL
        exact (hfree _ (by simp)).2)
      [] (by intro L _ c _; simp) ("svc/".data ++ name).getLast?
    rw [List.append_nil, regexp.replaceLoop_nil, List.append_nil] at e
    rw [e]
  -- the later passes find nothing
  have hlater : ∀ (re : Option Char → List Char → Option Nat) (repl : List Char → List Char)
      (lits : List (List Char)),
      (∀ before s n, re before s = some n → ∃ L ∈ lits, L <+: s) →
      (∀ L ∈ lits, L ∈ ["dc/".data, "http://".data, "https://".data,
        "running".data, "deployed".data, "failed".data]) →
      regexp.ReplaceAllStringFunc re (Apply ("svc/".data ++ name) Color.Green ++ rest) repl =
        Apply ("svc/".data ++ name) Color.Green ++ rest := by
    intro re repl lits hstart hlits
    rw [hshape]
    apply regexp.ReplaceAllStringFunc_wrapped re repl lits hstart
    · intro L hL e
      have := hlits L hL
      rw [e] at this
      revert this
      decide
    · intro L hL
      have := hlits L hL
      clear hL
      revert this
      revert L
      decide
    · intro L hL
      have := hlits L hL
      clear hL
      revert this
      revert L
      decide
    · intro L hL
      exact hBhead L (by
        have := hlits L hL
        simp only [List.mem_cons] at this ⊢
        tauto)
    · intro L hL
      exact (hfree L (by
        have := hlits L hL
        simp only [List.mem_cons] at this ⊢
        tauto)).1
    · intro L hL
      exact (hfree L (by
        have := hlits L hL
        simp only [List.mem_cons] at this ⊢
        tauto)).2
  unfold OpenShiftStatusPrinter.colorizeLine
  rw [hproj]
  simp only [Bool.false_eq_true, if_false]
  rw [h1, hlater reDc _ ["dc/".data] reDc_start (by decide),
    hlater reURL _ ["https://".data, "http://".data] reURL_start (by decide)]
  apply foldl_fixed
  intro kw hkw
  have hk : kw ∈ keywords := horder.subset hkw
  apply hlater (reKeyword kw.1) _ [kw.1] (reKeyword_start kw.1)
  intro L hL
  rw [List.mem_singleton] at hL
  subst hL
  clear hkw
  revert hk
  revert kw
  decide

theorem colorizeLine_service_witness :
    "svc/".data ++ "my-service".data ++ " - 1 pod".data = "svc/my-service - 1 pod".data ∧
      colorizeLine ⟨true⟩ keywords ("svc/".data ++ "my-service".data ++ " - 1 pod".data) =
        Apply ("svc/".data ++ "my-service".data) Color.Green ++ " - 1 pod".data :=
  ⟨by decide,
    colorizeLine_service ⟨true⟩ keywords "my-service".data " - 1 pod".data (List.Perm.refl _)
      (by decide) (by decide) (by decide) (by decide)⟩

end printer

namespace printer

open OpenShiftStatusPrinter

/-! ### Runs of word characters -/

theorem mapWords_nil (f : List Char → List Char) : mapWords f [] = [] := rfl

theorem mapWords_cons_of_not_word (f : List Char → List Char) (c : Char) (s : List Char)
    (hc : regexp.isWord c = false) : mapWords f (c :: s) = c :: mapWords f s := by
  simp [mapWords, mapWordsLoop, hc]

theorem mapWordsLoop_word (f : List Char → List Char) :
    ∀ (w acc s : List Char), (∀ c ∈ w, regexp.isWord c = true) →
      mapWordsLoop f acc (w ++ s) = mapWordsLoop f (w.reverse ++ acc) s := by
  intro w
  induction w with
  | nil => intro acc s _; rfl
  | cons c w ih =>
    intro acc s h
    rw [List.cons_append, mapWordsLoop, if_pos (h c (List.mem_cons_self _ _)),
      ih (c :: acc) s (fun d hd => h d (List.mem_cons_of_mem _ hd))]
    simp

/-- A maximal run of word characters `w` is replaced by `f w`. -/
theorem mapWords_word (f : List Char → List Char) (w s : List Char) (hw : w ≠ [])
    (hall : ∀ c ∈ w, regexp.isWord c = true) (hs : ∀ c ∈ s.head?, regexp.isWord c = false) :
    mapWords f (w ++ s) = f w ++ mapWords f s := by
  unfold mapWords
  rw [mapWordsLoop_word f w [] s hall, List.append_nil]
  have hr : w.reverse ≠ [] := by simpa using hw
  cases s with
  | nil => simp [mapWordsLoop, hr]
  | cons c s =>
    have hc := hs c (by simp)
    simp [mapWordsLoop, hc, hr]

/-- A text is empty, or begins with a character that is no word character, or
begins with a maximal run of word characters. -/
theorem word_run_cases (s : List Char) :
    s = [] ∨ (∃ c t, s = c :: t ∧ regexp.isWord c = false) ∨
      ∃ w t, s = w ++ t ∧ w ≠ [] ∧ (∀ c ∈ w, regexp.isWord c = true) ∧
        (∀ c ∈ t.head?, regexp.isWord c = false) ∧ t.length < s.length := by
  cases s with
  | nil => exact Or.inl rfl
  | cons c t =>
    by_cases hc : regexp.isWord c = true
    · refine Or.inr (Or.inr ⟨(c :: t).takeWhile regexp.isWord, (c :: t).dropWhile regexp.isWord,
        (List.takeWhile_append_dropWhile _ _).symm, ?_, ?_, ?_, ?_⟩)
      · simp [List.takeWhile, hc]
      · intro d hd
        exact List.mem_takeWhile_imp hd
      · intro d hd
        cases h : (c :: t).dropWhile regexp.isWord with
        | nil => rw [h] at hd; simp at hd
        | cons e r =>
          rw [h] at hd
          simp only [List.head?_cons, Option.mem_def, Option.some.injEq] at hd
          subst hd
          have := List.head_dropWhile_not regexp.isWord (c :: t) (by rw [h]; simp)
          simp only [h, List.head_cons] at this
          simpa using this
      · have : ((c :: t).dropWhile regexp.isWord).length ≤ t.length := by
          rw [List.dropWhile_cons_of_pos hc]
          exact (List.dropWhile_suffix _).length_le
        simp only [List.length_cons]
        omega
    · exact Or.inr (Or.inl ⟨c, t, rfl, by simpa using hc⟩)

/-- Induction on a text by its runs. -/
theorem word_run_induction (P : List Char → Prop) (hnil : P [])
    (hcons : ∀ c t, regexp.isWord c = false → P t → P (c :: t))
    (hword : ∀ w t, w ≠ [] → (∀ c ∈ w, regexp.isWord c = true) →
      (∀ c ∈ t.head?, regexp.isWord c = false) → P t → P (w ++ t)) :
    ∀ s, P s := by
  have key : ∀ n, ∀ s : List Char, s.length ≤ n → P s := by
    intro n
    induction n with
    | zero =>
      intro s hs
      have : s = [] := List.length_eq_zero.1 (Nat.le_zero.1 hs)
      rw [this]
      exact hnil
    | succ n ih =>
      intro s hs
      rcases word_run_cases s with rfl | ⟨c, t, rfl, hc⟩ | ⟨w, t, rfl, hw, hall, ht, hlen⟩
      · exact hnil
      · exact hcons c t hc (ih t (by simp at hs; omega))
      · exact hword w t hw hall ht (ih t (by omega))
  intro s
  exact key s.length s (Nat.le_refl _)

theorem mapWords_of_id (f : List Char → List Char) (hf : ∀ w, f w = w) (s : List Char) :
    mapWords f s = s := by
  induction s using word_run_induction with
  | hnil => rfl
  | hcons c t hc ih => rw [mapWords_cons_of_not_word f c t hc, ih]
  | hword w t hw hall ht ih => rw [mapWords_word f w t hw hall ht, ih, hf]

theorem mapWords_head (f : List Char → List Char) (s : List Char)
    (hs : ∀ c ∈ s.head?, regexp.isWord c = false) :
    ∀ c ∈ (mapWords f s).head?, regexp.isWord c = false := by
  cases s with
  | nil => intro c hc; simp [mapWords_nil] at hc
  | cons d s =>
    have hd := hs d (by simp)
    rw [mapWords_cons_of_not_word f d s hd]
    intro c hc
    simp only [List.head?_cons, Option.mem_def, Option.some.injEq] at hc
    rw [← hc]
    exact hd

/-- A run of word characters between a text that does not end in a word
character and a text that does not begin with one is replaced on its own. -/
theorem mapWords_append_word (f : List Char → List Char) (w post : List Char) (hw : w ≠ [])
    (hall : ∀ c ∈ w, regexp.isWord c = true)
    (hpost : ∀ c ∈ post.head?, regexp.isWord c = false) :
    ∀ pre : List Char, (∀ c ∈ pre.getLast?, regexp.isWord c = false) →
      mapWords f (pre ++ w ++ post) = mapWords f pre ++ f w ++ mapWords f post := by
  intro pre
  induction pre using word_run_induction with
  | hnil =>
    intro _
    rw [List.nil_append, mapWords_word f w post hw hall hpost, mapWords_nil, List.nil_append]
  | hcons c t hc ih =>
    intro hlast
    have ht : ∀ d ∈ t.getLast?, regexp.isWord d = false := by
      intro d hd
      cases t with
      | nil => simp at hd
      | cons e t =>
        apply hlast d
        rw [List.getLast?_cons_cons]
        exact hd
    rw [List.cons_append, List.cons_append, mapWords_cons_of_not_word f c _ hc,
      mapWords_cons_of_not_word f c _ hc, ih ht]
    simp
  | hword w0 t hw0 hall0 ht0 ih =>
    intro hlast
    cases t with
    | nil =>
      exfalso
      rw [List.append_nil] at hlast
      obtain ⟨init, hinit⟩ : ∃ init, w0 = init ++ [w0.getLast hw0] :=
        ⟨w0.dropLast, (List.dropLast_append_getLast hw0).symm⟩
      have h1 := hall0 (w0.getLast hw0) (List.getLast_mem hw0)
      have h2 := hlast (w0.getLast hw0) (by
        rw [List.getLast?_eq_getLast _ hw0]
        rfl)
      rw [h1] at h2
      exact absurd h2 (by simp)
    | cons e t =>
      have ht : ∀ d ∈ (e :: t).getLast?, regexp.isWord d = false := by
        intro d hd
        apply hlast d
        rw [List.getLast?_append]
        cases hl : (e :: t).getLast? with
        | none => simp at hl
        | some x =>
          rw [hl] at hd
          simp only [Option.mem_def, Option.some.injEq] at hd
          subst hd
          rfl
      have e1 : w0 ++ (e :: t) ++ w ++ post = w0 ++ ((e :: t) ++ w ++ post) := by simp
      rw [e1, mapWords_word f w0 _ hw0 hall0 (by
          intro d hd
          apply ht0 d
          simpa using hd),
        mapWords_word f w0 _ hw0 hall0 ht0, ih ht]
      simp

end printer

namespace printer

open OpenShiftStatusPrinter

/-! ### A keyword pass, run by run -/

theorem matchWord_none_of_boundary (K : List Char) (before : Option Char) (s : List Char)
    (h : regexp.boundary before s.head? = false) : regexp.matchWord K before s = none := by
  unfold regexp.matchWord
  rw [if_neg]
  rintro ⟨_, h2, _⟩
  rw [h] at h2
  exact absurd h2 (by simp)

/-- A character that is no word character begins no match of a keyword. -/
theorem replaceLoop_keyword_cons (K : List Char) (hK : ∀ c ∈ K, regexp.isWord c = true)
    (hne : K ≠ []) (repl : List Char → List Char) (before : Option Char) (c : Char)
    (s : List Char) (hc : regexp.isWord c = false) :
    regexp.replaceLoop (reKeyword K) repl before 0 (c :: s) =
      c :: regexp.replaceLoop (reKeyword K) repl (some c) 0 s := by
  apply regexp.replaceLoop_cons_none
  cases hr : reKeyword K before (c :: s) with
  | none => rfl
  | some n =>
    exfalso
    have hp := regexp.matchWord_isPrefix K before (c :: s) n hr
    cases K with
    | nil => exact hne rfl
    | cons a K =>
      rw [List.cons_prefix_cons] at hp
      have := hK a (List.mem_cons_self _ _)
      rw [hp.1, hc] at this
      exact absurd this (by simp)

/-- After a word character, word characters are copied: no boundary stands
before them. -/
theorem replaceLoop_keyword_inside (K : List Char) (repl : List Char → List Char)
    (w : List Char) (hall : ∀ c ∈ w, regexp.isWord c = true) (b : Char)
    (hb : regexp.isWord b = true) (s : List Char) :
    regexp.replaceLoop (reKeyword K) repl (some b) 0 (w ++ s) =
      w ++ regexp.replaceLoop (reKeyword K) repl ((w.getLast?).or (some b)) 0 s := by
  apply regexp.replaceLoop_segment
  intro u v huv hv
  apply matchWord_none_of_boundary
  cases v with
  | nil => exact absurd rfl hv
  | cons d v =>
    have hd : regexp.isWord d = true := hall d (by rw [huv]; simp)
    have hbefore : ((u.getLast?).or (some b)).any regexp.isWord = true := by
      cases hl : u.getLast? with
      | none => simpa [Option.or] using hb
      | some x =>
        have hx : x ∈ u := by
          obtain ⟨ys, hys⟩ := List.getLast?_eq_some_iff.1 hl
          rw [hys]
          simp
        have := hall x (by rw [huv]; simp [hx])
        simpa [Option.or] using this
    simp [regexp.boundary, hbefore, hd]

/-- A maximal run of word characters at a boundary is replaced when it is
the keyword and copied when it is not. -/
theorem replaceLoop_keyword_word (K : List Char) (hK : ∀ c ∈ K, regexp.isWord c = true)
    (hne : K ≠ []) (repl : List Char → List Char) (before : Option Char)
    (hbefore : before.any regexp.isWord = false)
    (w s : List Char) (hw : w ≠ []) (hall : ∀ c ∈ w, regexp.isWord c = true)
    (hs : ∀ c ∈ s.head?, regexp.isWord c = false) :
    regexp.replaceLoop (reKeyword K) repl before 0 (w ++ s) =
      (if w = K then repl K else w) ++
        regexp.replaceLoop (reKeyword K) repl w.getLast? 0 s := by
  have hshead : s.head?.any regexp.isWord = false := by
    cases s with
    | nil => rfl
    | cons d s => simpa using hs d (by simp)
  by_cases hwK : w = K
  · subst hwK
    rw [if_pos rfl]
    apply regexp.replaceLoop_match _ _ _ _ _ hw
    unfold reKeyword regexp.matchWord
    rw [if_pos]
    refine ⟨List.isPrefixOf_iff_prefix.2 (List.prefix_append _ _), ?_, ?_⟩
    · cases w with
      | nil => exact absurd rfl hw
      | cons a w =>
        have ha := hK a (List.mem_cons_self _ _)
        simp [regexp.boundary, hbefore, ha]
    · rw [List.drop_left]
      have hl : (w.getLast?).any regexp.isWord = true := by
        rw [List.getLast?_eq_getLast _ hw]
        simpa using hK _ (List.getLast_mem hw)
      simp [regexp.boundary, hl, hshead]
  · rw [if_neg hwK]
    cases w with
    | nil => exact absurd rfl hw
    | cons c w =>
      have hc := hall c (List.mem_cons_self _ _)
      have h0 : reKeyword K before ((c :: w) ++ s) = none := by
        cases hr : reKeyword K before ((c :: w) ++ s) with
        | none => rfl
        | some n =>
          exfalso
          have hp := regexp.matchWord_isPrefix K before _ n hr
          unfold reKeyword regexp.matchWord at hr
          split at hr
          · rename_i hcond
            rcases regexp.prefix_append_cases K (c :: w) s hp with h1 | ⟨d, hd, hh⟩
            · obtain ⟨t, ht⟩ := h1
              have htne : t ≠ [] := by
                intro e
                rw [e, List.append_nil] at ht
                exact hwK ht.symm
              have hdrop : ((c :: w) ++ s).drop K.length = t ++ s := by
                rw [← ht, List.append_assoc, List.drop_left]
              have hb := hcond.2.2
              rw [hdrop] at hb
              cases t with
              | nil => exact htne rfl
              | cons e t =>
                have he : regexp.isWord e = true := hall e (by rw [← ht]; simp)
                have hl : (K.getLast?).any regexp.isWord = true := by
                  rw [List.getLast?_eq_getLast _ hne]
                  simpa using hK _ (List.getLast_mem hne)
                simp [regexp.boundary, hl, he] at hb
            · have h1 := hK d hd
              have h2 := hs d hh
              rw [h1] at h2
              exact absurd h2 (by simp)
          · exact absurd hr (by simp)
      rw [List.cons_append] at h0
      rw [List.cons_append, regexp.replaceLoop_cons_none _ _ _ _ _ h0,
        replaceLoop_keyword_inside K repl w (fun d hd => hall d (List.mem_cons_of_mem _ hd)) c hc,
        ← regexp.getLast?_cons_or c w none]
      cases hl : (c :: w).getLast? with
      | none => simp at hl
      | some x => rfl

theorem colorBy_single (K : List Char) (c : Color) (w : List Char) :
    colorBy [(K, c)] w = if w = K then Apply K c else w := by
  unfold colorBy
  by_cases h : w = K
  · subst h
    simp [List.lookup]
  · have : (w == K) = false := by simpa using h
    simp [List.lookup, this, h]

/-- The pass of one keyword: every maximal run of word characters that is
the keyword is wrapped in its colour. -/
theorem ReplaceAllStringFunc_keyword (K : List Char) (hK : ∀ c ∈ K, regexp.isWord c = true)
    (hne : K ≠ []) (c : Color) :
    ∀ (s : List Char) (before : Option Char), before.any regexp.isWord = false →
      regexp.replaceLoop (reKeyword K) (fun m => Apply m c) before 0 s =
        mapWords (colorBy [(K, c)]) s := by
  intro s
  induction s using word_run_induction with
  | hnil =>
    intro before _
    rfl
  | hcons d t hd ih =>
    intro before _
    rw [replaceLoop_keyword_cons K hK hne _ before d t hd, mapWords_cons_of_not_word _ d t hd,
      ih (some d) (by simpa using hd)]
  | hword w t hw hall ht ih =>
    intro before hbefore
    rw [replaceLoop_keyword_word K hK hne _ before hbefore w t hw hall ht,
      mapWords_word _ w t hw hall ht, colorBy_single]
    congr 1
    cases t with
    | nil => rfl
    | cons d t =>
      have hd := ht d (by simp)
      rw [replaceLoop_keyword_cons K hK hne _ _ d t hd]
      -- the induction hypothesis is for the text `d :: t`
      have h2 := ih none (by simp)
      rw [replaceLoop_keyword_cons K hK hne _ _ d t hd] at h2
      exact h2

end printer

namespace printer

open OpenShiftStatusPrinter

/-! ### The keyword passes together -/

theorem lookup_append_pairs (w : List Char) (l1 l2 : List (List Char × Color)) :
    List.lookup w (l1 ++ l2) =
      match List.lookup w l1 with
      | some c => some c
      | none => List.lookup w l2 := by
  induction l1 with
  | nil => rfl
  | cons kv l1 ih =>
    obtain ⟨k, v⟩ := kv
    rw [List.cons_append, List.lookup_cons, List.lookup_cons]
    cases w == k with
    | true => rfl
    | false => exact ih

theorem isWord_digits (col : Color) : ∀ c ∈ col.digits, regexp.isWord c = true := by
  cases col <;> decide

theorem digits_head (col : Color) : ∃ d, col.digits = '3' :: d := by
  cases col <;> exact ⟨_, rfl⟩

/-- A pass over a wrapped word leaves the wrapping as it is when the function
changes neither of the two runs of word characters of the colour
sequences. -/
theorem mapWords_Apply (g : List Char → List Char) (w Y : List Char) (col : Color)
    (hall : ∀ c ∈ w, regexp.isWord c = true)
    (hY : ∀ c ∈ Y.head?, regexp.isWord c = false)
    (h1 : g (col.digits ++ 'm' :: w) = col.digits ++ 'm' :: w)
    (h2 : g ['0', 'm'] = ['0', 'm']) :
    mapWords g (Apply w col ++ Y) = Apply w col ++ mapWords g Y := by
  have he : regexp.isWord esc = false := by decide
  have hb : regexp.isWord '[' = false := by decide
  have e : Apply w col ++ Y =
      esc :: '[' :: ((col.digits ++ 'm' :: w) ++ (esc :: '[' :: (['0', 'm'] ++ Y))) := by
    simp [Apply]
  have hrun : ∀ c ∈ col.digits ++ 'm' :: w, regexp.isWord c = true := by
    intro c hc
    rcases List.mem_append.1 hc with h | h
    · exact isWord_digits col c h
    · rcases List.mem_cons.1 h with h | h
      · rw [h]; decide
      · exact hall c h
  rw [e, mapWords_cons_of_not_word g _ _ he, mapWords_cons_of_not_word g _ _ hb,
    mapWords_word g _ _ (by simp) hrun (by intro c hc; simp at hc; rw [← hc]; exact he),
    mapWords_cons_of_not_word g _ _ he, mapWords_cons_of_not_word g _ _ hb,
    mapWords_word g ['0', 'm'] Y (by simp) (by decide) hY, h1, h2]
  simp [Apply]

/-- The pass of a keyword after the passes of a table of words is the pass of
the table with the keyword added, when the keyword does not begin with the
digit of a colour sequence. -/
theorem mapWords_colorBy_append (tbl : List (List Char × Color)) (K : List Char) (c : Color)
    (hK0 : K.head? ≠ some '0') (hK3 : K.head? ≠ some '3') (s : List Char) :
    mapWords (colorBy [(K, c)]) (mapWords (colorBy tbl) s) =
      mapWords (colorBy (tbl ++ [(K, c)])) s := by
  induction s using word_run_induction with
  | hnil => rfl
  | hcons d t hd ih =>
    rw [mapWords_cons_of_not_word _ d t hd, mapWords_cons_of_not_word _ d _ hd,
      mapWords_cons_of_not_word _ d t hd, ih]
  | hword w t hw hall ht ih =>
    have hY := mapWords_head (colorBy tbl) t ht
    rw [mapWords_word _ w t hw hall ht, mapWords_word _ w t hw hall ht]
    cases hl : List.lookup w tbl with
    | none =>
      have e1 : colorBy tbl w = w := by simp [colorBy, hl]
      have e2 : colorBy (tbl ++ [(K, c)]) w = colorBy [(K, c)] w := by
        simp [colorBy, lookup_append_pairs, hl]
      rw [e1, e2, mapWords_word _ w _ hw hall hY, ih]
    | some col =>
      have e1 : colorBy tbl w = Apply w col := by simp [colorBy, hl]
      have e2 : colorBy (tbl ++ [(K, c)]) w = Apply w col := by
        simp [colorBy, lookup_append_pairs, hl]
      rw [e1, e2, mapWords_Apply _ w _ col hall hY, ih]
      · rw [colorBy_single, if_neg]
        intro e
        obtain ⟨d, hd⟩ := digits_head col
        rw [← e, hd] at hK3
        simp at hK3
      · rw [colorBy_single, if_neg]
        intro e
        rw [← e] at hK0
        simp at hK0

/-- The keyword passes, in the order of the list, wrap every maximal run of
word characters that is a word of the list in the colour of the word. -/
theorem foldl_keywords (order : List (List Char × Color)) :
    ∀ (tbl : List (List Char × Color)) (s : List Char),
      (∀ kw ∈ order, kw.1 ≠ [] ∧ (∀ c ∈ kw.1, regexp.isWord c = true) ∧
        kw.1.head? ≠ some '0' ∧ kw.1.head? ≠ some '3') →
      order.foldl
          (fun line kw =>
            regexp.ReplaceAllStringFunc (reKeyword kw.1) line fun m => Apply m kw.2)
          (mapWords (colorBy tbl) s) =
        mapWords (colorBy (tbl ++ order)) s := by
  induction order with
  | nil =>
    intro tbl s _
    simp
  | cons kw order ih =>
    intro tbl s h
    obtain ⟨hne, hall, h0, h3⟩ := h kw (List.mem_cons_self _ _)
    have hstep : regexp.ReplaceAllStringFunc (reKeyword kw.1) (mapWords (colorBy tbl) s)
        (fun m => Apply m kw.2) = mapWords (colorBy (tbl ++ [kw])) s := by
      unfold regexp.ReplaceAllStringFunc
      rw [ReplaceAllStringFunc_keyword kw.1 hall hne kw.2 _ none (by simp),
        mapWords_colorBy_append tbl kw.1 kw.2 h0 h3]
    rw [List.foldl_cons, hstep, ih (tbl ++ [kw]) s (fun k hk => h k (List.mem_cons_of_mem _ hk))]
    simp

theorem lookup_perm (w : List Char) {l1 l2 : List (List Char × Color)} (h : l1.Perm l2) :
    (l1.map Prod.fst).Nodup → List.lookup w l1 = List.lookup w l2 := by
  induction h with
  | nil => intro _; rfl
  | cons x _ ih =>
    intro hn
    obtain ⟨k, v⟩ := x
    rw [List.lookup_cons, List.lookup_cons]
    cases w == k with
    | true => rfl
    | false =>
      apply ih
      simp only [List.map_cons, List.nodup_cons] at hn
      exact hn.2
  | swap x y l =>
    intro hn
    obtain ⟨k1, v1⟩ := x
    obtain ⟨k2, v2⟩ := y
    simp only [List.map_cons, List.nodup_cons, List.mem_cons, not_or] at hn
    rw [List.lookup_cons, List.lookup_cons, List.lookup_cons, List.lookup_cons]
    by_cases e1 : w = k1
    · by_cases e2 : w = k2
      · exact absurd (e2.symm.trans e1) hn.1.1
      · have h1 : (w == k1) = true := by simpa using e1
        have h2 : (w == k2) = false := by simpa using e2
        rw [h1, h2]
    · have h1 : (w == k1) = false := by simpa using e1
      rw [h1]
  | trans p1 _ ih1 ih2 =>
    intro hn
    rw [ih1 hn]
    apply ih2
    exact (List.Perm.nodup_iff (p1.map Prod.fst)).1 hn

theorem colorBy_perm {l1 l2 : List (List Char × Color)} (h : l1.Perm l2)
    (hn : (l1.map Prod.fst).Nodup) : colorBy l1 = colorBy l2 := by
  funext w
  simp only [colorBy, lookup_perm w h hn]

theorem keywords_words :
    ∀ kw ∈ keywords, kw.1 ≠ [] ∧ (∀ c ∈ kw.1, regexp.isWord c = true) ∧
      kw.1.head? ≠ some '0' ∧ kw.1.head? ≠ some '3' := by
  decide

/-- The keyword passes of `colorizeLine`, in any order, on any text. -/
theorem foldl_keywords_perm (order : List (List Char × Color)) (horder : order.Perm keywords)
    (s : List Char) :
    order.foldl
        (fun line kw =>
          regexp.ReplaceAllStringFunc (reKeyword kw.1) line fun m => Apply m kw.2) s =
      mapWords (colorBy keywords) s := by
  have h := foldl_keywords order [] s (fun kw hkw => keywords_words kw (horder.subset hkw))
  rw [mapWords_of_id (colorBy []) (fun w => rfl) s, List.nil_append] at h
  rw [h, colorBy_perm horder ((List.Perm.nodup_iff (horder.map Prod.fst)).2 (by decide))]

theorem NoMatch_of_no_literal (re : Option Char → List Char → Option Nat)
    (lits : List (List Char))
    (hstart : ∀ before s n, re before s = some n → ∃ L ∈ lits, L <+: s)
    (s : List Char) (h : ∀ L ∈ lits, ¬ L <:+: s) : regexp.NoMatch re s := by
  intro u v huv
  cases hr : re u.getLast? v with
  | none => rfl
  | some n =>
    exfalso
    obtain ⟨L, hL, hp⟩ := hstart _ _ _ hr
    apply h L hL
    rw [huv]
    obtain ⟨t, ht⟩ := hp
    exact ⟨u, t, by rw [← ht]; simp⟩

end printer

namespace printer

open OpenShiftStatusPrinter

/-- C30, counterexample: the line `In project demo: 1 pod running` has no
`svc/`, no `dc/` and no URL, and `running` stands in it as a whole word; it
is returned as the whole line in Cyan, in which `running` is not wrapped in
Green. -/
theorem colorizeLine_in_project_keyword :
    ¬ "svc/".data <:+: "In project demo: 1 pod running".data ∧
      ¬ "dc/".data <:+: "In project demo: 1 pod running".data ∧
      ¬ "http".data <:+: "In project demo: 1 pod running".data ∧
      "In project demo: 1 pod running".data = "In project demo: 1 pod ".data ++ "running".data ∧
      colorizeLine ⟨true⟩ keywords "In project demo: 1 pod running".data =
        Apply "In project demo: 1 pod running".data Color.Cyan ∧
      ¬ Apply "running".data Color.Green <:+:
        colorizeLine ⟨true⟩ keywords "In project demo: 1 pod running".data := by
  decide

/-- C30, amended: for a line that does not begin with `In project ` and in
which `svc/\S+`, `dc/\S+` and the URL expression have no match,
`colorizeLine` returns, in whatever order the keywords are taken, the line
in which every maximal run of word characters that is `running` or `deployed`
is wrapped in Green and every one that is `failed` in Red, and nothing else
is changed: a run of word characters between a text that does not end in a
word character and a text that does not begin with one is rendered on its
own, and a run that is none of the three words stays as it is. -/
theorem colorizeLine_keywords (p : OpenShiftStatusPrinter)
    (order : List (List Char × Color)) (line : List Char)
    (horder : order.Perm keywords)
    (hproj : strings.HasPrefix line "In project ".data = false)
    (hsvc : regexp.NoMatch reService line) (hdc : regexp.NoMatch reDc line)
    (hurl : regexp.NoMatch reURL line) :
    colorizeLine p order line = mapWords (colorBy keywords) line ∧
      (∀ pre w post, line = pre ++ w ++ post → w ≠ [] →
        (∀ c ∈ w, regexp.isWord c = true) →
        (∀ c ∈ pre.getLast?, regexp.isWord c = false) →
        (∀ c ∈ post.head?, regexp.isWord c = false) →
        colorizeLine p order line =
          mapWords (colorBy keywords) pre ++ colorBy keywords w ++
            mapWords (colorBy keywords) post) ∧
      colorBy keywords "running".data = Apply "running".data Color.Green ∧
      colorBy keywords "deployed".data = Apply "deployed".data Color.Green ∧
      colorBy keywords "failed".data = Apply "failed".data Color.Red ∧
      (∀ w, w ≠ "running".data → w ≠ "deployed".data → w ≠ "failed".data →
        colorBy keywords w = w) := by
  have hmain : colorizeLine p order line = mapWords (colorBy keywords) line := by
    unfold OpenShiftStatusPrinter.colorizeLine
    rw [hproj]
    simp only [Bool.false_eq_true, if_false]
    rw [regexp.ReplaceAllStringFunc_of_noMatch reService _ line hsvc,
      regexp.ReplaceAllStringFunc_of_noMatch reDc _ line hdc,
      regexp.ReplaceAllStringFunc_of_noMatch reURL _ line hurl]
    exact foldl_keywords_perm order horder line
  refine ⟨hmain, ?_, by decide, by decide, by decide, ?_⟩
  · intro pre w post hline hw hall hpre hpost
    rw [hmain, hline]
    exact mapWords_append_word (colorBy keywords) w post hw hall hpost pre hpre
  · intro w h1 h2 h3
    have e1 : (w == "running".data) = false := by simpa using h1
    have e2 : (w == "deployed".data) = false := by simpa using h2
    have e3 : (w == "failed".data) = false := by simpa using h3
    simp only [colorBy, keywords, List.lookup_cons, List.lookup_nil, e1, e2, e3]

theorem colorizeLine_keywords_witness :
    (colorizeLine ⟨true⟩ keywords "Deployment #2: deployed 5 minutes ago".data =
        mapWords (colorBy keywords) "Deployment #2: deployed 5 minutes ago".data ∧
      (∀ pre w post, "Deployment #2: deployed 5 minutes ago".data = pre ++ w ++ post → w ≠ [] →
        (∀ c ∈ w, regexp.isWord c = true) →
        (∀ c ∈ pre.getLast?, regexp.isWord c = false) →
        (∀ c ∈ post.head?, regexp.isWord c = false) →
        colorizeLine ⟨true⟩ keywords "Deployment #2: deployed 5 minutes ago".data =
          mapWords (colorBy keywords) pre ++ colorBy keywords w ++
            mapWords (colorBy keywords) post) ∧
      colorBy keywords "running".data = Apply "running".data Color.Green ∧
      colorBy keywords "deployed".data = Apply "deployed".data Color.Green ∧
      colorBy keywords "failed".data = Apply "failed".data Color.Red ∧
      (∀ w, w ≠ "running".data → w ≠ "deployed".data → w ≠ "failed".data →
        colorBy keywords w = w)) ∧
      mapWords (colorBy keywords) "Deployment #2: deployed 5 minutes ago".data =
        "Deployment #2: ".data ++ Apply "deployed".data Color.Green ++ " 5 minutes ago".data ∧
      colorizeLine ⟨true⟩ keywords "rerunning failedover undeployed Running FAILED".data =
        "rerunning failedover undeployed Running FAILED".data :=
  ⟨colorizeLine_keywords ⟨true⟩ keywords "Deployment #2: deployed 5 minutes ago".data
      (List.Perm.refl _) (by decide)
      (NoMatch_of_no_literal reService ["svc/".data] reService_start _ (by decide))
      (NoMatch_of_no_literal reDc ["dc/".data] reDc_start _ (by decide))
      (NoMatch_of_no_literal reURL ["https://".data, "http://".data] reURL_start _ (by decide)),
    by decide, by decide⟩

end printer

namespace printer

open OpenShiftStatusPrinter

/-! ## The status printer: unchanged lines and the order of the keywords -/

theorem printFrom_unchanged (p : OpenShiftStatusPrinter)
    (order : Nat → List (List Char × Color)) :
    ∀ (lines : List (List Char)) (i : Nat),
      (∀ l ∈ lines, ∀ j, colorizeLine p (order j) l = l) →
      printFrom p order i lines = (lines.map fun l => l ++ "\n".data).flatten := by
  intro lines
  induction lines with
  | nil => intro i _; rfl
  | cons l rest ih =>
    intro i h
    rw [printFrom, h l (List.mem_cons_self _ _) i,
      ih (i + 1) (fun l1 h1 => h l1 (List.mem_cons_of_mem _ h1))]
    simp

theorem printFrom_append (p : OpenShiftStatusPrinter)
    (order : Nat → List (List Char × Color)) :
    ∀ (pre post : List (List Char)) (i : Nat),
      printFrom p order i (pre ++ post) =
        printFrom p order i pre ++ printFrom p order (i + pre.length) post := by
  intro pre
  induction pre with
  | nil => intro post i; simp [printFrom]
  | cons l rest ih =>
    intro post i
    rw [List.cons_append, printFrom, printFrom, ih post (i + 1), List.length_cons]
    have e : i + 1 + rest.length = i + (rest.length + 1) := by omega
    rw [e]
    simp

theorem colorizeLine_of_noMatch (p : OpenShiftStatusPrinter)
    (order : List (List Char × Color)) (line : List Char) (horder : order.Perm keywords)
    (hline : strings.HasPrefix line "In project ".data = false ∧
      regexp.NoMatch reService line ∧ regexp.NoMatch reDc line ∧ regexp.NoMatch reURL line ∧
      ∀ kw ∈ keywords, regexp.NoMatch (reKeyword kw.1) line) :
    colorizeLine p order line = line := by
  obtain ⟨hproj, hsvc, hdc, hurl, hkw⟩ := hline
  unfold OpenShiftStatusPrinter.colorizeLine
  rw [hproj]
  simp only [Bool.false_eq_true, if_false]
  rw [regexp.ReplaceAllStringFunc_of_noMatch reService _ line hsvc,
    regexp.ReplaceAllStringFunc_of_noMatch reDc _ line hdc,
    regexp.ReplaceAllStringFunc_of_noMatch reURL _ line hurl]
  apply foldl_fixed
  intro kw hk
  exact regexp.ReplaceAllStringFunc_of_noMatch _ _ line (hkw kw (horder.subset hk))

/-- C31: for a line that does not begin with `In project ` and in which the
expressions `svc/\S+`, `dc/\S+`, the URL expression and `\bword\b` for the
three keywords have no match, `colorizeLine` returns the line as it is, in
whatever order the keywords are taken; so wherever the scanner yields this
line, between the lines `pre` and `post`, what `Print` writes is what it
writes for `pre`, then the line followed by one newline (for the empty line
the newline alone), then what it writes for `post`. -/
theorem Print_unchanged (p : OpenShiftStatusPrinter)
    (order : Nat → List (List Char × Color)) (line : List Char)
    (horder : ∀ i, (order i).Perm keywords)
    (hline : strings.HasPrefix line "In project ".data = false ∧
      regexp.NoMatch reService line ∧ regexp.NoMatch reDc line ∧ regexp.NoMatch reURL line ∧
      ∀ kw ∈ keywords, regexp.NoMatch (reKeyword kw.1) line) :
    (∀ i, colorizeLine p (order i) line = line) ∧
      ∀ input pre post, bufio.scanLines input = pre ++ line :: post →
        OpenShiftStatusPrinter.Print p order input =
          printFrom p order 0 pre ++ (line ++ "\n".data) ++
            printFrom p order (pre.length + 1) post := by
  have h1 : ∀ i, colorizeLine p (order i) line = line :=
    fun i => colorizeLine_of_noMatch p (order i) line (horder i) hline
  refine ⟨h1, ?_⟩
  intro input pre post hscan
  unfold OpenShiftStatusPrinter.Print
  rw [hscan, printFrom_append, printFrom, h1, Nat.zero_add]
  simp

theorem Print_unchanged_witness :
    bufio.scanLines "View details with 'oc get all'.\n\n".data =
        ["View details with 'oc get all'.".data, []] ∧
      ((∀ _i : Nat, colorizeLine ⟨true⟩ keywords "View details with 'oc get all'.".data =
          "View details with 'oc get all'.".data) ∧
        ∀ input pre post,
          bufio.scanLines input = pre ++ "View details with 'oc get all'.".data :: post →
          OpenShiftStatusPrinter.Print ⟨true⟩ (fun _ => keywords) input =
            printFrom ⟨true⟩ (fun _ => keywords) 0 pre ++
              ("View details with 'oc get all'.".data ++ "\n".data) ++
              printFrom ⟨true⟩ (fun _ => keywords) (pre.length + 1) post) ∧
      ((∀ _i : Nat, colorizeLine ⟨true⟩ keywords [] = []) ∧
        ∀ input pre post, bufio.scanLines input = pre ++ [] :: post →
          OpenShiftStatusPrinter.Print ⟨true⟩ (fun _ => keywords) input =
            printFrom ⟨true⟩ (fun _ => keywords) 0 pre ++ ([] ++ "\n".data) ++
              printFrom ⟨true⟩ (fun _ => keywords) (pre.length + 1) post) ∧
      OpenShiftStatusPrinter.Print ⟨true⟩ (fun _ => keywords)
          "View details with 'oc get all'.\n\n".data =
        "View details with 'oc get all'.\n\n".data :=
  ⟨by decide,
    Print_unchanged ⟨true⟩ (fun _ => keywords) "View details with 'oc get all'.".data
      (fun _ => List.Perm.refl _)
      (by
        refine ⟨?_, NoMatch_of_no_literal reService ["svc/".data] reService_start _ ?_,
          NoMatch_of_no_literal reDc ["dc/".data] reDc_start _ ?_,
          NoMatch_of_no_literal reURL ["https://".data, "http://".data] reURL_start _ ?_, ?_⟩
        · decide
        · decide
        · decide
        · decide
        · intro kw hkw
          refine NoMatch_of_no_literal (reKeyword kw.1) [kw.1] (reKeyword_start kw.1) _ ?_
          intro L hL
          rw [List.mem_singleton] at hL
          subst hL
          revert kw
          decide),
    Print_unchanged ⟨true⟩ (fun _ => keywords) [] (fun _ => List.Perm.refl _)
      (by
        refine ⟨?_, NoMatch_of_no_literal reService ["svc/".data] reService_start _ ?_,
          NoMatch_of_no_literal reDc ["dc/".data] reDc_start _ ?_,
          NoMatch_of_no_literal reURL ["https://".data, "http://".data] reURL_start _ ?_, ?_⟩
        · decide
        · decide
        · decide
        · decide
        · intro kw hkw
          refine NoMatch_of_no_literal (reKeyword kw.1) [kw.1] (reKeyword_start kw.1) _ ?_
          intro L hL
          rw [List.mem_singleton] at hL
          subst hL
          revert kw
          decide),
    by decide⟩

/-- C38: for every line, `colorizeLine` returns the same text for any two
orders in which the three keywords are taken, each an arrangement of the map
`keywords`. -/
theorem colorizeLine_order (p : OpenShiftStatusPrinter) (line : List Char)
    (order1 order2 : List (List Char × Color))
    (h1 : order1.Perm keywords) (h2 : order2.Perm keywords) :
    colorizeLine p order1 line = colorizeLine p order2 line := by
  unfold OpenShiftStatusPrinter.colorizeLine
  by_cases hp : strings.HasPrefix line "In project ".data = true
  · rw [if_pos hp, if_pos hp]
  · rw [if_neg hp, if_neg hp]
    simp only []
    rw [foldl_keywords_perm order1 h1, foldl_keywords_perm order2 h2]

theorem colorizeLine_order_witness :
    colorizeLine ⟨true⟩
        [("failed".data, Color.Red), ("deployed".data, Color.Green),
          ("running".data, Color.Green)]
        "svc/running failed, deployed".data =
      colorizeLine ⟨true⟩ keywords "svc/running failed, deployed".data :=
  colorizeLine_order ⟨true⟩ "svc/running failed, deployed".data
    [("failed".data, Color.Red), ("deployed".data, Color.Green), ("running".data, Color.Green)]
    keywords (by decide) (List.Perm.refl _)

end printer

namespace printer

open OpenShiftStatusPrinter

/-! ## The status printer: only colour sequences are inserted -/

theorem colourWf_of_no_esc (s : List Char) (h : esc ∉ s) : colourWf false s = true := by
  induction s with
  | nil => rfl
  | cons c cs ih =>
    have hc : c ≠ esc := fun e => h (by simp [e])
    have hcs : esc ∉ cs := fun e => h (by simp [e])
    simp [colourWf, hc, ih hcs]

theorem stripAux_append_of_wf (r : List Char) :
    ∀ (m : List Char) (b : Bool), colourWf b m = true →
      stripAux b (m ++ r) = stripAux b m ++ stripAux false r := by
  intro m
  induction m with
  | nil =>
    intro b h
    cases b
    · rfl
    · simp [colourWf] at h
  | cons c m ih =>
    intro b h
    cases b
    · by_cases hc : c = esc
      · simp only [colourWf, hc, if_true] at h
        simp [stripAux, hc, ih true h]
      · simp only [colourWf, hc, if_false] at h
        simp [stripAux, hc, ih false h]
    · by_cases hc : c = 'm'
      · simp only [colourWf, hc, if_true] at h
        simp [stripAux, hc, ih false h]
      · simp only [colourWf, hc, if_false, Bool.and_eq_true] at h
        simp [stripAux, hc, ih true h.2]

theorem colourWf_append (r : List Char) (hr : colourWf false r = true) :
    ∀ (m : List Char) (b : Bool), colourWf b m = true → colourWf b (m ++ r) = true := by
  intro m
  induction m with
  | nil =>
    intro b h
    cases b
    · exact hr
    · simp [colourWf] at h
  | cons c m ih =>
    intro b h
    cases b
    · by_cases hc : c = esc
      · simp only [colourWf, hc, if_true] at h
        simp [colourWf, hc, ih true h]
      · simp only [colourWf, hc, if_false] at h
        simp [colourWf, hc, ih false h]
    · by_cases hc : c = 'm'
      · simp only [colourWf, hc, if_true] at h
        simp [colourWf, hc, ih false h]
      · simp only [colourWf, hc, if_false, Bool.and_eq_true] at h
        simp only [List.cons_append, colourWf, hc, if_false, Bool.and_eq_true]
        exact ⟨h.1, ih true h.2⟩

/-- A text with whole colour sequences, cut in two: both parts have whole
sequences, or the second part goes on inside a sequence. -/
theorem colourWf_split (T : List Char) :
    ∀ (m : List Char) (b : Bool), colourWf b (m ++ T) = true →
      (colourWf b m = true ∧ colourWf false T = true) ∨
        ∃ d, T.head? = some d ∧ (d = 'm' ∨ d = '[' ∨ d.isDigit = true) := by
  intro m
  induction m with
  | nil =>
    intro b h
    cases b
    · exact Or.inl ⟨rfl, h⟩
    · right
      cases T with
      | nil => simp [colourWf] at h
      | cons d T =>
        refine ⟨d, rfl, ?_⟩
        by_cases hd : d = 'm'
        · exact Or.inl hd
        · simp only [List.nil_append, colourWf, hd, if_false, Bool.and_eq_true] at h
          right
          simpa using h.1
  | cons c m ih =>
    intro b h
    cases b
    · by_cases hc : c = esc
      · simp only [List.cons_append, colourWf, hc, if_true] at h
        rcases ih true h with ⟨h1, h2⟩ | h3
        · exact Or.inl ⟨by simp [colourWf, hc, h1], h2⟩
        · exact Or.inr h3
      · simp only [List.cons_append, colourWf, hc, if_false] at h
        rcases ih false h with ⟨h1, h2⟩ | h3
        · exact Or.inl ⟨by simp [colourWf, hc, h1], h2⟩
        · exact Or.inr h3
    · by_cases hc : c = 'm'
      · simp only [List.cons_append, colourWf, hc, if_true] at h
        rcases ih false h with ⟨h1, h2⟩ | h3
        · exact Or.inl ⟨by simp [colourWf, hc, h1], h2⟩
        · exact Or.inr h3
      · simp only [List.cons_append, colourWf, hc, if_false, Bool.and_eq_true] at h
        rcases ih true h.2 with ⟨h1, h2⟩ | h3
        · refine Or.inl ⟨?_, h2⟩
          simp only [colourWf, hc, if_false, Bool.and_eq_true]
          exact ⟨h.1, h1⟩
        · exact Or.inr h3

theorem colourWf_split_of_no_esc (T : List Char) :
    ∀ m : List Char, esc ∉ m → colourWf false (m ++ T) = true →
      colourWf false m = true ∧ colourWf false T = true := by
  intro m
  induction m with
  | nil => intro _ h; exact ⟨rfl, h⟩
  | cons c m ih =>
    intro hm h
    have hc : c ≠ esc := fun e => hm (by simp [e])
    have hm2 : esc ∉ m := fun e => hm (by simp [e])
    simp only [List.cons_append, colourWf, hc, if_false] at h
    obtain ⟨h1, h2⟩ := ih hm2 h
    exact ⟨by simp [colourWf, hc, h1], h2⟩

theorem colourWf_Apply (m : List Char) (c : Color) (h : colourWf false m = true) :
    colourWf false (Apply m c) = true := by
  have e : Apply m c = [esc, '['] ++ (c.digits ++ ('m' :: (m ++ [esc, '[', '0', 'm']))) := by
    simp [Apply]
  have h2 : colourWf false (m ++ [esc, '[', '0', 'm']) = true :=
    colourWf_append _ (by decide) m false h
  rw [e]
  cases c <;> simpa [colourWf, Color.digits, esc] using h2

theorem stripAux_Apply_of_wf (m : List Char) (c : Color) (r : List Char)
    (h : colourWf false m = true) :
    stripAux false (Apply m c ++ r) = stripAux false m ++ stripAux false r := by
  have e : Apply m c ++ r =
      esc :: '[' :: (c.digits ++ 'm' :: (m ++ ([esc, '[', '0', 'm'] ++ r))) := by
    simp [Apply]
  rw [e, stripAux_start, stripAux_append_of_wf _ m false h, stripAux_reset]

end printer

namespace printer

open OpenShiftStatusPrinter

/-- A pass whose matches do not cut a colour sequence only inserts colour
sequences: without the sequences the text is the same after the pass, and the
sequences of the result are whole. -/
theorem replaceLoop_strip (re : Option Char → List Char → Option Nat) (hsafe : regexp.Safe re)
    (col : Color) :
    ∀ (n : Nat) (x : List Char), x.length ≤ n → ∀ (b : Bool) (before : Option Char),
      colourWf b x = true →
      stripAux b (regexp.replaceLoop re (fun m => Apply m col) before 0 x) = stripAux b x ∧
        colourWf b (regexp.replaceLoop re (fun m => Apply m col) before 0 x) = true := by
  intro n
  induction n with
  | zero =>
    intro x hx b before hwf
    have : x = [] := List.length_eq_zero.1 (Nat.le_zero.1 hx)
    subst this
    exact ⟨rfl, hwf⟩
  | succ n ih =>
    intro x hx b before hwf
    cases x with
    | nil => exact ⟨rfl, hwf⟩
    | cons c cs =>
      have hcs : cs.length ≤ n := by simp at hx; omega
      have hcopy : regexp.replaceLoop re (fun m => Apply m col) before 0 (c :: cs) =
          c :: regexp.replaceLoop re (fun m => Apply m col) (some c) 0 cs →
          stripAux b (regexp.replaceLoop re (fun m => Apply m col) before 0 (c :: cs)) =
              stripAux b (c :: cs) ∧
            colourWf b (regexp.replaceLoop re (fun m => Apply m col) before 0 (c :: cs)) =
              true := by
        intro e
        rw [e]
        cases b
        · by_cases hc : c = esc
          · simp only [colourWf, hc, if_true] at hwf
            obtain ⟨h1, h2⟩ := ih cs hcs true (some c) hwf
            subst hc
            simp only [stripAux, colourWf, if_true]
            exact ⟨h1, h2⟩
          · simp only [colourWf, hc, if_false] at hwf
            obtain ⟨h1, h2⟩ := ih cs hcs false (some c) hwf
            simp only [stripAux, colourWf, hc, if_false]
            exact ⟨by rw [h1], h2⟩
        · by_cases hc : c = 'm'
          · simp only [colourWf, hc, if_true] at hwf
            obtain ⟨h1, h2⟩ := ih cs hcs false (some c) hwf
            subst hc
            simp only [stripAux, colourWf, if_true]
            exact ⟨h1, h2⟩
          · simp only [colourWf, hc, if_false, Bool.and_eq_true] at hwf
            obtain ⟨h1, h2⟩ := ih cs hcs true (some c) hwf.2
            simp only [stripAux, colourWf, hc, if_false, Bool.and_eq_true]
            exact ⟨h1, hwf.1, h2⟩
      cases hr : re before (c :: cs) with
      | none =>
        apply hcopy
        rw [regexp.replaceLoop, hr]
      | some k =>
        cases k with
        | zero =>
          apply hcopy
          rw [regexp.replaceLoop, hr]
        | succ k =>
          obtain ⟨hlen, hhead, hend⟩ := hsafe before (c :: cs) (k + 1) hr
          have hc := hhead c (by simp)
          -- a match begins outside the colour sequences
          have hb : b = false := by
            cases b
            · rfl
            · simp [colourWf, hc.1, hc.2.1, hc.2.2] at hwf
          subst hb
          have hx2 : (c :: cs).take (k + 1) ++ (c :: cs).drop (k + 1) = c :: cs :=
            List.take_append_drop _ _
          have hmlen : ((c :: cs).take (k + 1)).length = k + 1 := by
            rw [List.length_take]
            omega
          have hmne : (c :: cs).take (k + 1) ≠ [] := by
            intro e
            rw [e] at hmlen
            simp at hmlen
          have hTlen : ((c :: cs).drop (k + 1)).length ≤ n := by
            rw [List.length_drop]
            simp at hx ⊢
            omega
          have hwf2 : colourWf false ((c :: cs).take (k + 1) ++ (c :: cs).drop (k + 1)) =
              true := by rw [hx2]; exact hwf
          -- the match and what follows it have whole sequences
          have hparts : colourWf false ((c :: cs).take (k + 1)) = true ∧
              colourWf false ((c :: cs).drop (k + 1)) = true := by
            rcases hend with h1 | h2
            · exact colourWf_split_of_no_esc _ _ h1 hwf2
            · rcases colourWf_split _ _ false hwf2 with h3 | ⟨d, hd, hd2⟩
              · exact h3
              · exfalso
                obtain ⟨e1, e2, e3⟩ := h2 d hd
                rcases hd2 with h | h | h
                · exact e1 h
                · exact e2 h
                · rw [e3] at h
                  exact absurd h (by simp)
          have hmatch := regexp.replaceLoop_match re (fun m => Apply m col) before
            ((c :: cs).take (k + 1)) ((c :: cs).drop (k + 1)) hmne
            (by rw [hx2, hmlen]; exact hr)
          rw [hx2] at hmatch
          obtain ⟨i1, i2⟩ := ih ((c :: cs).drop (k + 1)) hTlen false
            ((c :: cs).take (k + 1)).getLast? hparts.2
          rw [hmatch]
          refine ⟨?_, ?_⟩
          · rw [stripAux_Apply_of_wf _ _ _ hparts.1, i1,
              ← stripAux_append_of_wf _ _ false hparts.1, hx2]
          · exact colourWf_append _ i2 _ false (colourWf_Apply _ col hparts.1)

theorem ReplaceAllStringFunc_strip (re : Option Char → List Char → Option Nat)
    (hsafe : regexp.Safe re) (col : Color) (x : List Char) (hwf : colourWf false x = true) :
    stripColors (regexp.ReplaceAllStringFunc re x fun m => Apply m col) = stripColors x ∧
      colourWf false (regexp.ReplaceAllStringFunc re x fun m => Apply m col) = true :=
  replaceLoop_strip re hsafe col x.length x (Nat.le_refl _) false none hwf

end printer

namespace printer

open OpenShiftStatusPrinter

theorem isSpace_not_seq (d : Char) (h : regexp.isSpace d = true) :
    d ≠ 'm' ∧ d ≠ '[' ∧ d.isDigit = false := by
  simp only [regexp.isSpace, Bool.decide_or, Bool.or_eq_true, decide_eq_true_eq] at h
  rcases h with h | h | h | h | h <;> subst h <;> decide

theorem drop_length_takeWhile (q : Char → Bool) (t : List Char) :
    t.drop (t.takeWhile q).length = t.dropWhile q := by
  induction t with
  | nil => rfl
  | cons c t ih =>
    by_cases hc : q c = true
    · simp [List.takeWhile_cons, List.dropWhile_cons, hc, ih]
    · simp [List.takeWhile_cons, List.dropWhile_cons, hc]

theorem matchLitNonSpace_safe (lit : List Char) (hne : lit ≠ [])
    (hlit : ∀ c ∈ lit.head?, c ≠ 'm' ∧ c ≠ '[' ∧ c.isDigit = false)
    (s : List Char) (n : Nat) (h : regexp.matchLitNonSpace lit s = some n) :
    n ≤ s.length ∧
      (∀ c ∈ s.head?, c ≠ 'm' ∧ c ≠ '[' ∧ c.isDigit = false) ∧
      (esc ∉ s.take n ∨ ∀ d ∈ (s.drop n).head?, d ≠ 'm' ∧ d ≠ '[' ∧ d.isDigit = false) := by
  have hp := regexp.matchLitNonSpace_isPrefix lit s n h
  obtain ⟨t, ht⟩ := hp
  subst ht
  unfold regexp.matchLitNonSpace at h
  rw [if_pos (List.isPrefixOf_iff_prefix.2 (List.prefix_append _ _))] at h
  simp only [List.drop_left] at h
  split at h
  · simp only [Option.some.injEq] at h
    subst h
    refine ⟨?_, ?_, Or.inr ?_⟩
    · have : (t.takeWhile fun c => !regexp.isSpace c).length ≤ t.length :=
        (List.takeWhile_sublist _).length_le
      simp only [List.length_append]
      omega
    · cases lit with
      | nil => exact absurd rfl hne
      | cons a lit =>
        intro c hc
        exact hlit c (by simpa using hc)
    · intro d hd
      have e : (lit ++ t).drop (lit.length + (t.takeWhile fun c => !regexp.isSpace c).length) =
          t.dropWhile fun c => !regexp.isSpace c := by
        rw [← List.drop_drop, List.drop_left, drop_length_takeWhile]
      rw [e] at hd
      cases hdw : t.dropWhile fun c => !regexp.isSpace c with
      | nil => rw [hdw] at hd; simp at hd
      | cons x r =>
        rw [hdw] at hd
        simp only [List.head?_cons, Option.mem_def, Option.some.injEq] at hd
        subst hd
        have := List.head_dropWhile_not (fun c => !regexp.isSpace c) t (by rw [hdw]; simp)
        simp only [hdw, List.head_cons] at this
        exact isSpace_not_seq x (by simpa using this)
  · exact absurd h (by simp)

theorem reService_safe : regexp.Safe reService := by
  intro before s n h
  exact matchLitNonSpace_safe "svc/".data (by decide) (by decide) s n h

theorem reDc_safe : regexp.Safe reDc := by
  intro before s n h
  exact matchLitNonSpace_safe "dc/".data (by decide) (by decide) s n h

theorem reURL_safe : regexp.Safe reURL := by
  intro before s n h
  unfold reURL at h
  cases h1 : regexp.matchLitNonSpace "https://".data s with
  | some k =>
    rw [h1] at h
    simp only [Option.some.injEq] at h
    subst h
    exact matchLitNonSpace_safe "https://".data (by decide) (by decide) s k h1
  | none =>
    rw [h1] at h
    exact matchLitNonSpace_safe "http://".data (by decide) (by decide) s n h

theorem reKeyword_safe (word : List Char) (hne : word ≠ []) (hesc : esc ∉ word)
    (hhead : ∀ c ∈ word.head?, c ≠ 'm' ∧ c ≠ '[' ∧ c.isDigit = false) :
    regexp.Safe (reKeyword word) := by
  intro before s n h
  obtain ⟨t, ht⟩ := regexp.matchWord_isPrefix word before s n h
  subst ht
  unfold reKeyword regexp.matchWord at h
  split at h
  · simp only [Option.some.injEq] at h
    subst h
    refine ⟨by simp, ?_, Or.inl ?_⟩
    · cases word with
      | nil => exact absurd rfl hne
      | cons a word =>
        intro c hc
        exact hhead c (by simpa using hc)
    · rw [List.take_left]
      exact hesc
  · exact absurd h (by simp)

theorem keywords_safe : ∀ kw ∈ keywords, regexp.Safe (reKeyword kw.1) := by
  intro kw hkw
  apply reKeyword_safe
  · revert kw; decide
  · revert kw; decide
  · revert kw; decide

theorem foldl_keywords_strip (order : List (List Char × Color))
    (horder : ∀ kw ∈ order, kw ∈ keywords) :
    ∀ x : List Char, colourWf false x = true →
      stripColors (order.foldl
          (fun line kw =>
            regexp.ReplaceAllStringFunc (reKeyword kw.1) line fun m => Apply m kw.2) x) =
        stripColors x := by
  induction order with
  | nil => intro x _; rfl
  | cons kw order ih =>
    intro x hx
    obtain ⟨h1, h2⟩ := ReplaceAllStringFunc_strip (reKeyword kw.1)
      (keywords_safe kw (horder kw (List.mem_cons_self _ _))) kw.2 x hx
    rw [List.foldl_cons, ih (fun k hk => horder k (List.mem_cons_of_mem _ hk)) _ h2, h1]

/-- C32: for a line without an escape character, the text that
`colorizeLine` returns, in whatever order the keywords are taken, is the
line again once every colour sequence (the escape character and what follows
it up to the next `m`) is removed: the passes only insert colour sequences. -/
theorem colorizeLine_strip (p : OpenShiftStatusPrinter)
    (order : List (List Char × Color)) (line : List Char)
    (horder : order.Perm keywords) (hesc : esc ∉ line) :
    stripColors (colorizeLine p order line) = line := by
  have hline : stripColors line = line := by
    have := stripAux_plain line [] hesc
    simpa [stripColors, stripAux] using this
  unfold OpenShiftStatusPrinter.colorizeLine
  by_cases hp : strings.HasPrefix line "In project ".data = true
  · rw [if_pos hp]
    have := stripAux_Apply line Color.Cyan [] hesc
    simpa [stripColors, stripAux] using this
  · rw [if_neg hp]
    simp only []
    have hwf := colourWf_of_no_esc line hesc
    obtain ⟨s1, w1⟩ := ReplaceAllStringFunc_strip reService reService_safe Color.Green line hwf
    obtain ⟨s2, w2⟩ := ReplaceAllStringFunc_strip reDc reDc_safe Color.Blue _ w1
    obtain ⟨s3, w3⟩ := ReplaceAllStringFunc_strip reURL reURL_safe Color.Magenta _ w2
    rw [foldl_keywords_strip order (fun kw hk => horder.subset hk) _ w3, s3, s2, s1, hline]

theorem colorizeLine_strip_witness :
    esc ∉ "svc/running at https://svc/dc/x failed".data ∧
      stripColors (colorizeLine ⟨true⟩ keywords "svc/running at https://svc/dc/x failed".data) =
        "svc/running at https://svc/dc/x failed".data ∧
      colorizeLine ⟨true⟩ keywords "svc/running".data =
        "\x1b[32msvc/\x1b[32mrunning\x1b[0m\x1b[0m".data :=
  ⟨by decide,
    colorizeLine_strip ⟨true⟩ keywords "svc/running at https://svc/dc/x failed".data
      (List.Perm.refl _) (by decide),
    by decide⟩

end printer

namespace printer

/-! ## The describe printer: earlier lines, and the `TLS Termination` value -/

theorem printLoop_no_label (dp : DescribePrinter) (deps : Collaborators) :
    ∀ (xs : List (List Char)) (st : PrintState), st.isRoute = false →
      (∀ l ∈ xs, hasRouteLabel l = false) →
      ∃ outs : List (List Char),
        printLoop dp deps st xs = some { isRoute := false, w := st.w ++ outs.flatten } ∧
          List.Forall₂ (fun l o => writeLine dp deps false l = some o) xs outs := by
  intro xs
  induction xs with
  | nil =>
    intro st hst _
    refine ⟨[], ?_, List.Forall₂.nil⟩
    cases st
    simp only at hst
    subst hst
    simp [printLoop]
  | cons l xs ih =>
    intro st hst h
    have hl := h l (List.mem_cons_self _ _)
    obtain ⟨out, hout, hstep⟩ := printStep_spec dp deps st l
    rw [hst, hl] at hout hstep
    simp only [Bool.or_false] at hout hstep
    obtain ⟨outs, hloop, hall⟩ := ih { isRoute := false, w := st.w ++ out } rfl
      (fun l1 h1 => h l1 (List.mem_cons_of_mem _ h1))
    refine ⟨out :: outs, ?_, List.Forall₂.cons hout hall⟩
    simp only [printLoop, hstep, hloop, List.flatten_cons, List.append_assoc]

/-- C37: when no line of `xs` holds a route detection label, `Print` returns
on `xs` and on `xs ++ ys`, and what it wrote on `xs ++ ys` begins with what it
wrote on `xs`, which is, line after line, what the loop body writes for the
line without the route flag, whatever `ys` holds. -/
theorem Print_append (dp : DescribePrinter) (deps : Collaborators)
    (xs ys : List (List Char)) (hxs : ∀ l ∈ xs, hasRouteLabel l = false) :
    ∃ st st2 out outs,
      Print dp deps xs = some st ∧ Print dp deps (xs ++ ys) = some st2 ∧
        st2.w = st.w ++ out ∧ st.isRoute = false ∧ st.w = outs.flatten ∧
        List.Forall₂ (fun l o => writeLine dp deps false l = some o) xs outs := by
  obtain ⟨outs, hloop, hall⟩ := printLoop_no_label dp deps xs { isRoute := false, w := [] } rfl hxs
  obtain ⟨out, hout⟩ := printLoop_written dp deps ys
    { isRoute := false, w := ([] : List Char) ++ outs.flatten }
  refine ⟨{ isRoute := false, w := [] ++ outs.flatten },
    { isRoute := false || ys.any hasRouteLabel, w := ([] ++ outs.flatten) ++ out },
    out, outs, hloop, ?_, rfl, rfl, by simp, hall⟩
  unfold Print
  rw [printLoop_append, hloop, Option.some_bind, hout]

theorem Print_append_witness :
    ∃ st st2 out outs,
      Print ⟨true⟩ exampleCollaborators ["Name:  my-route".data] = some st ∧
        Print ⟨true⟩ exampleCollaborators
          (["Name:  my-route".data] ++ ["Requested Host:  a".data, "Name:  my-route".data]) =
          some st2 ∧
        st2.w = st.w ++ out ∧ st.isRoute = false ∧ st.w = outs.flatten ∧
        List.Forall₂ (fun l o => writeLine ⟨true⟩ exampleCollaborators false l = some o)
          ["Name:  my-route".data] outs :=
  Print_append ⟨true⟩ exampleCollaborators ["Name:  my-route".data]
    ["Requested Host:  a".data, "Name:  my-route".data] (by decide)

theorem effectiveColors_route_val (dp : DescribePrinter) (deps : Collaborators) (n : Nat)
    (K V : List Char) (kc vc : Color)
    (h : effectiveColors dp deps true n [K, V] = some (kc, vc)) :
    vc = routeValColorOf deps K V (deps.getColorByValueType V dp.DarkBackground) := by
  unfold effectiveColors at h
  simp at h
  exact h.2.symm

theorem routeValColorOf_tls (deps : Collaborators) (K V : List Char) (base : Color)
    (hk : strings.TrimSuffix (strings.TrimSpace K) ":".data = "TLS Termination".data) :
    routeValColorOf deps K V base =
      if strings.HasPrefix (deps.ToLower V) "edge".data = true then routeTLSColorEdge
      else if strings.HasPrefix (deps.ToLower V) "passthrough".data = true then
        routeTLSColorPassthrough
      else if strings.HasPrefix (deps.ToLower V) "reencrypt".data = true then
        routeTLSColorReencrypt
      else base := by
  unfold routeValColorOf
  simp [hk, ocRouteTLSColorEdge, ocRouteTLSColorPassthrough, ocRouteTLSColorReencrypt]

theorem take_length_takeWhile (q : Char → Bool) (t : List Char) :
    t.take (t.takeWhile q).length = t.takeWhile q := by
  induction t with
  | nil => rfl
  | cons c t ih =>
    by_cases hc : q c = true
    · simp [List.takeWhile_cons, hc, ih]
    · simp [List.takeWhile_cons, hc]

end printer

namespace printer

/-- The value of a `TLS Termination` line as lines 256 to 280 render it: the
first word and what follows it from the first space on. -/
theorem tlsOutput_eq (dp : DescribePrinter) (deps : Collaborators) (V : List Char)
    (vc : Color) :
    tlsOutput dp deps V vc =
      some ((if deps.ToLower (V.takeWhile fun c => c != ' ') = "edge".data then
            Apply (V.takeWhile fun c => c != ' ') routeTLSColorEdge
          else if deps.ToLower (V.takeWhile fun c => c != ' ') = "passthrough".data then
            Apply (V.takeWhile fun c => c != ' ') routeTLSColorPassthrough
          else if deps.ToLower (V.takeWhile fun c => c != ' ') = "reencrypt".data then
            Apply (V.takeWhile fun c => c != ' ') routeTLSColorReencrypt
          else Apply (V.takeWhile fun c => c != ' ') vc) ++
        (if (V.dropWhile fun c => c != ' ') = [] then []
          else Apply (V.dropWhile fun c => c != ' ')
            (deps.getColorByValueType (V.dropWhile fun c => c != ' ') dp.DarkBackground))) := by
  unfold tlsOutput
  by_cases h : ' ' ∈ V
  · have hidx : strings.Index V ' ' = ((V.takeWhile fun c => c != ' ').length : Int) := by
      simp [strings.Index, h]
    have hle : (V.takeWhile fun c => c != ' ').length ≤ V.length :=
      (List.takeWhile_sublist _).length_le
    have hne : strings.Index V ' ' ≠ -1 := by rw [hidx]; omega
    have h1 : sliceTo V (strings.Index V ' ') = some (V.takeWhile fun c => c != ' ') := by
      rw [hidx]
      simp [sliceTo, hle, take_length_takeWhile]
    have h2 : sliceFrom V (strings.Index V ' ') = some (V.dropWhile fun c => c != ' ') := by
      rw [hidx]
      simp [sliceFrom, hle, drop_length_takeWhile]
    simp only [hne, ne_eq, not_false_eq_true, if_true, h1, h2, ocRouteTLSColorEdge,
      ocRouteTLSColorPassthrough, ocRouteTLSColorReencrypt]
    by_cases hb : (V.dropWhile fun c => c != ' ') = []
    · simp [hb]
    · simp [hb]
  · have hidx : strings.Index V ' ' = -1 := by simp [strings.Index, h]
    have hall : ∀ c ∈ V, (c != ' ') = true := by
      intro c hc
      simp only [bne_iff_ne, ne_eq]
      rintro rfl
      exact h hc
    have e1 : (V.takeWhile fun c => c != ' ') = V := List.takeWhile_eq_self_iff.2 hall
    have e2 : (V.dropWhile fun c => c != ' ') = [] := List.dropWhile_eq_nil_iff.2 hall
    simp only [hidx, ne_eq, not_true_eq_false, if_false, e1, e2, ocRouteTLSColorEdge,
      ocRouteTLSColorPassthrough, ocRouteTLSColorReencrypt]
    simp

/-- The prefix test on the whole lowered value and on its lowered first word
agree, for a prefix without a space, when `ToLower` works character by
character and keeps the space. -/
theorem HasPrefix_ToLower_first_word (deps : Collaborators) (V p : List Char)
    (hA : ∀ a b, deps.ToLower (a ++ b) = deps.ToLower a ++ deps.ToLower b)
    (hS : deps.ToLower " ".data = " ".data) (hp : ' ' ∉ p) :
    strings.HasPrefix (deps.ToLower V) p =
      strings.HasPrefix (deps.ToLower (V.takeWhile fun c => c != ' ')) p := by
  have hV : V = (V.takeWhile fun c => c != ' ') ++ (V.dropWhile fun c => c != ' ') :=
    (List.takeWhile_append_dropWhile _ _).symm
  have hnil : deps.ToLower [] = [] := by
    have := hA [] []
    rw [List.append_nil] at this
    have hl := congrArg List.length this
    rw [List.length_append] at hl
    exact List.length_eq_zero.1 (by omega)
  cases hR : (V.dropWhile fun c => c != ' ') with
  | nil =>
    rw [hR, List.append_nil] at hV
    rw [← hV]
  | cons d r =>
    have hd : d = ' ' := by
      have := List.head_dropWhile_not (fun c => c != ' ') V (by rw [hR]; simp)
      simpa [hR] using this
    subst hd
    have hlow : deps.ToLower V =
        deps.ToLower (V.takeWhile fun c => c != ' ') ++ (' ' :: deps.ToLower r) := by
      conv_lhs => rw [hV, hR]
      rw [hA]
      have : (' ' :: r) = " ".data ++ r := rfl
      rw [this, hA, hS]
      rfl
    unfold strings.HasPrefix
    rw [hlow, Bool.eq_iff_iff, List.isPrefixOf_iff_prefix, List.isPrefixOf_iff_prefix]
    constructor
    · intro h
      rcases regexp.prefix_append_cases p _ _ h with h1 | ⟨c, hc, hh⟩
      · exact h1
      · simp only [List.head?_cons, Option.some.injEq] at hh
        rw [← hh] at hc
        exact absurd hc hp
    · intro h
      exact h.trans (List.prefix_append _ _)

/-- C35: in a route, a line of two columns with the key `TLS Termination` is
written with the first word `F` of its value `V` (up to the first space) in
the colour that the prefix test on the lowered `F` decides (edge, else
passthrough, else reencrypt, else the colour of the value type of `V`), and
with what follows from the first space on in the colour of its own value
type; the prefix tests on the lowered `V` and on the lowered `F` agree.
`ToLower` is taken to work character by character and to keep the space. -/
theorem writeLine_tls (dp : DescribePrinter) (deps : Collaborators)
    (line K V F R : List Char) (h : columnsOf line = [K, V])
    (hk : strings.TrimSuffix (strings.TrimSpace K) ":".data = "TLS Termination".data)
    (hF : F = V.takeWhile fun c => c != ' ') (hR : R = V.dropWhile fun c => c != ' ')
    (hA : ∀ a b, deps.ToLower (a ++ b) = deps.ToLower a ++ deps.ToLower b)
    (hS : deps.ToLower " ".data = " ".data) :
    V = F ++ R ∧
      (∀ p ∈ ["edge".data, "passthrough".data, "reencrypt".data],
        strings.HasPrefix (deps.ToLower V) p = strings.HasPrefix (deps.ToLower F) p) ∧
      ∃ w kc,
        writeLine dp deps true line =
          some (toSpaces (findIndent line) ++ coloredKeyOutput K kc ++ toSpaces w ++
            (Apply F
                (if strings.HasPrefix (deps.ToLower F) "edge".data = true then
                  routeTLSColorEdge
                else if strings.HasPrefix (deps.ToLower F) "passthrough".data = true then
                  routeTLSColorPassthrough
                else if strings.HasPrefix (deps.ToLower F) "reencrypt".data = true then
                  routeTLSColorReencrypt
                else deps.getColorByValueType V dp.DarkBackground) ++
              (if R = [] then []
                else Apply R (deps.getColorByValueType R dp.DarkBackground))) ++
            "\n".data) := by
  have hagree : ∀ p ∈ ["edge".data, "passthrough".data, "reencrypt".data],
      strings.HasPrefix (deps.ToLower V) p = strings.HasPrefix (deps.ToLower F) p := by
    intro p hp
    rw [hF]
    apply HasPrefix_ToLower_first_word deps V p hA hS
    revert p
    decide
  refine ⟨by rw [hF, hR]; exact (List.takeWhile_append_dropWhile _ _).symm, hagree, ?_⟩
  obtain ⟨w, kc, vc, out, _, _, _, _, hcol, hp, hout⟩ := printLine_two dp deps true line K V h
  have hvc := effectiveColors_route_val dp deps _ K V kc vc hcol
  rw [routeValColorOf_tls deps K V _ hk, hagree _ (by simp), hagree _ (by simp),
    hagree _ (by simp)] at hvc
  have hr : routeValueOutput dp deps K V vc = (tlsOutput dp deps V vc).map some := by
    unfold routeValueOutput
    simp [hk]
  rw [tlsOutput_eq, Option.map_some', ← hF, ← hR] at hr
  refine ⟨w, kc, ?_⟩
  rw [writeLine_of_columns dp deps true line K [V] h, hp]
  have ho : out = (if deps.ToLower F = "edge".data then Apply F routeTLSColorEdge
      else if deps.ToLower F = "passthrough".data then Apply F routeTLSColorPassthrough
      else if deps.ToLower F = "reencrypt".data then Apply F routeTLSColorReencrypt
      else Apply F vc) ++
      (if R = [] then [] else Apply R (deps.getColorByValueType R dp.DarkBackground)) := by
    rcases hout with ⟨_, ho⟩ | ⟨hb, _⟩
    · rw [hr] at ho
      simp only [Option.some.injEq] at ho
      exact ho.symm
    · rcases hb with hb | hb
      · exact absurd hb (by simp)
      · rw [hr] at hb
        exact absurd hb (by simp)
  rw [ho]
  congr 3
  -- the exact test on the first word and the prefix tests give the same colour
  by_cases e1 : deps.ToLower F = "edge".data
  · have : strings.HasPrefix (deps.ToLower F) "edge".data = true := by rw [e1]; decide
    rw [if_pos e1, if_pos this]
  · by_cases e2 : deps.ToLower F = "passthrough".data
    · have t1 : strings.HasPrefix (deps.ToLower F) "edge".data = false := by rw [e2]; decide
      have t2 : strings.HasPrefix (deps.ToLower F) "passthrough".data = true := by
        rw [e2]; decide
      rw [if_neg e1, if_pos e2, t1, t2]
      simp
    · by_cases e3 : deps.ToLower F = "reencrypt".data
      · have t1 : strings.HasPrefix (deps.ToLower F) "edge".data = false := by rw [e3]; decide
        have t2 : strings.HasPrefix (deps.ToLower F) "passthrough".data = false := by
          rw [e3]; decide
        have t3 : strings.HasPrefix (deps.ToLower F) "reencrypt".data = true := by
          rw [e3]; decide
        rw [if_neg e1, if_neg e2, if_pos e3, t1, t2, t3]
        simp
      · rw [if_neg e1, if_neg e2, if_neg e3, hvc]

theorem writeLine_tls_witness :
    "Edge (passthrough is also an option)".data =
        "Edge".data ++ " (passthrough is also an option)".data ∧
      (∀ p ∈ ["edge".data, "passthrough".data, "reencrypt".data],
        strings.HasPrefix
            (exampleCollaborators.ToLower "Edge (passthrough is also an option)".data) p =
          strings.HasPrefix (exampleCollaborators.ToLower "Edge".data) p) ∧
      ∃ w kc,
        writeLine ⟨true⟩ exampleCollaborators true
            "TLS Termination:  Edge (passthrough is also an option)".data =
          some (toSpaces (findIndent "TLS Termination:  Edge (passthrough is also an option)".data) ++
            coloredKeyOutput "TLS Termination:".data kc ++ toSpaces w ++
            (Apply "Edge".data
                (if strings.HasPrefix (exampleCollaborators.ToLower "Edge".data) "edge".data =
                    true then
                  routeTLSColorEdge
                else if strings.HasPrefix (exampleCollaborators.ToLower "Edge".data)
                    "passthrough".data = true then
                  routeTLSColorPassthrough
                else if strings.HasPrefix (exampleCollaborators.ToLower "Edge".data)
                    "reencrypt".data = true then
                  routeTLSColorReencrypt
                else exampleCollaborators.getColorByValueType
                  "Edge (passthrough is also an option)".data true) ++
              (if " (passthrough is also an option)".data = [] then []
                else Apply " (passthrough is also an option)".data
                  (exampleCollaborators.getColorByValueType
                    " (passthrough is also an option)".data true))) ++
            "\n".data) :=
  writeLine_tls ⟨true⟩ exampleCollaborators
    "TLS Termination:  Edge (passthrough is also an option)".data "TLS Termination:".data
    "Edge (passthrough is also an option)".data "Edge".data
    " (passthrough is also an option)".data (by decide) (by decide) (by decide) (by decide)
    (by intro a b; simp [exampleCollaborators]) (by decide)

end printer

namespace command

open kubectl

/-! ## The subcommand resolver -/

/-- C33: when the subcommand that `InspectCLICommandInfo` classifies is in
the unsupported set, `ResolveSubcommand` returns `shouldColorize = false`,
for every configuration, every set of marker tokens and whatever the probe of
the terminal returns; the descriptor it returns has the classified
subcommand, and is the classified descriptor when a verb was found. -/
theorem ResolveSubcommand_unsupported (markers : List String)
    (unsupported : List CLICommand) (isOutputTerminal : Bool) (args : List String)
    (config : KubecolorConfig) (info : CLICommandInfo) (found : Bool)
    (hinfo : InspectCLICommandInfo args = some (info, found))
    (hun : info.Subcommand ∈ unsupported) :
    ∃ d, ResolveSubcommand markers unsupported isOutputTerminal args config = some (false, d) ∧
      d.Subcommand = info.Subcommand ∧ (found = true → d = info) := by
  unfold ResolveSubcommand
  rw [hinfo]
  by_cases hs : (!found ∧ !info.Help)
  · refine ⟨{ info with Help := true }, ?_, rfl, ?_⟩
    · simp only [hs, and_self, if_true]
      rw [if_pos hun]
    · intro hf
      rw [hf] at hs
      simp at hs
  · refine ⟨info, ?_, rfl, fun _ => rfl⟩
    simp only [hs, if_false]
    rw [if_pos hun]

theorem ResolveSubcommand_unsupported_witness :
    ∃ d, ResolveSubcommand ["__complete", "__completeNoDesc"]
        [CLICommand.Edit, CLICommand.NewProject, CLICommand.NewApp, CLICommand.Policy] true
        ["new-project", "myproject"]
        { Plain := false, DarkBackground := false, ForceColor := true,
          ShowKubecolorVersion := false, KubectlCmd := "", UseOcCli := false } =
          some (false, d) ∧
      d.Subcommand =
        ({ CLICommandInfo.withArgs ["new-project", "myproject"] with
            Subcommand := CLICommand.NewProject } : CLICommandInfo).Subcommand ∧
      (true = true →
        d = { CLICommandInfo.withArgs ["new-project", "myproject"] with
            Subcommand := CLICommand.NewProject }) :=
  ResolveSubcommand_unsupported ["__complete", "__completeNoDesc"]
    [CLICommand.Edit, CLICommand.NewProject, CLICommand.NewApp, CLICommand.Policy] true
    ["new-project", "myproject"]
    { Plain := false, DarkBackground := false, ForceColor := true,
      ShowKubecolorVersion := false, KubectlCmd := "", UseOcCli := false }
    { CLICommandInfo.withArgs ["new-project", "myproject"] with
        Subcommand := CLICommand.NewProject } true (by decide) (by decide)

/-- C34: for an argument list in which a verb is found, whose subcommand is
not in the unsupported set, and which holds no marker token,
`ResolveSubcommand` returns the classified descriptor and decides by the
first rule that applies: the `Help` flag of the descriptor when `Plain` is
set, otherwise `true` when `ForceColor` is set, otherwise what the probe of
the terminal returns. -/
theorem ResolveSubcommand_supported (markers : List String)
    (unsupported : List CLICommand) (isOutputTerminal : Bool) (args : List String)
    (config : KubecolorConfig) (info : CLICommandInfo)
    (hinfo : InspectCLICommandInfo args = some (info, true))
    (hsup : info.Subcommand ∉ unsupported)
    (hmark : ∀ a ∈ args, a ∉ markers) :
    ResolveSubcommand markers unsupported isOutputTerminal args config =
      some (if config.Plain then info.Help
        else if config.ForceColor then true
        else isOutputTerminal, info) := by
  have hany : (args.any fun a => markers.contains a) = false := by
    rw [List.any_eq_false]
    intro a ha
    simpa using hmark a ha
  unfold ResolveSubcommand
  rw [hinfo]
  simp only [Bool.not_true, Bool.false_eq_true, false_and, if_false, hany]
  rw [if_neg hsup]

theorem ResolveSubcommand_supported_witness :
    ResolveSubcommand ["__complete", "__completeNoDesc"]
        [CLICommand.Edit, CLICommand.NewProject, CLICommand.NewApp, CLICommand.Policy] false
        ["get", "pods"]
        { Plain := true, DarkBackground := true, ForceColor := true,
          ShowKubecolorVersion := false, KubectlCmd := "kubectl", UseOcCli := false } =
      some (false,
        { CLICommandInfo.withArgs ["get", "pods"] with Subcommand := CLICommand.Get }) :=
  ResolveSubcommand_supported ["__complete", "__completeNoDesc"]
    [CLICommand.Edit, CLICommand.NewProject, CLICommand.NewApp, CLICommand.Policy] false
    ["get", "pods"]
    { Plain := true, DarkBackground := true, ForceColor := true,
      ShowKubecolorVersion := false, KubectlCmd := "kubectl", UseOcCli := false }
    { CLICommandInfo.withArgs ["get", "pods"] with Subcommand := CLICommand.Get }
    (by decide) (by decide) (by decide)

end command

namespace kubectl

/-! ## The format scan: the last token decides -/

theorem stepTok_FormatOption_of_no_output (a : String) (nxt : Option String)
    (info : CLICommandInfo) (h1 : HasPrefix a "--output" = false)
    (h2 : HasPrefix a "-o" = false) :
    (stepTok a nxt info).FormatOption = info.FormatOption := by
  unfold stepTok
  simp only [h1, h2, Bool.false_eq_true, if_false]
  split_ifs <;> rfl

theorem scan_FormatOption_of_no_output (l : List String) :
    ∀ (nxt : Option String) (info : CLICommandInfo),
      (∀ a ∈ l, HasPrefix a "--output" = false ∧ HasPrefix a "-o" = false) →
      (scan l nxt info).FormatOption = info.FormatOption := by
  induction l with
  | nil => intro nxt info _; rfl
  | cons a l ih =>
    intro nxt info h
    rw [scan, ih nxt _ (fun b hb => h b (List.mem_cons_of_mem _ hb)),
      stepTok_FormatOption_of_no_output a _ info (h a (List.mem_cons_self _ _)).1
        (h a (List.mem_cons_self _ _)).2]

/-- The tokens that set a recognised format on their own, in one token or as
the bare flag and its value, set it whatever the descriptor was and whatever
follows. -/
theorem scan_setter (mid : List String) (F : FormatOption)
    (hmid : (mid, F) ∈
      [(["--output=json"], FormatOption.Json), (["-ojson"], FormatOption.Json),
       (["-o=json"], FormatOption.Json), (["--output", "json"], FormatOption.Json),
       (["-o", "json"], FormatOption.Json),
       (["--output=yaml"], FormatOption.Yaml), (["-oyaml"], FormatOption.Yaml),
       (["-o=yaml"], FormatOption.Yaml), (["--output", "yaml"], FormatOption.Yaml),
       (["-o", "yaml"], FormatOption.Yaml),
       (["--output=wide"], FormatOption.Wide), (["-owide"], FormatOption.Wide),
       (["-o=wide"], FormatOption.Wide), (["--output", "wide"], FormatOption.Wide),
       (["-o", "wide"], FormatOption.Wide)])
    (nxt : Option String) (info : CLICommandInfo) :
    (scan mid nxt info).FormatOption = F := by
  simp only [List.mem_cons, Prod.mk.injEq, List.mem_singleton, List.not_mem_nil, or_false]
    at hmid
  rcases hmid with ⟨rfl, rfl⟩ | ⟨rfl, rfl⟩ | ⟨rfl, rfl⟩ | ⟨rfl, rfl⟩ | ⟨rfl, rfl⟩ |
    ⟨rfl, rfl⟩ | ⟨rfl, rfl⟩ | ⟨rfl, rfl⟩ | ⟨rfl, rfl⟩ | ⟨rfl, rfl⟩ |
    ⟨rfl, rfl⟩ | ⟨rfl, rfl⟩ | ⟨rfl, rfl⟩ | ⟨rfl, rfl⟩ | ⟨rfl, rfl⟩ <;>
  simp [scan, stepTok, nextOf, applyNext, setFormatFromNext, HasPrefix]

/-- C36: when the argument list is `pre`, then tokens `mid` that set the
recognised format `F` on their own (one token with the value, or the bare
flag and its value), then tokens `post` none of which begins with `--output`
or `-o`, the scan returns with `FormatOption = F`, whatever `pre` holds, other
format tokens included: the later token decides. -/
theorem CollectCommandlineOptions_last_format (pre mid post : List String)
    (F : FormatOption) (info : CLICommandInfo)
    (hmid : (mid, F) ∈
      [(["--output=json"], FormatOption.Json), (["-ojson"], FormatOption.Json),
       (["-o=json"], FormatOption.Json), (["--output", "json"], FormatOption.Json),
       (["-o", "json"], FormatOption.Json),
       (["--output=yaml"], FormatOption.Yaml), (["-oyaml"], FormatOption.Yaml),
       (["-o=yaml"], FormatOption.Yaml), (["--output", "yaml"], FormatOption.Yaml),
       (["-o", "yaml"], FormatOption.Yaml),
       (["--output=wide"], FormatOption.Wide), (["-owide"], FormatOption.Wide),
       (["-o=wide"], FormatOption.Wide), (["--output", "wide"], FormatOption.Wide),
       (["-o", "wide"], FormatOption.Wide)])
    (hpost : ∀ a ∈ post, HasPrefix a "--output" = false ∧ HasPrefix a "-o" = false) :
    ∃ r, CollectCommandlineOptions (pre ++ mid ++ post) info = some r ∧
      r.FormatOption = F := by
  refine ⟨_, CollectCommandlineOptions_eq _ _, ?_⟩
  rw [List.append_assoc, scan_append, scan_append,
    scan_FormatOption_of_no_output post _ _ hpost]
  exact scan_setter mid F hmid _ _

theorem CollectCommandlineOptions_last_format_witness :
    (∃ r, CollectCommandlineOptions (["--output=wide"] ++ ["-o", "json"] ++ ["pods"])
          (CLICommandInfo.withArgs []) = some r ∧
        r.FormatOption = FormatOption.Json) ∧
      (CollectCommandlineOptions ["-ojson", "-oyaml"] (CLICommandInfo.withArgs [])).map
          (fun r => r.FormatOption) = some FormatOption.Yaml ∧
      (CollectCommandlineOptions ["-oyaml", "-ojson"] (CLICommandInfo.withArgs [])).map
          (fun r => r.FormatOption) = some FormatOption.Json :=
  ⟨CollectCommandlineOptions_last_format ["--output=wide"] ["-o", "json"] ["pods"]
      FormatOption.Json (CLICommandInfo.withArgs []) (by decide) (by decide),
    by decide, by decide⟩

end kubectl
